import Mathlib

/-!
# SuperLU symbolic preprocessing: relaxed supernodes, row marking, column preordering

A shallow embedding of `SRC/relax_snode.c`, `SRC/mark_relax.c`,
`SRC/sp_preorder.c` (with `check_perm`) and of the allocation, copy and
work-array routines of `SRC/memory.c` (`superlu_malloc`, `superlu_free`,
`SetIWork`, `copy_mem_int`, `user_bcopy`), with the properties of the design
document proved about it.

## Conventions of the embedding

* `int_t` values are `Int`.  In the matrix routines every quantity computed
  is an index or a count bounded by the dimension `n`, itself an `int_t`, so
  no arithmetic leaves the machine range and no wrap-around is modelled.  The
  byte total of the debug allocator and the products `panel_size * m` of
  `SetIWork` are not bounded so, and are reduced to the width of `int_t`
  (`toIntT`).  Pointer arithmetic is arithmetic on addresses, which are wider
  than the default `int_t`, and is not reduced.
* A C array is seen through its pointer as a total map `Int → Int` from
  index to content (`Arr`).  Reading outside the allocated object reads
  whatever the map holds there; nothing is assumed about it.
* Distinct pointer parameters are distinct arrays (no aliasing); where the
  source works with several pointers into one buffer (`SetIWork`,
  `user_bcopy`), the buffer is one `Arr` and the pointers are offsets.
* Where a claim is about the indices a routine reads, the routine has a
  second definition that carries a log of its reads (`relax_snodeLog`), proved
  to compute what the first computes.
* A `for (i = 0; i < cnt; i++)` loop whose body changes neither `i` nor
  `cnt` is `forLoop`; a loop whose trip count is not known beforehand takes
  a fuel argument and returns `none` when the fuel is used up.
* In `sp_preorder` memory allocation succeeds (the `ABORT` branches after
  `malloc` are not modelled).
* Code of `sp_preorder` under `#ifdef DEBUG` and under `#ifdef ETREE_ATplusA`
  (undefined on line 113) is not compiled and is not modelled.
* An `ABORT` ends the run: a routine that can abort returns an `Except`.
* The system allocator is not among the sources.  The pointer its `malloc`
  returns and the memory its `free` leaves are parameters of
  `superlu_malloc` and `superlu_free`; nothing is assumed about what `free`
  leaves in the block it releases.
* `sp_coletree` and `TreePostorder`, which `sp_preorder` calls and which are
  not among the sources, are parameters (`Collaborators`).
-/

namespace SuperLU

/-! ## Arrays and counted loops -/

/-- A C array of `int_t`, seen through its pointer. -/
abbrev Arr := Int → Int

/-- The assignment `a[i] = v`. -/
def Arr.set (a : Arr) (i v : Int) : Arr := fun k => if k = i then v else a k

/-- An array holding the entries of `l` at `0, 1, ...` and `dflt` elsewhere. -/
def ofList (l : List Int) (dflt : Int) : Arr :=
  fun i => if 0 ≤ i then l.getD i.toNat dflt else dflt

/-- The entries `a[0], ..., a[cnt-1]` as a list. -/
def toList (a : Arr) (cnt : Nat) : List Int := (List.range cnt).map (fun i => a i)

/-- The loop `for (i = 0; i < cnt; i++) s = body i s`. -/
def forLoop {σ : Type} (body : Int → σ → σ) : Nat → σ → σ
  | 0, s => s
  | k + 1, s => body k (forLoop body k s)

/-- Modelled from the spec: the macro `EMPTY` of `slu_util.h` (not among the
sources), the design's "empty sentinel", a value that is no column index. -/
def EMPTY : Int := -1

/-- Modelled from the spec: `ifill(a, alen, ival)` of `util.c` (not among the
sources), which the design describes as initialising `a[0..alen-1]` to `ival`. -/
def ifill (a : Arr) (alen ival : Int) : Arr :=
  forLoop (fun i b => b.set i ival) alen.toNat a

/-! ## `relax_snode` (relax_snode.c) -/

/-- Line 58: `for (j = 0; j < n; j++) descendants[j] = 0;`. -/
def zeroDescendants (n : Int) (descendants : Arr) : Arr :=
  forLoop (fun j d => d.set j 0) n.toNat descendants

/-- Body of the loop of lines 61-65. -/
def countStep (n : Int) (et : Arr) (j : Int) (descendants : Arr) : Arr :=
  let parent := et j
  if parent ≠ n then descendants.set parent (descendants parent + (descendants j + 1))
  else descendants

/-- Lines 61-65: the first `cnt` iterations of the descendant count. -/
def countDescendants (n : Int) (et : Arr) (cnt : Nat) (descendants : Arr) : Arr :=
  forLoop (countStep n et) cnt descendants

/-- Lines 58-65: the array `descendants` when the forward pass is over. -/
def forwardPass (n : Int) (et : Arr) (descendants : Arr) : Arr :=
  countDescendants n et n.toNat (zeroDescendants n descendants)

/-- Lines 71-74: `while (parent != n && descendants[parent] < relax_columns)`,
returning the final `j`. -/
def climb (n : Int) (et descendants : Arr) (relax_columns : Int) :
    Nat → Int → Int → Option Int
  | 0, _, _ => none
  | f + 1, j, parent =>
    if parent ≠ n ∧ descendants parent < relax_columns then
      climb n et descendants relax_columns f parent (et parent)
    else some j

/-- Line 79: `while (descendants[j] != 0 && j < n) j++;`, returning the final `j`. -/
def searchLeaf (n : Int) (descendants : Arr) : Nat → Int → Option Int
  | 0, _ => none
  | f + 1, j =>
    if descendants j ≠ 0 ∧ j < n then searchLeaf n descendants f (j + 1)
    else some j

/-- Lines 68-80: the loop `for (j = 0; j < n; )`, started at `j`. -/
def snodeLoop (n : Int) (et descendants : Arr) (relax_columns : Int) (fuel : Nat) :
    Nat → Int → Arr → Option Arr
  | 0, _, _ => none
  | f + 1, j, relax_end =>
    if j < n then
      let snode_start := j
      match climb n et descendants relax_columns fuel j (et j) with
      | none => none
      | some jlast =>
        match searchLeaf n descendants fuel (jlast + 1) with
        | none => none
        | some jnext =>
          snodeLoop n et descendants relax_columns fuel f jnext
            (relax_end.set snode_start jlast)
    else some relax_end

/-- The routine `relax_snode`: the final `(descendants, relax_end)`, or `none`
when `fuel` loop iterations do not suffice. -/
def relax_snode (fuel : Nat) (n : Int) (et : Arr) (relax_columns : Int)
    (descendants relax_end : Arr) : Option (Arr × Arr) :=
  let relax_end0 := ifill relax_end n EMPTY
  let desc := forwardPass n et descendants
  match snodeLoop n et desc relax_columns fuel fuel 0 relax_end0 with
  | none => none
  | some re => some (desc, re)

/-- The precondition of `relax_snode`: children precede parents, and a parent
is a column or the dummy root `n`. -/
def Postordered (n : Int) (et : Arr) : Prop :=
  ∀ j, 0 ≤ j → j < n → j < et j ∧ et j ≤ n

/-- Column `e` is reached from `s` by following parent pointers, and every
column on the way strictly after `s` has fewer than `rc` descendants. -/
def ClimbPath (et d : Arr) (rc s e : Int) : Prop :=
  ∃ k : Nat, et^[k] s = e ∧ ∀ i : Nat, 1 ≤ i → i ≤ k → d (et^[i] s) < rc

/-- The columns `s..e` are a block as the climb of lines 69-76 produces it. -/
def IsBlock (n : Int) (et d : Arr) (rc s e : Int) : Prop :=
  s ≤ e ∧ e < n ∧ ClimbPath et d rc s e ∧ (et e = n ∨ rc ≤ d (et e))

/-- The parent of a node of the forest: `et k` for a column `k`, and the dummy
root `n` above the dummy root and for anything that is not a column. -/
def parentOf (n : Int) (et : Arr) (k : Int) : Int :=
  if 0 ≤ k ∧ k < n then et k else n

/-- Node `k` is a strict descendant of `j`: the parent chain of `k` (at most
`n` steps long in a forest on `n` columns) passes through `j`. -/
def StrictDescendant (n : Int) (et : Arr) (k j : Int) : Prop :=
  ∃ i ∈ Finset.range n.toNat, (parentOf n et)^[i + 1] k = j

instance (n : Int) (et : Arr) (k j : Int) : Decidable (StrictDescendant n et k j) := by
  unfold StrictDescendant
  infer_instance

/-- The number of strict descendants of `j` among the columns `[0, n)`. -/
def numStrictDescendants (n : Int) (et : Arr) (j : Int) : Nat :=
  ((Finset.Ico 0 n).filter (fun k => k ≠ j ∧ StrictDescendant n et k j)).card

/-- The forest of the design's worked example: six columns, `5` the only root. -/
def exampleEtree : Arr := ofList [1, 2, 5, 5, 5, 6] 0

/-! ## `mark_relax` (mark_relax.c) -/

/-- The loop `for (i = lo; i < hi; i++) s = body i s`. -/
def forRange {σ : Type} (lo hi : Int) (body : Int → σ → σ) (s : σ) : σ :=
  forLoop (fun t => body (lo + t)) (hi - lo).toNat s

/-- Lines 53-54: `for (k = xa_begin[j]; k < xa_end[j]; k++) marker[asub[k]] = jcol;`. -/
def markColumn (xa_begin xa_end asub : Arr) (jcol j : Int) (marker : Arr) : Arr :=
  forRange (xa_begin j) (xa_end j) (fun k m => m.set (asub k) jcol) marker

/-- Lines 50-54: the body of the block loop for the block led by `jcol`. -/
def markBlock (relax_end xa_begin xa_end asub : Arr) (jcol : Int) (marker : Arr) : Arr :=
  let kcol := relax_end jcol
  forRange jcol (kcol + 1) (fun j m => markColumn xa_begin xa_end asub jcol j m) marker

/-- Lines 48-56: `for (i = 0; i < n && relax_fsupc[i] != EMPTY; i++)`, started
at `i`, returning the final `i` and `marker`.  The first argument bounds the
iterations still possible (`n - i`). -/
def markLoop (n : Int) (relax_end relax_fsupc xa_begin xa_end asub : Arr) :
    Nat → Int → Arr → Int × Arr
  | 0, i, marker => (i, marker)
  | f + 1, i, marker =>
    if i < n ∧ relax_fsupc i ≠ EMPTY then
      markLoop n relax_end relax_fsupc xa_begin xa_end asub f (i + 1)
        (markBlock relax_end xa_begin xa_end asub (relax_fsupc i) marker)
    else (i, marker)

/-- The arrays `mark_relax` is called with. -/
structure MarkArrays where
  relax_end : Arr
  relax_fsupc : Arr
  xa_begin : Arr
  xa_end : Arr
  asub : Arr
  marker : Arr

/-- The routine `mark_relax`: the returned count and the arrays on return. -/
def mark_relax (n : Int) (m : MarkArrays) : Int × MarkArrays :=
  let r := markLoop n m.relax_end m.relax_fsupc m.xa_begin m.xa_end m.asub n.toNat 0 m.marker
  (r.1, { m with marker := r.2 })

/-- Row `r` occurs in `asub[xa_begin[j] .. xa_end[j]-1]`. -/
def rowInColumn (m : MarkArrays) (j r : Int) : Prop :=
  ∃ k, m.xa_begin j ≤ k ∧ k < m.xa_end j ∧ m.asub k = r

/-- Row `r` occurs in a column of the block led by `jcol`. -/
def rowInBlock (m : MarkArrays) (jcol r : Int) : Prop :=
  ∃ j, jcol ≤ j ∧ j ≤ m.relax_end jcol ∧ rowInColumn m j r

/-- The blocks listed before the terminator are pairwise column-disjoint. -/
def BlocksColumnDisjoint (n : Int) (m : MarkArrays) : Prop :=
  ∀ i k, 0 ≤ i → i < k → k < (mark_relax n m).1 → ∀ c,
    ¬ ((m.relax_fsupc i ≤ c ∧ c ≤ m.relax_end (m.relax_fsupc i)) ∧
       (m.relax_fsupc k ≤ c ∧ c ≤ m.relax_end (m.relax_fsupc k)))

/-- Two singleton blocks `{0}` and `{1}` of a matrix whose columns `0` and `1`
both have their only entry in row `0`; `marker` starts out empty. -/
def exampleMark : MarkArrays where
  relax_end := ofList [0, 1] EMPTY
  relax_fsupc := ofList [0, 1] EMPTY
  xa_begin := ofList [0, 1] 0
  xa_end := ofList [1, 2] 0
  asub := ofList [0, 0] 0
  marker := fun _ => EMPTY

/-! ## `sp_preorder` (sp_preorder.c) -/

/-- Modelled from the spec: the type `fact_t` of `slu_util.h` (not among the
sources), of which the routine only tests `== DOFACT`. -/
inductive fact_t where
  | DOFACT
  | SamePattern
  | SamePattern_SameRowPerm
  | FACTORED
  deriving DecidableEq, Repr

/-- Modelled from the spec: the type `yes_no_t` of `slu_util.h` (not among the
sources), of which the routine only tests `== NO`. -/
inductive yes_no_t where
  | NO
  | YES
  deriving DecidableEq, Repr

/-- The two fields of `superlu_options_t` that `sp_preorder` reads. -/
structure superlu_options_t where
  Fact : fact_t
  SymmetricMode : yes_no_t

/-- The fields of `SuperMatrix *A` and of its `NCformat` store that are read. -/
structure SuperMatrixNC where
  nrow : Int
  ncol : Int
  nnz : Int
  colptr : Arr
  rowind : Arr

/-- The fields of `SuperMatrix *AC` and of its `NCPformat` store that are written. -/
structure SuperMatrixNCP where
  nrow : Int
  ncol : Int
  nnz : Int
  rowind : Arr
  colbeg : Arr
  colend : Arr

/-- The two external routines `sp_preorder` calls (`sp_coletree.c` is not
among the sources): `sp_coletree(colbeg, colend, rowind, nrow, ncol, etree)`
as the `etree` it leaves, and `TreePostorder(n, etree)` as the array it returns. -/
structure Collaborators where
  sp_coletree : Arr → Arr → Arr → Int → Int → Arr → Arr
  TreePostorder : Int → Arr → Arr

/-- What `sp_preorder` leaves: its in/out arguments, the view `AC`, and `A`. -/
structure PreorderState where
  A : SuperMatrixNC
  perm_c : Arr
  etree : Arr
  AC : SuperMatrixNCP

/-- Lines 107-110: scatter the column pointers of `A` through `perm_c`. -/
def permuteColumns (n : Int) (colptr perm_c : Arr) (colbeg colend : Arr) : Arr × Arr :=
  forLoop (fun i (p : Arr × Arr) =>
    (p.1.set (perm_c i) (colptr i), p.2.set (perm_c i) (colptr (i + 1)))) n.toNat (colbeg, colend)

/-- The idiom of lines 182-185: `iwork[post[i]] = a[i]` for all `i`, then
`a[i] = iwork[i]` for all `i`; returns `(a, iwork)`. -/
def postmultiply (n : Int) (post a iwork : Arr) : Arr × Arr :=
  let iwork1 := forLoop (fun i w => w.set (post i) (a i)) n.toNat iwork
  (forLoop (fun i b => b.set i (iwork1 i)) n.toNat a, iwork1)

/-- Lines 173-175: renumber `etree` in postorder; returns `(etree, iwork)`. -/
def renumberEtree (n : Int) (post etree iwork : Arr) : Arr × Arr :=
  let iwork1 := forLoop (fun i w => w.set (post i) (post (etree i))) n.toNat iwork
  (forLoop (fun i e => e.set i (iwork1 i)) n.toNat etree, iwork1)

/-- Lines 187-189: the product of `perm_c` and `post`; returns `(perm_c, iwork)`. -/
def composePerm (n : Int) (post perm_c iwork : Arr) : Arr × Arr :=
  let iwork1 := forLoop (fun i w => w.set i (post (perm_c i))) n.toNat iwork
  (forLoop (fun i p => p.set i (iwork1 i)) n.toNat perm_c, iwork1)

/-- The routine `sp_preorder`.  `colend0` and `iwork0` are the contents of the
freshly allocated `colend` and `iwork` (`colbeg` comes from `calloc`). -/
def sp_preorder (C : Collaborators) (options : superlu_options_t) (A : SuperMatrixNC)
    (perm_c etree : Arr) (colend0 iwork0 : Arr) : PreorderState :=
  let n := A.ncol
  let cols := permuteColumns n A.colptr perm_c (fun _ => 0) colend0
  if options.Fact = fact_t.DOFACT then
    let etree1 := C.sp_coletree cols.1 cols.2 A.rowind A.nrow A.ncol etree
    if options.SymmetricMode = yes_no_t.NO then
      let post := C.TreePostorder n etree1
      let t := renumberEtree n post etree1 iwork0
      let b := postmultiply n post cols.1 t.2
      let e := postmultiply n post cols.2 b.2
      let p := composePerm n post perm_c e.2
      { A := A, perm_c := p.1, etree := t.1,
        AC := { nrow := A.nrow, ncol := A.ncol, nnz := A.nnz, rowind := A.rowind,
                colbeg := b.1, colend := e.1 } }
    else
      { A := A, perm_c := perm_c, etree := etree1,
        AC := { nrow := A.nrow, ncol := A.ncol, nnz := A.nnz, rowind := A.rowind,
                colbeg := cols.1, colend := cols.2 } }
  else
    { A := A, perm_c := perm_c, etree := etree,
      AC := { nrow := A.nrow, ncol := A.ncol, nnz := A.nnz, rowind := A.rowind,
              colbeg := cols.1, colend := cols.2 } }

/-- The column boundaries `(colbeg, colend)` of the view after step 1. -/
def stepOneView (A : SuperMatrixNC) (perm_c colend0 : Arr) : Arr × Arr :=
  permuteColumns A.ncol A.colptr perm_c (fun _ => 0) colend0

/-- The parent array the elimination-tree collaborator leaves for the view of
step 1 (line 152). -/
def collaboratorEtree (C : Collaborators) (A : SuperMatrixNC) (perm_c etree colend0 : Arr) :
    Arr :=
  C.sp_coletree (stepOneView A perm_c colend0).1 (stepOneView A perm_c colend0).2
    A.rowind A.nrow A.ncol etree

/-- The array `post` returned by the postorder collaborator (line 162). -/
def collaboratorPost (C : Collaborators) (A : SuperMatrixNC) (perm_c etree colend0 : Arr) :
    Arr :=
  C.TreePostorder A.ncol (collaboratorEtree C A perm_c etree colend0)

/-- A matrix with three columns, its column pointers `[0, 1, 3, 4]`. -/
def exampleA : SuperMatrixNC where
  nrow := 3
  ncol := 3
  nnz := 4
  colptr := ofList [0, 1, 3, 4] 0
  rowind := ofList [0, 1, 2, 0] 0

/-- Collaborators returning the forest `[2, 2, 3]` (column `2` the root, `3`
the dummy root) and its postorder `[1, 0, 2]`, extended by `post[3] = 3`. -/
def exampleCollaborators : Collaborators where
  sp_coletree := fun _ _ _ _ _ _ => ofList [2, 2, 3] 0
  TreePostorder := fun _ _ => ofList [1, 0, 2, 3] 0

/-- The column permutation `[2, 0, 1]`. -/
def examplePerm : Arr := ofList [2, 0, 1] 0

/-- First factorisation, postordering not suppressed. -/
def exampleOptions : superlu_options_t where
  Fact := fact_t.DOFACT
  SymmetricMode := yes_no_t.NO

/-- The array `p` is a bijection on `[0, n)`. -/
def IsPerm (n : Int) (p : Arr) : Prop :=
  (∀ i, 0 ≤ i → i < n → 0 ≤ p i ∧ p i < n) ∧
  (∀ i j, 0 ≤ i → i < n → 0 ≤ j → j < n → p i = p j → i = j) ∧
  (∀ k, 0 ≤ k → k < n → ∃ i, 0 ≤ i ∧ i < n ∧ p i = k)

/-! ## `check_perm` (sp_preorder.c) -/

/-- What `check_perm` prints before `ABORT("check_perm")`: the index `i` and
the entry `perm[i]`. -/
structure CheckPermAbort where
  i : Int
  value : Int
  deriving DecidableEq, Repr

/-- Body of the loop of lines 211-218; an abort ends the run. -/
def checkStep (n : Int) (perm : Arr) (i : Int) (s : Except CheckPermAbort Arr) :
    Except CheckPermAbort Arr :=
  match s with
  | Except.error e => Except.error e
  | Except.ok marker =>
    if marker (perm i) = 1 ∨ perm i ≥ n then Except.error ⟨i, perm i⟩
    else Except.ok (marker.set (perm i) 1)

/-- The routine `check_perm`: the value returned, or the abort.  `marker` is
the content of the freshly allocated block and of the memory around it. -/
def check_perm (n : Int) (perm : Arr) (marker : Arr) : Except CheckPermAbort Int :=
  let marker0 := forLoop (fun i m => m.set i 0) n.toNat marker
  match forLoop (checkStep n perm) n.toNat (Except.ok marker0) with
  | Except.error e => Except.error e
  | Except.ok _ => Except.ok 0

/-- Index `i` is the first place where `perm` stops being a bijection: its
entry is out of `[0, n)` or repeats an earlier entry. -/
def BadEntry (n : Int) (perm : Arr) (i : Int) : Prop :=
  perm i < 0 ∨ n ≤ perm i ∨ ∃ k, 0 ≤ k ∧ k < i ∧ perm k = perm i

/-! ## `copy_mem_int` (memory.c) -/

/-- Lines 121-128: `for (i = 0; i < howmany; i++) inew[i] = iold[i];`, returning
both buffers `(iold, inew)` as the loop leaves them. -/
def copy_mem_int (howmany : Int) (iold inew : Arr) : Arr × Arr :=
  forLoop (fun i (p : Arr × Arr) => (p.1, p.2.set i (p.1 i))) howmany.toNat (iold, inew)

/-- A buffer grown several times: each step copies the first `howmany` elements
of the current buffer into a fresh, larger one, which becomes current. -/
def growChain (buf : Arr) : List (Int × Arr) → Arr
  | [] => buf
  | step :: rest => growChain (copy_mem_int step.1 buf step.2).2 rest

/-- A depth-first postorder: children precede parents, and the strict
descendants of every column `j` are exactly the columns of the index interval
`[j - numStrictDescendants j, j)`. -/
def DepthFirstPostordered (n : Int) (et : Arr) : Prop :=
  Postordered n et ∧
  ∀ j k, 0 ≤ j → j < n → 0 ≤ k → k < n →
    (StrictDescendant n et k j ↔ j - numStrictDescendants n et j ≤ k ∧ k < j)

/-- A forest on four columns in which children precede parents but the
subtree of column `2`, the columns `0` and `2`, is no index interval. -/
def exampleInterleaved : Arr := ofList [2, 3, 3, 4] 0

/-! ## Debug allocation (memory.c, `DEBUGlevel >= 1`) -/

/-- The macro `DWORD`, `sizeof(double)`: the bytes in front of a block that
hold its size. -/
def DWORD : Int := 8

/-- The aborts of the debug allocator, one for each message: "superlu_malloc:
out of memory", "superlu_free: tried to free NULL pointer", "... NULL+DWORD
pointer", "... a freed pointer", "superlu_malloc_total went negative!". -/
inductive MemAbort where
  | out_of_memory
  | free_null
  | free_null_plus_dword
  | free_freed
  | total_negative
  deriving DecidableEq, Repr

/-- The state of the debug allocator: the global `superlu_malloc_total` and the
`size_t` words of memory, by address. -/
structure DebugHeap where
  superlu_malloc_total : Int
  word : Arr

/-- Conversion to `int_t`, a two's complement integer of `w` bits (32 by
default, 64 with `_LONGINT`). -/
def toIntT (w : Nat) (x : Int) : Int := Int.bmod x (2 ^ w)

/-- Lines 34-52: `superlu_malloc(size)`, where `buf` is the pointer the system
`malloc(size + DWORD)` returns (`0` for `NULL`).  Returns the pointer handed
out and the new state, or the abort and the state it happened in. -/
def superlu_malloc (w : Nat) (h : DebugHeap) (buf : Int) (size : Nat) :
    Except (MemAbort × DebugHeap) (Int × DebugHeap) :=
  if buf = 0 then Except.error (MemAbort.out_of_memory, h)
  else
    Except.ok (buf + DWORD,
      { superlu_malloc_total := toIntT w (h.superlu_malloc_total + size),
        word := h.word.set buf size })

/-- Lines 54-83: `superlu_free(addr)`, where `sys_free mem p` is the memory that
the system `free(p)` of line 80 leaves when called with the memory `mem` (the
system allocator owns a released block and may keep its own records in it).
Returns the new state, or the abort and the state it happened in. -/
def superlu_free (w : Nat) (sys_free : Arr → Int → Arr) (h : DebugHeap) (addr : Int) :
    Except (MemAbort × DebugHeap) DebugHeap :=
  let p := addr - DWORD
  if addr = 0 then Except.error (MemAbort.free_null, h)
  else if p = 0 then Except.error (MemAbort.free_null_plus_dword, h)
  else
    let n := toIntT w (h.word p)
    if n = 0 then Except.error (MemAbort.free_freed, h)
    else
      let h1 : DebugHeap :=
        { superlu_malloc_total := toIntT w (h.superlu_malloc_total - n),
          word := h.word.set p 0 }
      if h1.superlu_malloc_total < 0 then Except.error (MemAbort.total_negative, h1)
      else Except.ok { h1 with word := sys_free h1.word p }

/-- An empty debug heap: nothing allocated, all words zero. -/
def exampleHeap : DebugHeap where
  superlu_malloc_total := 0
  word := fun _ => 0

/-- A debug heap with 100 bytes in live blocks. -/
def exampleBusyHeap : DebugHeap where
  superlu_malloc_total := 100
  word := fun _ => 0

/-- A debug heap whose running total is the largest 32-bit `int_t`. -/
def exampleFullHeap : DebugHeap where
  superlu_malloc_total := 2147483647
  word := fun _ => 0

/-- A system `free` that leaves the memory as it finds it. -/
def exampleKeepingFree : Arr → Int → Arr := fun mem _ => mem

/-- A system `free` that keeps the link of its free list, here the value `24`,
in the first word of the block it releases. -/
def exampleLinkingFree : Arr → Int → Arr := fun mem p => mem.set p 24

/-! ## `user_bcopy` (memory.c) -/

/-- Line 138: `for (; d_ptr >= dest; --s_ptr, --d_ptr) *d_ptr = *s_ptr;` on the
bytes `mem` of one arena, the pointers being offsets into it. -/
def bcopyLoop (dest : Int) : Nat → Int → Int → Arr → Option Arr
  | 0, _, _, _ => none
  | f + 1, s_ptr, d_ptr, mem =>
    if d_ptr ≥ dest then
      bcopyLoop dest f (s_ptr - 1) (d_ptr - 1) (mem.set d_ptr (mem s_ptr))
    else some mem

/-- The routine `user_bcopy`: the bytes of the arena on return, or `none` when
`fuel` loop iterations do not suffice. -/
def user_bcopy (fuel : Nat) (mem : Arr) (src dest bytes : Int) : Option Arr :=
  let s_ptr := src + bytes - 1
  let d_ptr := dest + bytes - 1
  bcopyLoop dest fuel s_ptr d_ptr mem

/-! ## `SetIWork` (memory.c) -/

/-- What `SetIWork` leaves: the seven pointers it stores, as offsets into
`iworkptr`, and the content of `iworkptr`. -/
structure IWork where
  segrep : Int
  parent : Int
  xplore : Int
  repfnz : Int
  panel_lsub : Int
  xprune : Int
  marker : Int
  iwork : Arr

/-- The call `ifill(a + off, alen, ival)` on a pointer into the array `a`. -/
def ifillAt (a : Arr) (off alen ival : Int) : Arr :=
  fun x => ifill (fun i => a (off + i)) alen ival (x - off)

/-- Lines 104-118: the routine `SetIWork`, for an `int_t` of `w` bits.  The
products `panel_size * m` and `m * panel_size` are products of two `int_t` and
are `int_t`; the sums are sums of a pointer and an `int_t`. -/
def SetIWork (w : Nat) (m n panel_size : Int) (iworkptr : Arr) : IWork :=
  let segrep := 0
  let parent := 0 + m
  let xplore := parent + m
  let repfnz := xplore + m
  let panel_lsub := repfnz + toIntT w (panel_size * m)
  let xprune := panel_lsub + toIntT w (panel_size * m)
  let marker := xprune + n
  let iwork1 := ifillAt iworkptr repfnz (toIntT w (m * panel_size)) EMPTY
  let iwork2 := ifillAt iwork1 panel_lsub (toIntT w (m * panel_size)) EMPTY
  { segrep := segrep, parent := parent, xplore := xplore, repfnz := repfnz,
    panel_lsub := panel_lsub, xprune := xprune, marker := marker, iwork := iwork2 }

/-! ## `relax_snode` with the indices it reads -/

/-- The indices at which a run has read `et`, `descendants` and `relax_end`, the
latest first.  (The routine only assigns to `relax_end`.) -/
structure ReadLog where
  et : List Int
  descendants : List Int
  relax_end : List Int

/-- A read of `et[i]`. -/
def ReadLog.readEt (log : ReadLog) (i : Int) : ReadLog :=
  { log with et := i :: log.et }

/-- A read of `descendants[i]`. -/
def ReadLog.readDescendants (log : ReadLog) (i : Int) : ReadLog :=
  { log with descendants := i :: log.descendants }

/-- Body of the loop of lines 61-65, with its reads: `et[j]`, and for a parent
that is not the dummy root `descendants[parent]` and `descendants[j]`. -/
def countStepLog (n : Int) (et : Arr) (j : Int) (s : Arr × ReadLog) : Arr × ReadLog :=
  let parent := et j
  let log1 := s.2.readEt j
  if parent ≠ n then
    (s.1.set parent (s.1 parent + (s.1 j + 1)),
      (log1.readDescendants parent).readDescendants j)
  else (s.1, log1)

/-- Lines 58-65 with their reads. -/
def forwardPassLog (n : Int) (et : Arr) (descendants : Arr) (log : ReadLog) : Arr × ReadLog :=
  forLoop (countStepLog n et) n.toNat (zeroDescendants n descendants, log)

/-- Lines 71-74 with their reads: `descendants[parent]` is read only when
`parent != n` holds, `et[j]` in the body. -/
def climbLog (n : Int) (et descendants : Arr) (relax_columns : Int) :
    Nat → Int → Int → ReadLog → Option (Int × ReadLog)
  | 0, _, _, _ => none
  | f + 1, j, parent, log =>
    if parent ≠ n then
      let log1 := log.readDescendants parent
      if descendants parent < relax_columns then
        climbLog n et descendants relax_columns f parent (et parent) (log1.readEt parent)
      else some (j, log1)
    else some (j, log)

/-- Line 79 with its reads: the left operand `descendants[j] != 0` is
evaluated in every test of the condition. -/
def searchLeafLog (n : Int) (descendants : Arr) :
    Nat → Int → ReadLog → Option (Int × ReadLog)
  | 0, _, _ => none
  | f + 1, j, log =>
    let log1 := log.readDescendants j
    if descendants j ≠ 0 ∧ j < n then searchLeafLog n descendants f (j + 1) log1
    else some (j, log1)

/-- Lines 68-80 with their reads. -/
def snodeLoopLog (n : Int) (et descendants : Arr) (relax_columns : Int) (fuel : Nat) :
    Nat → Int → Arr → ReadLog → Option (Arr × ReadLog)
  | 0, _, _, _ => none
  | f + 1, j, relax_end, log =>
    if j < n then
      let snode_start := j
      match climbLog n et descendants relax_columns fuel j (et j) (log.readEt j) with
      | none => none
      | some (jlast, log1) =>
        match searchLeafLog n descendants fuel (jlast + 1) log1 with
        | none => none
        | some (jnext, log2) =>
          snodeLoopLog n et descendants relax_columns fuel f jnext
            (relax_end.set snode_start jlast) log2
    else some (relax_end, log)

/-- The routine `relax_snode` with the indices it reads: the final
`(descendants, relax_end)` and the log. -/
def relax_snodeLog (fuel : Nat) (n : Int) (et : Arr) (relax_columns : Int)
    (descendants relax_end : Arr) : Option (Arr × Arr × ReadLog) :=
  let relax_end0 := ifill relax_end n EMPTY
  let fp := forwardPassLog n et descendants ⟨[], [], []⟩
  match snodeLoopLog n et fp.1 relax_columns fuel fuel 0 relax_end0 fp.2 with
  | none => none
  | some (re, log) => some (fp.1, re, log)

/-- Every index in the log is a column, but for `descendants`, where the
index `n` is let through. -/
def ReadLog.UpTo (n : Int) (log : ReadLog) : Prop :=
  (∀ i ∈ log.et, 0 ≤ i ∧ i < n) ∧ (∀ i ∈ log.descendants, 0 ≤ i ∧ i ≤ n) ∧
    log.relax_end = []

/-! ## Counted loops -/

theorem Arr.set_eq (a : Arr) (i v : Int) : a.set i v i = v := by
  simp [Arr.set]

theorem Arr.set_ne (a : Arr) {i k : Int} (v : Int) (h : k ≠ i) : a.set i v k = a k := by
  simp [Arr.set, h]

/-- A loop writing `a[i] = src i` for `i < k` leaves `src` on `[0, k)` and
the old content elsewhere. -/
theorem forLoop_copy (src : Arr) (k : Nat) (a : Arr) (x : Int) :
    forLoop (fun i b => b.set i (src i)) k a x = if 0 ≤ x ∧ x < k then src x else a x := by
  induction k with
  | zero =>
    have : ¬ (0 ≤ x ∧ x < ((0 : Nat) : Int)) := by simp
    simp [forLoop]; omega
  | succ k ih =>
    simp only [forLoop, Arr.set]
    by_cases hx : x = (k : Int)
    · subst hx; simp
    · rw [if_neg hx, ih]
      by_cases h1 : 0 ≤ x ∧ x < (k : Int)
      · have h2 : 0 ≤ x ∧ x < ((k + 1 : Nat) : Int) := ⟨h1.1, by push_cast; omega⟩
        rw [if_pos h1, if_pos h2]
      · have h2 : ¬ (0 ≤ x ∧ x < ((k + 1 : Nat) : Int)) := by push_cast; omega
        rw [if_neg h1, if_neg h2]

theorem ifill_apply (a : Arr) (n v x : Int) :
    ifill a n v x = if 0 ≤ x ∧ x < n then v else a x := by
  unfold ifill
  rw [forLoop_copy (fun _ => v)]
  by_cases h : 0 ≤ x ∧ x < n
  · rw [if_pos h, if_pos ⟨h.1, by omega⟩]
  · rw [if_neg h, if_neg (by omega)]

/-! ## `relax_snode`: the blocks -/

theorem climb_spec {n : Int} {et : Arr} (d : Arr) (rc : Int) (hP : Postordered n et) :
    ∀ (f : Nat) (j : Int), 0 ≤ j → j < n → (n - j).toNat ≤ f →
      ∃ e, climb n et d rc f j (et j) = some e ∧ IsBlock n et d rc j e := by
  intro f
  induction f with
  | zero => intro j h0 h1 hf; omega
  | succ f ih =>
    intro j h0 h1 hf
    obtain ⟨hlt, hle⟩ := hP j h0 h1
    unfold climb
    by_cases h : et j ≠ n ∧ d (et j) < rc
    · rw [if_pos h]
      obtain ⟨e, he, hse, hen, ⟨k, hk, hpath⟩, hstop⟩ :=
        ih (et j) (by omega) (lt_of_le_of_ne hle h.1) (by omega)
      refine ⟨e, he, by omega, hen, ⟨k + 1, ?_, ?_⟩, hstop⟩
      · rw [Function.iterate_succ_apply]; exact hk
      · intro i hi1 hik
        obtain ⟨i, rfl⟩ : ∃ i0, i = i0 + 1 := ⟨i - 1, by omega⟩
        rw [Function.iterate_succ_apply]
        rcases Nat.eq_zero_or_pos i with hi0 | hi0
        · subst hi0; simpa using h.2
        · exact hpath i hi0 (by omega)
    · rw [if_neg h]
      refine ⟨j, rfl, le_refl _, h1, ⟨0, rfl, ?_⟩, ?_⟩
      · intro i hi1 hi0; omega
      · by_cases hr : et j = n
        · exact Or.inl hr
        · right
          by_contra hc
          exact h ⟨hr, by omega⟩

theorem searchLeaf_spec (n : Int) (d : Arr) :
    ∀ (f : Nat) (j : Int), j ≤ n → (n - j).toNat < f →
      ∃ j2, searchLeaf n d f j = some j2 ∧ j ≤ j2 ∧ j2 ≤ n ∧ (j2 = n ∨ d j2 = 0) ∧
        ∀ c, j ≤ c → c < j2 → d c ≠ 0 := by
  intro f
  induction f with
  | zero => intro j _ hf; omega
  | succ f ih =>
    intro j hjn hf
    unfold searchLeaf
    by_cases h : d j ≠ 0 ∧ j < n
    · rw [if_pos h]
      obtain ⟨j2, h2, hle, hn2, hstop, hskip⟩ := ih (j + 1) (by omega) (by omega)
      refine ⟨j2, h2, by omega, hn2, hstop, ?_⟩
      intro c hc1 hc2
      by_cases hcj : c = j
      · subst hcj; exact h.1
      · exact hskip c (by omega) hc2
    · rw [if_neg h]
      refine ⟨j, rfl, le_refl _, hjn, ?_, ?_⟩
      · by_cases hz : d j = 0
        · exact Or.inr hz
        · left
          by_contra hc
          exact h ⟨hz, lt_of_le_of_ne hjn hc⟩
      · intro c hc1 hc2; omega

/-- The loop of lines 68-80, started at a column `j` from which on `relax_end`
is still empty, returns; it writes block ends at block starts only, each
block is a climb, and the blocks are ordered. -/
theorem snodeLoop_spec {n : Int} {et : Arr} (d : Arr) (rc : Int) (hP : Postordered n et)
    (fuel : Nat) (hfuel : n.toNat ≤ fuel) :
    ∀ (f : Nat) (j : Int) (re : Arr), 0 ≤ j → j ≤ n → (n - j).toNat < f →
      (∀ s, j ≤ s → s < n → re s = EMPTY) →
      ∃ re2, snodeLoop n et d rc fuel f j re = some re2 ∧
        (∀ s, s < j ∨ n ≤ s → re2 s = re s) ∧
        (∀ s, j ≤ s → s < n → re2 s ≠ EMPTY → IsBlock n et d rc s (re2 s)) ∧
        (∀ s t, j ≤ s → s < t → t < n → re2 s ≠ EMPTY → re2 t ≠ EMPTY → re2 s < t) := by
  intro f
  induction f with
  | zero => intro j re _ _ hf; omega
  | succ f ih =>
    intro j re h0 hjn hf hE
    unfold snodeLoop
    by_cases hj : j < n
    · rw [if_pos hj]
      obtain ⟨e, he, hblock⟩ := climb_spec d rc hP fuel j h0 hj (by omega)
      obtain ⟨hje, hen, -, -⟩ := id hblock
      obtain ⟨j2, hj2, hle2, hn2, -, -⟩ :=
        searchLeaf_spec n d fuel (e + 1) (by omega) (by omega)
      simp only [he, hj2]
      obtain ⟨re2, hre2, hframe, hblocks, hord⟩ :=
        ih j2 (re.set j e) (by omega) hn2 (by omega) (by
          intro s hs1 hs2
          rw [Arr.set_ne _ _ (by omega)]
          exact hE s (by omega) hs2)
      have hstart : re2 j = e := by
        rw [hframe j (Or.inl (by omega)), Arr.set_eq]
      have hgap : ∀ s, j < s → s < j2 → re2 s = EMPTY := by
        intro s hs1 hs2
        rw [hframe s (Or.inl hs2), Arr.set_ne _ _ (by omega)]
        exact hE s (by omega) (by omega)
      refine ⟨re2, hre2, ?_, ?_, ?_⟩
      · intro s hs
        rw [hframe s (by omega), Arr.set_ne _ _ (by omega)]
      · intro s hs1 hs2 hne
        by_cases hsj : s = j
        · subst hsj; rw [hstart]; exact hblock
        · by_cases hs3 : s < j2
          · exact absurd (hgap s (by omega) hs3) hne
          · exact hblocks s (by omega) hs2 hne
      · intro s t hs1 hst ht hns hnt
        by_cases hsj : s = j
        · subst hsj
          rw [hstart]
          by_cases ht3 : t < j2
          · exact absurd (hgap t hst ht3) hnt
          · omega
        · by_cases hs3 : s < j2
          · exact absurd (hgap s (by omega) hs3) hns
          · exact hord s t (by omega) hst ht hns hnt
    · rw [if_neg hj]
      refine ⟨re, rfl, fun _ _ => rfl, ?_, ?_⟩
      · intro s hs1 hs2; omega
      · intro s t hs1 hst ht; omega

/-- With more than `n` units of fuel `relax_snode` returns, `descendants` is
the result of the forward pass, `relax_end` is untouched outside `[0, n)`, every
non-empty entry closes a block and the blocks are ordered. -/
theorem relax_snode_spec {n : Int} {et : Arr} (rc : Int) (desc0 re0 : Arr) (hn : 0 ≤ n)
    (hP : Postordered n et) (fuel : Nat) (hfuel : n.toNat < fuel) :
    ∃ re, relax_snode fuel n et rc desc0 re0 = some (forwardPass n et desc0, re) ∧
      (∀ s, s < 0 ∨ n ≤ s → re s = re0 s) ∧
      (∀ s, 0 ≤ s → s < n → re s ≠ EMPTY → IsBlock n et (forwardPass n et desc0) rc s (re s)) ∧
      (∀ s t, 0 ≤ s → s < t → t < n → re s ≠ EMPTY → re t ≠ EMPTY → re s < t) := by
  obtain ⟨re, hre, hframe, hblocks, hord⟩ :=
    snodeLoop_spec (forwardPass n et desc0) rc hP fuel (by omega) fuel 0 (ifill re0 n EMPTY)
      (le_refl _) hn (by simpa using hfuel) (by
        intro s hs1 hs2
        rw [ifill_apply, if_pos ⟨hs1, hs2⟩])
  refine ⟨re, ?_, ?_, hblocks, hord⟩
  · unfold relax_snode
    simp only [hre]
  · intro s hs
    rw [hframe s hs, ifill_apply, if_neg (by omega)]

/-! ## `relax_snode`: the descendant count -/

theorem parentOf_col {n : Int} (et : Arr) {k : Int} (h0 : 0 ≤ k) (h1 : k < n) :
    parentOf n et k = et k := by
  simp [parentOf, h0, h1]

theorem parentOf_le {n : Int} {et : Arr} (hP : Postordered n et) (k : Int) :
    parentOf n et k ≤ n := by
  unfold parentOf
  split_ifs with h
  · exact (hP k h.1 h.2).2
  · exact le_refl _

theorem parentOf_step {n : Int} {et : Arr} (hP : Postordered n et) (k : Int) : min (k + 1) n ≤ parentOf n et k := by
  unfold parentOf
  split_ifs with h
  · have := (hP k h.1 h.2).1
    omega
  · omega

/-- After `i` steps the parent chain of `k` is at least `i` columns further,
or at the dummy root. -/
theorem parentOf_iterate_ge {n : Int} {et : Arr} (hP : Postordered n et)
    (k : Int) (i : Nat) : min (k + i) n ≤ (parentOf n et)^[i] k := by
  induction i with
  | zero => simp
  | succ i ih =>
    rw [Function.iterate_succ_apply']
    have hx := parentOf_step hP ((parentOf n et)^[i] k)
    push_cast
    omega

/-- A column occurs at most once on a parent chain. -/
theorem parentOf_iterate_unique {n : Int} {et : Arr} (hP : Postordered n et)
    (k : Int) {a b : Nat} {p : Int} (hp : p < n)
    (ha : (parentOf n et)^[a] k = p) (hb : (parentOf n et)^[b] k = p) : a = b := by
  by_contra hab
  have key : ∀ a b : Nat, a < b → (parentOf n et)^[a] k = p → (parentOf n et)^[b] k = p →
      False := by
    intro a b hlt ha hb
    obtain ⟨c, rfl⟩ : ∃ c, b = c + a := ⟨b - a, by omega⟩
    rw [Function.iterate_add_apply, ha] at hb
    have h1 := parentOf_iterate_ge hP k a
    rw [ha] at h1
    have h2 := parentOf_iterate_ge hP p c
    rw [hb] at h2
    have : (1 : Int) ≤ c := by omega
    omega
  rcases Nat.lt_or_gt_of_ne hab with h | h
  · exact key a b h ha hb
  · exact key b a h hb ha

/-- Exactly one column has `c` as its ancestor at distance `0`: `c` itself. -/
theorem level_zero {n : Int} (et : Arr) {c : Int} (h0 : 0 ≤ c) (h1 : c < n) :
    ((Finset.Ico 0 n).filter (fun k => (parentOf n et)^[0] k = c)).card = 1 := by
  have : (Finset.Ico 0 n).filter (fun k => (parentOf n et)^[0] k = c) = {c} := by
    ext k
    simp only [Function.iterate_zero, id_eq, Finset.mem_filter, Finset.mem_Ico,
      Finset.mem_singleton]
    constructor
    · exact fun h => h.2
    · rintro rfl; exact ⟨⟨h0, h1⟩, rfl⟩
  rw [this, Finset.card_singleton]

/-- No column has an ancestor below the dummy root at distance `n`. -/
theorem level_top {n : Int} {et : Arr} (hn : 0 ≤ n) (hP : Postordered n et) {c : Int}
    (h1 : c < n) :
    ((Finset.Ico 0 n).filter (fun k => (parentOf n et)^[n.toNat] k = c)).card = 0 := by
  rw [Finset.card_eq_zero, Finset.filter_eq_empty_iff]
  intro k hk hc
  rw [Finset.mem_Ico] at hk
  have := parentOf_iterate_ge hP k n.toNat
  rw [hc] at this
  have : ((n.toNat : Nat) : Int) = n := Int.toNat_of_nonneg hn
  omega

/-- The columns at distance `i + 1` below `p` are those at distance `i` below
a child of `p`. -/
theorem level_succ {n : Int} {et : Arr} {p : Int} (h1 : p < n) (i : Nat) :
    ((Finset.Ico 0 n).filter (fun k => (parentOf n et)^[i + 1] k = p)).card =
      ∑ c ∈ (Finset.Ico 0 n).filter (fun c => et c = p),
        ((Finset.Ico 0 n).filter (fun k => (parentOf n et)^[i] k = c)).card := by
  have hmem : ∀ x, parentOf n et x = p → x ∈ (Finset.Ico 0 n).filter (fun c => et c = p) := by
    intro x hx
    unfold parentOf at hx
    split_ifs at hx with h
    · exact Finset.mem_filter.2 ⟨Finset.mem_Ico.2 h, hx⟩
    · omega
  rw [Finset.card_eq_sum_card_fiberwise (f := (parentOf n et)^[i])
    (t := (Finset.Ico 0 n).filter (fun c => et c = p))]
  · apply Finset.sum_congr rfl
    intro c hc
    rw [Finset.mem_filter, Finset.mem_Ico] at hc
    congr 1
    ext k
    simp only [Finset.mem_filter]
    constructor
    · exact fun h => ⟨h.1.1, h.2⟩
    · intro h
      refine ⟨⟨h.1, ?_⟩, h.2⟩
      rw [Function.iterate_succ_apply', h.2, parentOf_col et hc.1.1 hc.1.2]
      exact hc.2
  · intro k hk
    rw [Finset.mem_filter, Function.iterate_succ_apply'] at hk
    exact hmem _ hk.2

/-- The strict descendants of `p`, counted level by level. -/
theorem numStrictDescendants_eq_sum_levels {n : Int} {et : Arr}
    (hP : Postordered n et) {p : Int} (h1 : p < n) :
    numStrictDescendants n et p =
      ∑ i ∈ Finset.range n.toNat,
        ((Finset.Ico 0 n).filter (fun k => (parentOf n et)^[i + 1] k = p)).card := by
  unfold numStrictDescendants
  rw [← Finset.card_biUnion]
  · congr 1
    ext k
    simp only [Finset.mem_filter, Finset.mem_Ico, Finset.mem_biUnion, StrictDescendant]
    constructor
    · rintro ⟨hk, -, i, hi, hip⟩
      exact ⟨i, hi, hk, hip⟩
    · rintro ⟨i, hi, hk, hip⟩
      refine ⟨hk, ?_, i, hi, hip⟩
      have := parentOf_iterate_ge hP k (i + 1)
      rw [hip] at this
      push_cast at this
      omega
  · intro a _ b _ hab
    rw [Finset.disjoint_left]
    intro k hka hkb
    rw [Finset.mem_filter, Finset.mem_Ico] at hka hkb
    have := parentOf_iterate_unique hP k h1 hka.2 hkb.2
    omega

/-- The strict descendants of `p` are its children and their strict descendants. -/
theorem numStrictDescendants_children {n : Int} {et : Arr} (hn : 0 ≤ n)
    (hP : Postordered n et) {p : Int} (h1 : p < n) :
    (numStrictDescendants n et p : Int) =
      ∑ c ∈ (Finset.Ico 0 n).filter (fun c => et c = p),
        ((numStrictDescendants n et c : Int) + 1) := by
  have hlev : ∀ c ∈ (Finset.Ico 0 n).filter (fun c => et c = p),
      ∑ i ∈ Finset.range n.toNat,
        ((Finset.Ico 0 n).filter (fun k => (parentOf n et)^[i] k = c)).card =
      numStrictDescendants n et c + 1 := by
    intro c hc
    rw [Finset.mem_filter, Finset.mem_Ico] at hc
    have e1 := Finset.sum_range_succ
      (fun i => ((Finset.Ico 0 n).filter (fun k => (parentOf n et)^[i] k = c)).card) n.toNat
    have e2 := Finset.sum_range_succ'
      (fun i => ((Finset.Ico 0 n).filter (fun k => (parentOf n et)^[i] k = c)).card) n.toNat
    rw [level_top hn hP hc.1.2] at e1
    rw [level_zero et hc.1.1 hc.1.2] at e2
    rw [numStrictDescendants_eq_sum_levels hP hc.1.2]
    omega
  rw [numStrictDescendants_eq_sum_levels hP h1]
  rw [Finset.sum_congr rfl (fun i _ => level_succ h1 i), Finset.sum_comm]
  push_cast
  apply Finset.sum_congr rfl
  intro c hc
  have := hlev c hc
  exact_mod_cast this

theorem zeroDescendants_apply (n : Int) (d : Arr) (x : Int) :
    zeroDescendants n d x = if 0 ≤ x ∧ x < n then 0 else d x := by
  unfold zeroDescendants
  rw [forLoop_copy (fun _ => 0)]
  by_cases h : 0 ≤ x ∧ x < n
  · rw [if_pos h, if_pos ⟨h.1, by omega⟩]
  · rw [if_neg h, if_neg (by omega)]

theorem Ico_succ_right (m : Int) (hm : 0 ≤ m) :
    Finset.Ico 0 (m + 1) = insert m (Finset.Ico 0 m) := by
  ext x
  simp only [Finset.mem_Ico, Finset.mem_insert]
  omega

/-- The invariant of the loop of lines 61-65: after `m` iterations
`descendants[p]` counts the children of `p` below `m` with their descendants. -/
theorem countDescendants_invariant {n : Int} {et : Arr} (hn : 0 ≤ n) (hP : Postordered n et)
    (desc0 : Arr) :
    ∀ m : Nat, (m : Int) ≤ n → ∀ p, 0 ≤ p → p < n →
      countDescendants n et m (zeroDescendants n desc0) p =
        ∑ c ∈ (Finset.Ico 0 (m : Int)).filter (fun c => et c = p),
          ((numStrictDescendants n et c : Int) + 1) := by
  intro m
  induction m with
  | zero =>
    intro _ p h0 h1
    simp [countDescendants, forLoop, zeroDescendants_apply, h0, h1]
  | succ m ih =>
    intro hm p h0 h1
    push_cast at hm
    have hmn : (m : Int) < n := by omega
    have hm0 : (0 : Int) ≤ m := by omega
    obtain ⟨hlt, hle⟩ := hP m hm0 hmn
    -- the entry of column `m` is final
    have hfin : countDescendants n et m (zeroDescendants n desc0) m =
        numStrictDescendants n et m := by
      rw [ih (by omega) m hm0 hmn, numStrictDescendants_children hn hP hmn]
      apply Finset.sum_congr _ (fun _ _ => rfl)
      ext c
      simp only [Finset.mem_filter, Finset.mem_Ico]
      constructor
      · rintro ⟨⟨hc0, hc1⟩, hc⟩
        exact ⟨⟨hc0, by omega⟩, hc⟩
      · rintro ⟨⟨hc0, hc1⟩, hc⟩
        have := (hP c hc0 hc1).1
        exact ⟨⟨hc0, by omega⟩, hc⟩
    have hstep : countDescendants n et (m + 1) (zeroDescendants n desc0) p =
        countDescendants n et m (zeroDescendants n desc0) p +
          (if et m = p then (numStrictDescendants n et m : Int) + 1 else 0) := by
      show countStep n et (m : Int) (countDescendants n et m (zeroDescendants n desc0)) p = _
      unfold countStep
      by_cases hpar : et m = n
      · simp only [hpar, ne_eq, not_true_eq_false, if_false]
        rw [if_neg (by omega)]
        simp
      · simp only [ne_eq, hpar, not_false_eq_true, if_true]
        by_cases hp : et m = p
        · rw [if_pos hp, ← hp, Arr.set_eq, hfin]
        · rw [if_neg hp, Arr.set_ne _ _ (fun h => hp h.symm)]
          simp
    rw [hstep, ih (by omega) p h0 h1]
    push_cast
    rw [Ico_succ_right _ hm0, Finset.filter_insert]
    by_cases hp : et m = p
    · rw [if_pos hp, if_pos hp, Finset.sum_insert (by simp), add_comm]
    · rw [if_neg hp, if_neg hp, add_zero]

/-- When the forward pass is over, `descendants[j]` is the number of strict
descendants of `j`, whatever `descendants` held before. -/
theorem forwardPass_eq_numStrictDescendants {n : Int} {et : Arr} (hn : 0 ≤ n)
    (hP : Postordered n et) (desc0 : Arr) (j : Int) (h0 : 0 ≤ j) (h1 : j < n) :
    forwardPass n et desc0 j = numStrictDescendants n et j := by
  unfold forwardPass
  rw [countDescendants_invariant hn hP desc0 n.toNat (by omega) j h0 h1,
    numStrictDescendants_children hn hP h1, Int.toNat_of_nonneg hn]

theorem exampleEtree_postordered : Postordered 6 exampleEtree := by
  intro j h0 h1
  have h : j = 0 ∨ j = 1 ∨ j = 2 ∨ j = 3 ∨ j = 4 ∨ j = 5 := by omega
  rcases h with h | h | h | h | h | h <;> subst h <;> decide

/-- C1: for `n ≥ 0`, a forest with `j < et[j] ≤ n` and any `relax_columns`,
`relax_snode` returns and the blocks it records are ordered disjoint intervals
of `[0, n)`: a non-empty `relax_end[s]` satisfies `s ≤ relax_end[s] ≤ n - 1`,
and of two block starts `s < t` the first block ends before `t`. -/
theorem relax_snode_blocks_ordered (n : Int) (et : Arr) (relax_columns : Int)
    (descendants relax_end : Arr) (hn : 0 ≤ n) (hP : Postordered n et)
    (fuel : Nat) (hfuel : n.toNat < fuel) :
    ∃ d re, relax_snode fuel n et relax_columns descendants relax_end = some (d, re) ∧
      (∀ s, 0 ≤ s → s < n → re s ≠ EMPTY → s ≤ re s ∧ re s ≤ n - 1) ∧
      (∀ s t, 0 ≤ s → s < t → t < n → re s ≠ EMPTY → re t ≠ EMPTY → re s < t) := by
  obtain ⟨re, hre, -, hblocks, hord⟩ :=
    relax_snode_spec relax_columns descendants relax_end hn hP fuel hfuel
  refine ⟨_, re, hre, ?_, hord⟩
  intro s h0 h1 hne
  obtain ⟨h2, h3, -, -⟩ := hblocks s h0 h1 hne
  exact ⟨h2, by omega⟩

theorem relax_snode_blocks_ordered_witness :
    (0 : Int) ≤ 6 ∧ Postordered 6 exampleEtree ∧ (6 : Int).toNat < 7 ∧
    ∃ d re, relax_snode 7 6 exampleEtree 2 (fun _ => 9) (fun _ => 8) = some (d, re) ∧
      (∀ s, 0 ≤ s → s < 6 → re s ≠ EMPTY → s ≤ re s ∧ re s ≤ 6 - 1) ∧
      (∀ s t, 0 ≤ s → s < t → t < 6 → re s ≠ EMPTY → re t ≠ EMPTY → re s < t) :=
  ⟨by decide, exampleEtree_postordered, by decide,
    relax_snode_blocks_ordered 6 exampleEtree 2 (fun _ => 9) (fun _ => 8) (by decide)
      exampleEtree_postordered 7 (by decide)⟩

/-- C2: for a forest with `j < et[j] ≤ n`, every block start `s` with
`e = relax_end[s]` has `e` reached from `s` by following parent pointers
through columns with `descendants[.] < relax_columns`, and the climb stopped
because `et[e] == n` or `descendants[et[e]] >= relax_columns`. -/
theorem relax_snode_block_is_climb (n : Int) (et : Arr) (relax_columns : Int)
    (descendants relax_end : Arr) (hn : 0 ≤ n) (hP : Postordered n et)
    (fuel : Nat) (hfuel : n.toNat < fuel) :
    ∃ d re, relax_snode fuel n et relax_columns descendants relax_end = some (d, re) ∧
      ∀ s, 0 ≤ s → s < n → re s ≠ EMPTY →
        ClimbPath et d relax_columns s (re s) ∧
          (et (re s) = n ∨ relax_columns ≤ d (et (re s))) := by
  obtain ⟨re, hre, -, hblocks, -⟩ :=
    relax_snode_spec relax_columns descendants relax_end hn hP fuel hfuel
  refine ⟨_, re, hre, ?_⟩
  intro s h0 h1 hne
  obtain ⟨-, -, h2, h3⟩ := hblocks s h0 h1 hne
  exact ⟨h2, h3⟩

theorem relax_snode_block_is_climb_witness :
    (0 : Int) ≤ 6 ∧ Postordered 6 exampleEtree ∧ (6 : Int).toNat < 7 ∧
    ∃ d re, relax_snode 7 6 exampleEtree 2 (fun _ => 9) (fun _ => 8) = some (d, re) ∧
      ∀ s, 0 ≤ s → s < 6 → re s ≠ EMPTY →
        ClimbPath exampleEtree d 2 s (re s) ∧
          (exampleEtree (re s) = 6 ∨ 2 ≤ d (exampleEtree (re s))) :=
  ⟨by decide, exampleEtree_postordered, by decide,
    relax_snode_block_is_climb 6 exampleEtree 2 (fun _ => 9) (fun _ => 8) (by decide)
      exampleEtree_postordered 7 (by decide)⟩

/-- C3: for a forest in which children precede parents (`j < et[j] ≤ n`),
`relax_snode` returns with `descendants` as its forward pass left it, and
`descendants[j]` is the number of strict descendants of `j` for every `j` in
`[0, n)`, whatever `descendants` held on entry. -/
theorem relax_snode_descendants_count (n : Int) (et : Arr) (relax_columns : Int)
    (descendants relax_end : Arr) (hn : 0 ≤ n) (hP : Postordered n et)
    (fuel : Nat) (hfuel : n.toNat < fuel) :
    ∃ d re, relax_snode fuel n et relax_columns descendants relax_end = some (d, re) ∧
      d = forwardPass n et descendants ∧
      ∀ j, 0 ≤ j → j < n → d j = numStrictDescendants n et j := by
  obtain ⟨re, hre, -, -, -⟩ :=
    relax_snode_spec relax_columns descendants relax_end hn hP fuel hfuel
  exact ⟨_, re, hre, rfl, fun j h0 h1 =>
    forwardPass_eq_numStrictDescendants hn hP descendants j h0 h1⟩

theorem relax_snode_descendants_count_witness :
    (0 : Int) ≤ 6 ∧ Postordered 6 exampleEtree ∧ (6 : Int).toNat < 7 ∧
    ∃ d re, relax_snode 7 6 exampleEtree 2 (fun _ => 9) (fun _ => 8) = some (d, re) ∧
      d = forwardPass 6 exampleEtree (fun _ => 9) ∧
      ∀ j, 0 ≤ j → j < 6 → d j = numStrictDescendants 6 exampleEtree j :=
  ⟨by decide, exampleEtree_postordered, by decide,
    relax_snode_descendants_count 6 exampleEtree 2 (fun _ => 9) (fun _ => 8) (by decide)
      exampleEtree_postordered 7 (by decide)⟩

/-! ## Loops that stamp a value -/

/-- A loop none of whose iterations changes position `r` leaves it as it was. -/
theorem forLoop_keep {body : Int → Arr → Arr} {r : Int} :
    ∀ (k : Nat) (m0 : Arr), (∀ t m, 0 ≤ t → t < (k : Int) → body t m r = m r) →
      forLoop body k m0 r = m0 r := by
  intro k
  induction k with
  | zero => intro m0 _; rfl
  | succ k ih =>
    intro m0 h
    show body k (forLoop body k m0) r = m0 r
    rw [h k _ (by omega) (by push_cast; omega)]
    exact ih m0 (fun t m h0 h1 => h t m h0 (by push_cast; omega))

/-- If iteration `t` writes `v t` at position `r` when `T t` holds and leaves
it otherwise, the position ends up with the value of the last writer. -/
theorem forLoop_last_writer {body : Int → Arr → Arr} {r : Int} {T : Int → Prop}
    {v : Int → Int} (hset : ∀ t m, T t → body t m r = v t)
    (hkeep : ∀ t m, ¬ T t → body t m r = m r) (t0 : Int) (h0 : 0 ≤ t0) (hT0 : T t0) :
    ∀ (k : Nat) (m0 : Arr), t0 < (k : Int) →
      (∀ t, t0 < t → t < (k : Int) → T t → v t = v t0) → forLoop body k m0 r = v t0 := by
  intro k
  induction k with
  | zero => intro m0 h; simp at h; omega
  | succ k ih =>
    intro m0 hlt hlater
    show body k (forLoop body k m0) r = v t0
    push_cast at hlt
    by_cases hT : T (k : Int)
    · rw [hset _ _ hT]
      by_cases hk : (k : Int) = t0
      · rw [hk]
      · exact hlater k (by omega) (by push_cast; omega) hT
    · rw [hkeep _ _ hT]
      have hk : (k : Int) ≠ t0 := fun h => hT (h ▸ hT0)
      exact ih m0 (by omega) (fun t h1 h2 hTt => hlater t h1 (by push_cast; omega) hTt)

theorem forRange_keep {body : Int → Arr → Arr} {r : Int} (lo hi : Int) (m0 : Arr)
    (h : ∀ i m, lo ≤ i → i < hi → body i m r = m r) :
    forRange lo hi body m0 r = m0 r := by
  unfold forRange
  exact forLoop_keep _ m0 (fun t m h0 h1 => h (lo + t) m (by omega) (by omega))

theorem forRange_last_writer {body : Int → Arr → Arr} {r : Int} {T : Int → Prop}
    {v : Int → Int} (hset : ∀ i m, T i → body i m r = v i)
    (hkeep : ∀ i m, ¬ T i → body i m r = m r) (lo hi : Int) (m0 : Arr) (i0 : Int)
    (hlo : lo ≤ i0) (hhi : i0 < hi) (hT0 : T i0)
    (hlater : ∀ i, i0 < i → i < hi → T i → v i = v i0) :
    forRange lo hi body m0 r = v i0 := by
  unfold forRange
  have h := @forLoop_last_writer (fun t => body (lo + t)) r
    (fun t => T (lo + t)) (fun t => v (lo + t))
    (fun t m hT => hset _ m hT) (fun t m hT => hkeep _ m hT) (i0 - lo) (by omega)
    (by simpa using hT0) (hi - lo).toNat m0 (by omega)
    (by
      intro t h1 h2 hT
      have := hlater (lo + t) (by omega) (by omega) hT
      simpa using this)
  simpa using h

/-- Peeling the first iteration off a counted loop. -/
theorem forLoop_front {σ : Type} (body : Int → σ → σ) :
    ∀ (k : Nat) (s : σ),
      forLoop body (k + 1) s = forLoop (fun t => body (t + 1)) k (body 0 s) := by
  intro k
  induction k with
  | zero => intro s; rfl
  | succ k ih =>
    intro s
    show body ((k + 1 : Nat) : Int) (forLoop body (k + 1) s) = _
    rw [ih s]
    show _ = body ((k : Int) + 1) _
    push_cast
    rfl

theorem forRange_front {σ : Type} (body : Int → σ → σ) (lo hi : Int) (s : σ) (h : lo < hi) :
    forRange lo hi body s = forRange (lo + 1) hi body (body lo s) := by
  unfold forRange
  obtain ⟨k, hk⟩ : ∃ k : Nat, (hi - lo).toNat = k + 1 := ⟨(hi - lo).toNat - 1, by omega⟩
  have hk2 : (hi - (lo + 1)).toNat = k := by omega
  rw [hk, hk2, forLoop_front]
  have e : (fun t : Int => body (lo + (t + 1))) = (fun t : Int => body (lo + 1 + t)) := by
    funext t
    rw [show lo + (t + 1) = lo + 1 + t by ring]
  simp only [add_zero]
  rw [e]

theorem forRange_empty {σ : Type} (body : Int → σ → σ) (lo hi : Int) (s : σ) (h : hi ≤ lo) :
    forRange lo hi body s = s := by
  unfold forRange
  have : (hi - lo).toNat = 0 := by omega
  rw [this]
  rfl

/-! ## `mark_relax` -/

theorem markColumn_hit (xa_begin xa_end asub : Arr) (jcol j : Int) (marker : Arr) (r : Int)
    (h : ∃ k, xa_begin j ≤ k ∧ k < xa_end j ∧ asub k = r) :
    markColumn xa_begin xa_end asub jcol j marker r = jcol := by
  obtain ⟨k, h1, h2, h3⟩ := h
  unfold markColumn
  exact forRange_last_writer (T := fun k => asub k = r) (v := fun _ => jcol)
    (fun i m (hT : asub i = r) => by simp [Arr.set, hT])
    (fun i m (hT : ¬ asub i = r) => by
      have : r ≠ asub i := fun e => hT e.symm
      simp [Arr.set, this])
    _ _ marker k h1 h2 h3 (fun _ _ _ _ => rfl)

theorem markColumn_miss (xa_begin xa_end asub : Arr) (jcol j : Int) (marker : Arr) (r : Int)
    (h : ¬ ∃ k, xa_begin j ≤ k ∧ k < xa_end j ∧ asub k = r) :
    markColumn xa_begin xa_end asub jcol j marker r = marker r := by
  unfold markColumn
  apply forRange_keep
  intro i m h1 h2
  have : r ≠ asub i := fun e => h ⟨i, h1, h2, e.symm⟩
  simp [Arr.set, this]

theorem markBlock_hit (m : MarkArrays) (jcol : Int) (marker : Arr) (r : Int)
    (h : rowInBlock m jcol r) :
    markBlock m.relax_end m.xa_begin m.xa_end m.asub jcol marker r = jcol := by
  obtain ⟨j, h1, h2, h3⟩ := h
  unfold markBlock
  exact forRange_last_writer (T := fun j => rowInColumn m j r) (v := fun _ => jcol)
    (fun i mk hT => markColumn_hit _ _ _ _ _ _ _ hT)
    (fun i mk hT => markColumn_miss _ _ _ _ _ _ _ hT)
    _ _ marker j h1 (by omega) h3 (fun _ _ _ _ => rfl)

theorem markBlock_miss (m : MarkArrays) (jcol : Int) (marker : Arr) (r : Int)
    (h : ¬ rowInBlock m jcol r) :
    markBlock m.relax_end m.xa_begin m.xa_end m.asub jcol marker r = marker r := by
  unfold markBlock
  apply forRange_keep
  intro j mk h1 h2
  exact markColumn_miss _ _ _ _ _ _ _ (fun hc => h ⟨j, h1, by omega, hc⟩)

/-- The block loop started at `i` with `n - i` iterations possible: where it
stops, and that it ran the body for each block index in between, in order. -/
theorem markLoop_spec (n : Int) (m : MarkArrays) :
    ∀ (f : Nat) (i : Int) (marker : Arr), f = (n - i).toNat →
      let res := markLoop n m.relax_end m.relax_fsupc m.xa_begin m.xa_end m.asub f i marker
      i ≤ res.1 ∧ ¬ (res.1 < n ∧ m.relax_fsupc res.1 ≠ EMPTY) ∧
      (∀ t, i ≤ t → t < res.1 → t < n ∧ m.relax_fsupc t ≠ EMPTY) ∧
      res.2 = forRange i res.1
        (fun t mk => markBlock m.relax_end m.xa_begin m.xa_end m.asub (m.relax_fsupc t) mk)
        marker := by
  intro f
  induction f with
  | zero =>
    intro i marker hf
    simp only [markLoop]
    refine ⟨le_refl _, fun h => by omega, fun t h1 h2 => by omega, ?_⟩
    rw [forRange_empty _ _ _ _ (le_refl _)]
  | succ f ih =>
    intro i marker hf
    simp only [markLoop]
    by_cases hc : i < n ∧ m.relax_fsupc i ≠ EMPTY
    · rw [if_pos hc]
      obtain ⟨h1, h2, h3, h4⟩ := ih (i + 1)
        (markBlock m.relax_end m.xa_begin m.xa_end m.asub (m.relax_fsupc i) marker) (by omega)
      refine ⟨by omega, h2, ?_, ?_⟩
      · intro t ht1 ht2
        by_cases hti : t = i
        · subst hti; exact hc
        · exact h3 t (by omega) ht2
      · rw [h4, forRange_front _ i _ marker (by omega)]
    · rw [if_neg hc]
      refine ⟨le_refl _, hc, fun t h1 h2 => by omega, ?_⟩
      rw [forRange_empty _ _ _ _ (le_refl _)]

theorem mark_relax_spec (n : Int) (m : MarkArrays) :
    0 ≤ (mark_relax n m).1 ∧
    ¬ ((mark_relax n m).1 < n ∧ m.relax_fsupc (mark_relax n m).1 ≠ EMPTY) ∧
    (∀ t, 0 ≤ t → t < (mark_relax n m).1 → t < n ∧ m.relax_fsupc t ≠ EMPTY) ∧
    (mark_relax n m).2.marker = forRange 0 (mark_relax n m).1
      (fun t mk => markBlock m.relax_end m.xa_begin m.xa_end m.asub (m.relax_fsupc t) mk)
      m.marker := by
  have h := markLoop_spec n m n.toNat 0 m.marker (by simp)
  exact h

/-- A row of a processed block that later blocks only stamp with the same
leading column ends up stamped with it. -/
theorem mark_relax_last_writer (n : Int) (m : MarkArrays) (i0 r : Int) (h0 : 0 ≤ i0)
    (h1 : i0 < (mark_relax n m).1) (hin : rowInBlock m (m.relax_fsupc i0) r)
    (hlater : ∀ i, i0 < i → i < (mark_relax n m).1 → rowInBlock m (m.relax_fsupc i) r →
      m.relax_fsupc i = m.relax_fsupc i0) :
    (mark_relax n m).2.marker r = m.relax_fsupc i0 := by
  rw [(mark_relax_spec n m).2.2.2]
  exact forRange_last_writer (T := fun i => rowInBlock m (m.relax_fsupc i) r)
    (v := fun i => m.relax_fsupc i)
    (fun i mk hT => markBlock_hit m _ mk r hT)
    (fun i mk hT => markBlock_miss m _ mk r hT)
    0 _ m.marker i0 h0 h1 hin hlater

theorem exampleMark_count : (mark_relax 2 exampleMark).1 = 2 := by decide

theorem exampleMark_row0_block0 : rowInBlock exampleMark (exampleMark.relax_fsupc 0) 0 :=
  ⟨0, by decide, by decide, 0, by decide, by decide, by decide⟩

theorem exampleMark_row0_block1 : rowInBlock exampleMark (exampleMark.relax_fsupc 1) 0 :=
  ⟨1, by decide, by decide, 1, by decide, by decide, by decide⟩

theorem exampleMark_disjoint : BlocksColumnDisjoint 2 exampleMark := by
  intro i k h0 hik hk c
  rw [exampleMark_count] at hk
  have hi : i = 0 := by omega
  have hk1 : k = 1 := by omega
  subst hi hk1
  have e1 : exampleMark.relax_fsupc 0 = 0 := by decide
  have e2 : exampleMark.relax_end 0 = 0 := by decide
  have e3 : exampleMark.relax_fsupc 1 = 1 := by decide
  have e4 : exampleMark.relax_end 1 = 1 := by decide
  rw [e1, e2, e3, e4]
  omega

/-- C4 as stated fails: with the column-disjoint blocks `{0}` and `{1}` of
`exampleMark`, row `0` occurs in column `0` of the block led by `0`, yet
`mark_relax` leaves `marker[0] == 1`. -/
theorem mark_relax_column_disjoint_counterexample :
    ¬ (∀ (n : Int) (m : MarkArrays), BlocksColumnDisjoint n m →
        ∀ i r, 0 ≤ i → i < (mark_relax n m).1 → rowInBlock m (m.relax_fsupc i) r →
          (mark_relax n m).2.marker r = m.relax_fsupc i) := by
  intro h
  have h1 := h 2 exampleMark exampleMark_disjoint 0 0 (le_refl _)
    (by rw [exampleMark_count]; decide) exampleMark_row0_block0
  revert h1
  decide

/-- C4 (amended): a row `r` that occurs in a column of a processed block with
leading column `L`, and in later listed blocks only if they have the same
leading column, has `marker[r] == L` after the call. -/
theorem mark_relax_marks_block_rows (n : Int) (m : MarkArrays) (i0 r : Int) (h0 : 0 ≤ i0)
    (h1 : i0 < (mark_relax n m).1) (hin : rowInBlock m (m.relax_fsupc i0) r)
    (hlater : ∀ i, i0 < i → i < (mark_relax n m).1 → rowInBlock m (m.relax_fsupc i) r →
      m.relax_fsupc i = m.relax_fsupc i0) :
    (mark_relax n m).2.marker r = m.relax_fsupc i0 := by
  obtain ⟨-, -, -, hrun⟩ := mark_relax_spec n m
  rw [hrun]
  refine @forRange_last_writer _ r (fun i => rowInBlock m (m.relax_fsupc i) r)
    (fun i => m.relax_fsupc i) ?_ ?_ 0 _ m.marker i0 h0 h1 hin hlater
  · intro i mk hT
    exact markBlock_hit m _ mk r hT
  · intro i mk hT
    exact markBlock_miss m _ mk r hT

theorem mark_relax_marks_block_rows_witness :
    (0 : Int) ≤ 1 ∧ 1 < (mark_relax 2 exampleMark).1 ∧
    rowInBlock exampleMark (exampleMark.relax_fsupc 1) 0 ∧
    (∀ i, 1 < i → i < (mark_relax 2 exampleMark).1 →
      rowInBlock exampleMark (exampleMark.relax_fsupc i) 0 →
      exampleMark.relax_fsupc i = exampleMark.relax_fsupc 1) ∧
    (mark_relax 2 exampleMark).2.marker 0 = exampleMark.relax_fsupc 1 :=
  have hl : ∀ i, 1 < i → i < (mark_relax 2 exampleMark).1 →
      rowInBlock exampleMark (exampleMark.relax_fsupc i) 0 →
      exampleMark.relax_fsupc i = exampleMark.relax_fsupc 1 := by
    intro i hi1 hi2
    rw [exampleMark_count] at hi2
    omega
  ⟨by decide, by rw [exampleMark_count]; decide, exampleMark_row0_block1, hl,
    mark_relax_marks_block_rows 2 exampleMark 1 0 (by decide)
      (by rw [exampleMark_count]; decide) exampleMark_row0_block1 hl⟩

/-- C5: a row that occurs in no column of any processed block keeps the
`marker` entry it had before the call, and `mark_relax` leaves the arrays
`relax_end`, `relax_fsupc`, `xa_begin`, `xa_end` and `asub` as they were. -/
theorem mark_relax_frame (n : Int) (m : MarkArrays) (r : Int)
    (h : ∀ i, 0 ≤ i → i < (mark_relax n m).1 → ¬ rowInBlock m (m.relax_fsupc i) r) :
    (mark_relax n m).2.marker r = m.marker r ∧
    (mark_relax n m).2.relax_end = m.relax_end ∧
    (mark_relax n m).2.relax_fsupc = m.relax_fsupc ∧
    (mark_relax n m).2.xa_begin = m.xa_begin ∧
    (mark_relax n m).2.xa_end = m.xa_end ∧
    (mark_relax n m).2.asub = m.asub := by
  refine ⟨?_, rfl, rfl, rfl, rfl, rfl⟩
  rw [(mark_relax_spec n m).2.2.2]
  apply forRange_keep
  intro i mk hi0 hi1
  exact markBlock_miss m _ mk r (h i hi0 hi1)

theorem exampleMark_row1_unused :
    ∀ i, 0 ≤ i → i < (mark_relax 2 exampleMark).1 →
      ¬ rowInBlock exampleMark (exampleMark.relax_fsupc i) 1 := by
  intro i h0 h1
  rw [exampleMark_count] at h1
  rintro ⟨j, -, -, k, hk1, hk2, hk3⟩
  by_cases hk : 0 ≤ k
  · have h2 : k = 0 ∨ k = 1 ∨ 2 ≤ k := by omega
    have e : ∀ x : Int, 2 ≤ x → exampleMark.asub x = 0 := by
      intro x hx
      obtain ⟨y, rfl⟩ : ∃ y : Nat, x = y + 2 := ⟨(x - 2).toNat, by omega⟩
      show ofList [0, 0] 0 ((y : Int) + 2) = 0
      unfold ofList
      rw [if_pos (by omega)]
      have : ((y : Int) + 2).toNat = y + 2 := by omega
      rw [this]
      rfl
    rcases h2 with h2 | h2 | h2
    · subst h2; revert hk3; decide
    · subst h2; revert hk3; decide
    · rw [e k h2] at hk3; omega
  · have : exampleMark.asub k = 0 := by
      show ofList [0, 0] 0 k = 0
      unfold ofList
      rw [if_neg hk]
    omega

theorem mark_relax_frame_witness :
    (∀ i, 0 ≤ i → i < (mark_relax 2 exampleMark).1 →
      ¬ rowInBlock exampleMark (exampleMark.relax_fsupc i) 1) ∧
    ((mark_relax 2 exampleMark).2.marker 1 = exampleMark.marker 1 ∧
    (mark_relax 2 exampleMark).2.relax_end = exampleMark.relax_end ∧
    (mark_relax 2 exampleMark).2.relax_fsupc = exampleMark.relax_fsupc ∧
    (mark_relax 2 exampleMark).2.xa_begin = exampleMark.xa_begin ∧
    (mark_relax 2 exampleMark).2.xa_end = exampleMark.xa_end ∧
    (mark_relax 2 exampleMark).2.asub = exampleMark.asub) :=
  ⟨exampleMark_row1_unused, mark_relax_frame 2 exampleMark 1 exampleMark_row1_unused⟩

/-- C6: for `n ≥ 0`, `mark_relax` returns the least `i` in `[0, n]` with
`i == n` or `relax_fsupc[i] == EMPTY`, and `marker` on return is the result of
running the block body for `relax_fsupc[0], ..., relax_fsupc[i-1]` in order. -/
theorem mark_relax_count (n : Int) (m : MarkArrays) (hn : 0 ≤ n) :
    0 ≤ (mark_relax n m).1 ∧ (mark_relax n m).1 ≤ n ∧
    ((mark_relax n m).1 = n ∨ m.relax_fsupc (mark_relax n m).1 = EMPTY) ∧
    (∀ i, 0 ≤ i → i < (mark_relax n m).1 → ¬ (i = n ∨ m.relax_fsupc i = EMPTY)) ∧
    (mark_relax n m).2.marker = forRange 0 (mark_relax n m).1
      (fun i mk => markBlock m.relax_end m.xa_begin m.xa_end m.asub (m.relax_fsupc i) mk)
      m.marker := by
  obtain ⟨h0, hstop, hrun, hmk⟩ := mark_relax_spec n m
  have hle : (mark_relax n m).1 ≤ n := by
    by_cases hz : (mark_relax n m).1 = 0
    · omega
    · have := (hrun ((mark_relax n m).1 - 1) (by omega) (by omega)).1
      omega
  refine ⟨h0, hle, ?_, ?_, hmk⟩
  · by_cases hc : (mark_relax n m).1 = n
    · exact Or.inl hc
    · right
      by_contra hne
      exact hstop ⟨lt_of_le_of_ne hle hc, hne⟩
  · intro i hi0 hi1
    obtain ⟨h2, h3⟩ := hrun i hi0 hi1
    rintro (h | h)
    · omega
    · exact h3 h

theorem mark_relax_count_witness :
    (0 : Int) ≤ 2 ∧
    (0 ≤ (mark_relax 2 exampleMark).1 ∧ (mark_relax 2 exampleMark).1 ≤ 2 ∧
    ((mark_relax 2 exampleMark).1 = 2 ∨
      exampleMark.relax_fsupc (mark_relax 2 exampleMark).1 = EMPTY) ∧
    (∀ i, 0 ≤ i → i < (mark_relax 2 exampleMark).1 →
      ¬ (i = 2 ∨ exampleMark.relax_fsupc i = EMPTY)) ∧
    (mark_relax 2 exampleMark).2.marker = forRange 0 (mark_relax 2 exampleMark).1
      (fun i mk => markBlock exampleMark.relax_end exampleMark.xa_begin exampleMark.xa_end
        exampleMark.asub (exampleMark.relax_fsupc i) mk)
      exampleMark.marker) :=
  ⟨by decide, mark_relax_count 2 exampleMark (by decide)⟩

/-! ## Scatter loops -/

/-- A loop writing `w[idx i] = val i` through an index that is injective on
`[0, k)` leaves `val j` at `idx j`. -/
theorem forLoop_scatter (idx val : Arr) (k : Nat) (w0 : Arr)
    (hinj : ∀ i j, 0 ≤ i → i < (k : Int) → 0 ≤ j → j < (k : Int) → idx i = idx j → i = j)
    (j : Int) (h0 : 0 ≤ j) (h1 : j < (k : Int)) :
    forLoop (fun i w => w.set (idx i) (val i)) k w0 (idx j) = val j := by
  refine forLoop_last_writer (T := fun t => idx t = idx j) (v := val) ?_ ?_ j h0 rfl k w0 h1 ?_
  · intro t m (hT : idx t = idx j)
    simp [Arr.set, hT]
  · intro t m (hT : ¬ idx t = idx j)
    have : idx j ≠ idx t := fun e => hT e.symm
    simp [Arr.set, this]
  · intro t ht1 ht2 (hT : idx t = idx j)
    have := hinj t j (by omega) ht2 h0 h1 hT
    omega

theorem forLoop_pair {α β : Type} (f : Int → α → α) (g : Int → β → β) :
    ∀ (k : Nat) (a : α) (b : β),
      forLoop (fun i (p : α × β) => (f i p.1, g i p.2)) k (a, b) =
        (forLoop f k a, forLoop g k b) := by
  intro k
  induction k with
  | zero => intro a b; rfl
  | succ k ih =>
    intro a b
    show (fun i (p : α × β) => (f i p.1, g i p.2)) (k : Int)
      (forLoop (fun i (p : α × β) => (f i p.1, g i p.2)) k (a, b)) = _
    rw [ih a b]
    rfl

/-! ## `sp_preorder` -/

theorem IsPerm.inj_toNat {n : Int} {p : Arr} (h : IsPerm n p) :
    ∀ i j, 0 ≤ i → i < (n.toNat : Int) → 0 ≤ j → j < (n.toNat : Int) → p i = p j → i = j :=
  fun i j hi0 hi1 hj0 hj1 => h.2.1 i j hi0 (by omega) hj0 (by omega)

/-- Step 1 (lines 107-110) puts the boundaries of original column `i` at
position `perm_c[i]` of the view. -/
theorem stepOneView_apply (A : SuperMatrixNC) (perm_c colend0 : Arr)
    (hperm : IsPerm A.ncol perm_c) (i : Int) (h0 : 0 ≤ i) (h1 : i < A.ncol) :
    (stepOneView A perm_c colend0).1 (perm_c i) = A.colptr i ∧
    (stepOneView A perm_c colend0).2 (perm_c i) = A.colptr (i + 1) := by
  unfold stepOneView permuteColumns
  have e := forLoop_pair (fun i (w : Arr) => w.set (perm_c i) (A.colptr i))
    (fun i (w : Arr) => w.set (perm_c i) (A.colptr (i + 1))) A.ncol.toNat (fun _ => 0) colend0
  simp only at e
  rw [e]
  exact ⟨forLoop_scatter perm_c A.colptr _ _ hperm.inj_toNat i h0 (by omega),
    forLoop_scatter perm_c (fun i => A.colptr (i + 1)) _ _ hperm.inj_toNat i h0 (by omega)⟩

/-- The idiom of lines 182-185 moves the entry at `j` to position `post[j]`. -/
theorem postmultiply_apply (n : Int) (post a iwork : Arr) (hpost : IsPerm n post)
    (j : Int) (h0 : 0 ≤ j) (h1 : j < n) :
    (postmultiply n post a iwork).1 (post j) = a j := by
  unfold postmultiply
  obtain ⟨hp0, hp1⟩ := hpost.1 j h0 h1
  simp only
  rw [forLoop_copy, if_pos ⟨hp0, by omega⟩]
  exact forLoop_scatter post a _ _ hpost.inj_toNat j h0 (by omega)

theorem renumberEtree_apply (n : Int) (post etree iwork : Arr) (hpost : IsPerm n post)
    (j : Int) (h0 : 0 ≤ j) (h1 : j < n) :
    (renumberEtree n post etree iwork).1 (post j) = post (etree j) := by
  unfold renumberEtree
  obtain ⟨hp0, hp1⟩ := hpost.1 j h0 h1
  simp only
  rw [forLoop_copy, if_pos ⟨hp0, by omega⟩]
  exact forLoop_scatter post (fun i => post (etree i)) _ _ hpost.inj_toNat j h0 (by omega)

theorem composePerm_apply (n : Int) (post perm_c iwork : Arr) (i : Int) (h0 : 0 ≤ i)
    (h1 : i < n) : (composePerm n post perm_c iwork).1 i = post (perm_c i) := by
  unfold composePerm
  simp only
  rw [forLoop_copy, if_pos ⟨h0, by omega⟩,
    forLoop_copy (fun i => post (perm_c i)), if_pos ⟨h0, by omega⟩]

/-- What `sp_preorder` leaves when `Fact == DOFACT` and `SymmetricMode == NO`. -/
theorem sp_preorder_postordered (C : Collaborators) (options : superlu_options_t)
    (A : SuperMatrixNC) (perm_c etree colend0 iwork0 : Arr)
    (hF : options.Fact = fact_t.DOFACT) (hS : options.SymmetricMode = yes_no_t.NO) :
    sp_preorder C options A perm_c etree colend0 iwork0 =
      let post := collaboratorPost C A perm_c etree colend0
      let cols := stepOneView A perm_c colend0
      let t := renumberEtree A.ncol post (collaboratorEtree C A perm_c etree colend0) iwork0
      let b := postmultiply A.ncol post cols.1 t.2
      let e := postmultiply A.ncol post cols.2 b.2
      let p := composePerm A.ncol post perm_c e.2
      { A := A, perm_c := p.1, etree := t.1,
        AC := { nrow := A.nrow, ncol := A.ncol, nnz := A.nnz, rowind := A.rowind,
                colbeg := b.1, colend := e.1 } } := by
  unfold sp_preorder
  simp only [hF, hS, if_true]
  rfl

/-- What `sp_preorder` leaves when the postorder step is not taken. -/
theorem sp_preorder_view_only (C : Collaborators) (options : superlu_options_t)
    (A : SuperMatrixNC) (perm_c etree colend0 iwork0 : Arr)
    (h : ¬ (options.Fact = fact_t.DOFACT ∧ options.SymmetricMode = yes_no_t.NO)) :
    (sp_preorder C options A perm_c etree colend0 iwork0).perm_c = perm_c ∧
    (sp_preorder C options A perm_c etree colend0 iwork0).AC.colbeg =
      (stepOneView A perm_c colend0).1 ∧
    (sp_preorder C options A perm_c etree colend0 iwork0).AC.colend =
      (stepOneView A perm_c colend0).2 := by
  unfold sp_preorder
  by_cases hF : options.Fact = fact_t.DOFACT
  · have hS : ¬ options.SymmetricMode = yes_no_t.NO := fun hS => h ⟨hF, hS⟩
    rw [if_pos hF, if_neg hS]
    exact ⟨rfl, rfl, rfl⟩
  · rw [if_neg hF]
    exact ⟨rfl, rfl, rfl⟩

theorem examplePerm_isPerm : IsPerm exampleA.ncol examplePerm := by
  have cases3 : ∀ i : Int, 0 ≤ i → i < exampleA.ncol → i = 0 ∨ i = 1 ∨ i = 2 := by
    intro i h0 h1
    have : exampleA.ncol = 3 := rfl
    omega
  refine ⟨?_, ?_, ?_⟩
  · intro i h0 h1
    rcases cases3 i h0 h1 with h | h | h <;> subst h <;> decide
  · intro i j hi0 hi1 hj0 hj1
    rcases cases3 i hi0 hi1 with h | h | h <;> rcases cases3 j hj0 hj1 with g | g | g <;>
      subst h <;> subst g <;> decide
  · intro k h0 h1
    rcases cases3 k h0 h1 with h | h | h <;> subst h
    · exact ⟨1, by decide, by decide, by decide⟩
    · exact ⟨2, by decide, by decide, by decide⟩
    · exact ⟨0, by decide, by decide, by decide⟩

theorem examplePost_isPerm (etree colend0 : Arr) :
    IsPerm exampleA.ncol (collaboratorPost exampleCollaborators exampleA examplePerm etree
      colend0) := by
  have cases3 : ∀ i : Int, 0 ≤ i → i < exampleA.ncol → i = 0 ∨ i = 1 ∨ i = 2 := by
    intro i h0 h1
    have : exampleA.ncol = 3 := rfl
    omega
  show IsPerm exampleA.ncol (ofList [1, 0, 2, 3] 0)
  refine ⟨?_, ?_, ?_⟩
  · intro i h0 h1
    rcases cases3 i h0 h1 with h | h | h <;> subst h <;> decide
  · intro i j hi0 hi1 hj0 hj1
    rcases cases3 i hi0 hi1 with h | h | h <;> rcases cases3 j hj0 hj1 with g | g | g <;>
      subst h <;> subst g <;> decide
  · intro k h0 h1
    rcases cases3 k h0 h1 with h | h | h <;> subst h
    · exact ⟨1, by decide, by decide, by decide⟩
    · exact ⟨0, by decide, by decide, by decide⟩
    · exact ⟨2, by decide, by decide, by decide⟩

theorem exampleTree_range (etree colend0 : Arr) :
    ∀ j, 0 ≤ j → j < exampleA.ncol →
      0 ≤ collaboratorEtree exampleCollaborators exampleA examplePerm etree colend0 j ∧
      collaboratorEtree exampleCollaborators exampleA examplePerm etree colend0 j ≤
        exampleA.ncol := by
  intro j h0 h1
  have h3 : exampleA.ncol = 3 := rfl
  have : j = 0 ∨ j = 1 ∨ j = 2 := by omega
  show 0 ≤ ofList [2, 2, 3] 0 j ∧ ofList [2, 2, 3] 0 j ≤ 3
  rcases this with h | h | h <;> subst h <;> decide

theorem examplePost_order (etree colend0 : Arr) :
    ∀ j, 0 ≤ j → j < exampleA.ncol →
      collaboratorPost exampleCollaborators exampleA examplePerm etree colend0 j <
        collaboratorPost exampleCollaborators exampleA examplePerm etree colend0
          (collaboratorEtree exampleCollaborators exampleA examplePerm etree colend0 j) := by
  intro j h0 h1
  have h3 : exampleA.ncol = 3 := rfl
  have : j = 0 ∨ j = 1 ∨ j = 2 := by omega
  show ofList [1, 0, 2, 3] 0 j < ofList [1, 0, 2, 3] 0 (ofList [2, 2, 3] 0 j)
  rcases this with h | h | h <;> subst h <;> decide

/-- C7: in every mode, for bijections `perm_c` and `post` on `[0, n)`, the
view agrees with the `perm_c` left on exit: `AC.colbeg[perm_c_out[i]] ==
A.colptr[i]` and `AC.colend[perm_c_out[i]] == A.colptr[i+1]` for every original
column `i`. -/
theorem sp_preorder_view_agrees (C : Collaborators) (options : superlu_options_t)
    (A : SuperMatrixNC) (perm_c etree colend0 iwork0 : Arr)
    (hperm : IsPerm A.ncol perm_c)
    (hpost : IsPerm A.ncol (collaboratorPost C A perm_c etree colend0)) :
    ∀ i, 0 ≤ i → i < A.ncol →
      (sp_preorder C options A perm_c etree colend0 iwork0).AC.colbeg
        ((sp_preorder C options A perm_c etree colend0 iwork0).perm_c i) = A.colptr i ∧
      (sp_preorder C options A perm_c etree colend0 iwork0).AC.colend
        ((sp_preorder C options A perm_c etree colend0 iwork0).perm_c i) = A.colptr (i + 1) := by
  intro i h0 h1
  obtain ⟨hp0, hp1⟩ := hperm.1 i h0 h1
  obtain ⟨hb, he⟩ := stepOneView_apply A perm_c colend0 hperm i h0 h1
  by_cases h : options.Fact = fact_t.DOFACT ∧ options.SymmetricMode = yes_no_t.NO
  · rw [sp_preorder_postordered C options A perm_c etree colend0 iwork0 h.1 h.2]
    simp only
    rw [composePerm_apply _ _ _ _ i h0 h1,
      postmultiply_apply _ _ _ _ hpost (perm_c i) hp0 hp1,
      postmultiply_apply _ _ _ _ hpost (perm_c i) hp0 hp1]
    exact ⟨hb, he⟩
  · obtain ⟨e1, e2, e3⟩ := sp_preorder_view_only C options A perm_c etree colend0 iwork0 h
    rw [e1, e2, e3]
    exact ⟨hb, he⟩

theorem sp_preorder_view_agrees_witness :
    IsPerm exampleA.ncol examplePerm ∧
    IsPerm exampleA.ncol (collaboratorPost exampleCollaborators exampleA examplePerm
      (fun _ => 0) (fun _ => 7)) ∧
    ∀ i, 0 ≤ i → i < exampleA.ncol →
      (sp_preorder exampleCollaborators exampleOptions exampleA examplePerm (fun _ => 0)
        (fun _ => 7) (fun _ => 8)).AC.colbeg
        ((sp_preorder exampleCollaborators exampleOptions exampleA examplePerm (fun _ => 0)
          (fun _ => 7) (fun _ => 8)).perm_c i) = exampleA.colptr i ∧
      (sp_preorder exampleCollaborators exampleOptions exampleA examplePerm (fun _ => 0)
        (fun _ => 7) (fun _ => 8)).AC.colend
        ((sp_preorder exampleCollaborators exampleOptions exampleA examplePerm (fun _ => 0)
          (fun _ => 7) (fun _ => 8)).perm_c i) = exampleA.colptr (i + 1) :=
  ⟨examplePerm_isPerm, examplePost_isPerm _ _,
    sp_preorder_view_agrees exampleCollaborators exampleOptions exampleA examplePerm
      (fun _ => 0) (fun _ => 7) (fun _ => 8) examplePerm_isPerm (examplePost_isPerm _ _)⟩

/-- C8: when `Fact == DOFACT` and `SymmetricMode == NO`, for bijections
`perm_c` and `post` on `[0, n)`, the `perm_c` written by `sp_preorder` is
`post[perm_c_in[i]]` at every `i` and is a bijection on `[0, n)`. -/
theorem sp_preorder_perm_composed (C : Collaborators) (options : superlu_options_t)
    (A : SuperMatrixNC) (perm_c etree colend0 iwork0 : Arr)
    (hF : options.Fact = fact_t.DOFACT) (hS : options.SymmetricMode = yes_no_t.NO)
    (hperm : IsPerm A.ncol perm_c)
    (hpost : IsPerm A.ncol (collaboratorPost C A perm_c etree colend0)) :
    (∀ i, 0 ≤ i → i < A.ncol →
      (sp_preorder C options A perm_c etree colend0 iwork0).perm_c i =
        collaboratorPost C A perm_c etree colend0 (perm_c i)) ∧
    IsPerm A.ncol (sp_preorder C options A perm_c etree colend0 iwork0).perm_c := by
  have hval : ∀ i, 0 ≤ i → i < A.ncol →
      (sp_preorder C options A perm_c etree colend0 iwork0).perm_c i =
        collaboratorPost C A perm_c etree colend0 (perm_c i) := by
    intro i h0 h1
    rw [sp_preorder_postordered C options A perm_c etree colend0 iwork0 hF hS]
    simp only
    rw [composePerm_apply _ _ _ _ i h0 h1]
  refine ⟨hval, ?_, ?_, ?_⟩
  · intro i h0 h1
    rw [hval i h0 h1]
    obtain ⟨hp0, hp1⟩ := hperm.1 i h0 h1
    exact hpost.1 _ hp0 hp1
  · intro i j hi0 hi1 hj0 hj1 hij
    rw [hval i hi0 hi1, hval j hj0 hj1] at hij
    obtain ⟨hp0, hp1⟩ := hperm.1 i hi0 hi1
    obtain ⟨hq0, hq1⟩ := hperm.1 j hj0 hj1
    exact hperm.2.1 i j hi0 hi1 hj0 hj1 (hpost.2.1 _ _ hp0 hp1 hq0 hq1 hij)
  · intro k h0 h1
    obtain ⟨j, hj0, hj1, hjk⟩ := hpost.2.2 k h0 h1
    obtain ⟨i, hi0, hi1, hij⟩ := hperm.2.2 j hj0 hj1
    exact ⟨i, hi0, hi1, by rw [hval i hi0 hi1, hij, hjk]⟩

theorem sp_preorder_perm_composed_witness :
    exampleOptions.Fact = fact_t.DOFACT ∧ exampleOptions.SymmetricMode = yes_no_t.NO ∧
    IsPerm exampleA.ncol examplePerm ∧
    IsPerm exampleA.ncol (collaboratorPost exampleCollaborators exampleA examplePerm
      (fun _ => 0) (fun _ => 7)) ∧
    ((∀ i, 0 ≤ i → i < exampleA.ncol →
      (sp_preorder exampleCollaborators exampleOptions exampleA examplePerm (fun _ => 0)
        (fun _ => 7) (fun _ => 8)).perm_c i =
        collaboratorPost exampleCollaborators exampleA examplePerm (fun _ => 0) (fun _ => 7)
          (examplePerm i)) ∧
    IsPerm exampleA.ncol (sp_preorder exampleCollaborators exampleOptions exampleA examplePerm
      (fun _ => 0) (fun _ => 7) (fun _ => 8)).perm_c) :=
  ⟨rfl, rfl, examplePerm_isPerm, examplePost_isPerm _ _,
    sp_preorder_perm_composed exampleCollaborators exampleOptions exampleA examplePerm
      (fun _ => 0) (fun _ => 7) (fun _ => 8) rfl rfl examplePerm_isPerm
      (examplePost_isPerm _ _)⟩

/-- C9: when `Fact == DOFACT` and `SymmetricMode == NO`, with `post` a
bijection on `[0, n)` and `post[n] == n`, the tree left by `sp_preorder` is the
collaborator's tree relabelled by `post`: `etree_out[post[j]] ==
post[etree_in[j]]` for `j` in `[0, n)`, and, `etree_in[j]` being a parent
pointer in `[0, n]`, `j` is a root of the input tree iff `post[j]` is a root of
the output tree. -/
theorem sp_preorder_etree_relabelled (C : Collaborators) (options : superlu_options_t)
    (A : SuperMatrixNC) (perm_c etree colend0 iwork0 : Arr)
    (hF : options.Fact = fact_t.DOFACT) (hS : options.SymmetricMode = yes_no_t.NO)
    (hpost : IsPerm A.ncol (collaboratorPost C A perm_c etree colend0))
    (hpostn : collaboratorPost C A perm_c etree colend0 A.ncol = A.ncol) :
    ∀ j, 0 ≤ j → j < A.ncol →
      (sp_preorder C options A perm_c etree colend0 iwork0).etree
          (collaboratorPost C A perm_c etree colend0 j) =
        collaboratorPost C A perm_c etree colend0
          (collaboratorEtree C A perm_c etree colend0 j) ∧
      (0 ≤ collaboratorEtree C A perm_c etree colend0 j →
        collaboratorEtree C A perm_c etree colend0 j ≤ A.ncol →
        (collaboratorEtree C A perm_c etree colend0 j = A.ncol ↔
          (sp_preorder C options A perm_c etree colend0 iwork0).etree
            (collaboratorPost C A perm_c etree colend0 j) = A.ncol)) := by
  intro j h0 h1
  have hval : (sp_preorder C options A perm_c etree colend0 iwork0).etree
      (collaboratorPost C A perm_c etree colend0 j) =
      collaboratorPost C A perm_c etree colend0
        (collaboratorEtree C A perm_c etree colend0 j) := by
    rw [sp_preorder_postordered C options A perm_c etree colend0 iwork0 hF hS]
    simp only
    rw [renumberEtree_apply _ _ _ _ hpost j h0 h1]
  refine ⟨hval, ?_⟩
  intro hlo hhi
  rw [hval]
  constructor
  · intro h
    rw [h, hpostn]
  · intro h
    by_contra hne
    have := (hpost.1 _ hlo (lt_of_le_of_ne hhi hne)).2
    omega

theorem sp_preorder_etree_relabelled_witness :
    exampleOptions.Fact = fact_t.DOFACT ∧ exampleOptions.SymmetricMode = yes_no_t.NO ∧
    IsPerm exampleA.ncol (collaboratorPost exampleCollaborators exampleA examplePerm
      (fun _ => 0) (fun _ => 7)) ∧
    collaboratorPost exampleCollaborators exampleA examplePerm (fun _ => 0) (fun _ => 7)
      exampleA.ncol = exampleA.ncol ∧
    ∀ j, 0 ≤ j → j < exampleA.ncol →
      (sp_preorder exampleCollaborators exampleOptions exampleA examplePerm (fun _ => 0)
        (fun _ => 7) (fun _ => 8)).etree
          (collaboratorPost exampleCollaborators exampleA examplePerm (fun _ => 0)
            (fun _ => 7) j) =
        collaboratorPost exampleCollaborators exampleA examplePerm (fun _ => 0) (fun _ => 7)
          (collaboratorEtree exampleCollaborators exampleA examplePerm (fun _ => 0)
            (fun _ => 7) j) ∧
      (0 ≤ collaboratorEtree exampleCollaborators exampleA examplePerm (fun _ => 0)
          (fun _ => 7) j →
        collaboratorEtree exampleCollaborators exampleA examplePerm (fun _ => 0)
          (fun _ => 7) j ≤ exampleA.ncol →
        (collaboratorEtree exampleCollaborators exampleA examplePerm (fun _ => 0)
            (fun _ => 7) j = exampleA.ncol ↔
          (sp_preorder exampleCollaborators exampleOptions exampleA examplePerm (fun _ => 0)
            (fun _ => 7) (fun _ => 8)).etree
            (collaboratorPost exampleCollaborators exampleA examplePerm (fun _ => 0)
              (fun _ => 7) j) = exampleA.ncol)) :=
  ⟨rfl, rfl, examplePost_isPerm _ _, by decide,
    sp_preorder_etree_relabelled exampleCollaborators exampleOptions exampleA examplePerm
      (fun _ => 0) (fun _ => 7) (fun _ => 8) rfl rfl (examplePost_isPerm _ _) (by decide)⟩

/-- C10: when `Fact == DOFACT` and `SymmetricMode == NO` and `post` is a
postorder numbering of the collaborator's tree (a parent array with entries in
`[0, n]`; `post` a bijection on `[0, n)`, `post[n] == n`, `post[j] <
post[etree_in[j]]`), the tree left by `sp_preorder` has `k < etree_out[k] ≤ n`
for every `k` in `[0, n)`. -/
theorem sp_preorder_etree_postordered (C : Collaborators) (options : superlu_options_t)
    (A : SuperMatrixNC) (perm_c etree colend0 iwork0 : Arr)
    (hF : options.Fact = fact_t.DOFACT) (hS : options.SymmetricMode = yes_no_t.NO)
    (hpost : IsPerm A.ncol (collaboratorPost C A perm_c etree colend0))
    (hpostn : collaboratorPost C A perm_c etree colend0 A.ncol = A.ncol)
    (htree : ∀ j, 0 ≤ j → j < A.ncol →
      0 ≤ collaboratorEtree C A perm_c etree colend0 j ∧
      collaboratorEtree C A perm_c etree colend0 j ≤ A.ncol)
    (horder : ∀ j, 0 ≤ j → j < A.ncol →
      collaboratorPost C A perm_c etree colend0 j <
        collaboratorPost C A perm_c etree colend0
          (collaboratorEtree C A perm_c etree colend0 j)) :
    Postordered A.ncol (sp_preorder C options A perm_c etree colend0 iwork0).etree := by
  intro k h0 h1
  obtain ⟨j, hj0, hj1, hjk⟩ := hpost.2.2 k h0 h1
  have hval : (sp_preorder C options A perm_c etree colend0 iwork0).etree k =
      collaboratorPost C A perm_c etree colend0
        (collaboratorEtree C A perm_c etree colend0 j) := by
    rw [sp_preorder_postordered C options A perm_c etree colend0 iwork0 hF hS, ← hjk]
    simp only
    rw [renumberEtree_apply _ _ _ _ hpost j hj0 hj1]
  rw [hval]
  obtain ⟨hlo, hhi⟩ := htree j hj0 hj1
  refine ⟨by rw [← hjk]; exact horder j hj0 hj1, ?_⟩
  by_cases hr : collaboratorEtree C A perm_c etree colend0 j = A.ncol
  · rw [hr, hpostn]
  · have := (hpost.1 _ hlo (lt_of_le_of_ne hhi hr)).2
    omega

theorem sp_preorder_etree_postordered_witness :
    exampleOptions.Fact = fact_t.DOFACT ∧ exampleOptions.SymmetricMode = yes_no_t.NO ∧
    IsPerm exampleA.ncol (collaboratorPost exampleCollaborators exampleA examplePerm
      (fun _ => 0) (fun _ => 7)) ∧
    collaboratorPost exampleCollaborators exampleA examplePerm (fun _ => 0) (fun _ => 7)
      exampleA.ncol = exampleA.ncol ∧
    (∀ j, 0 ≤ j → j < exampleA.ncol →
      0 ≤ collaboratorEtree exampleCollaborators exampleA examplePerm (fun _ => 0)
        (fun _ => 7) j ∧
      collaboratorEtree exampleCollaborators exampleA examplePerm (fun _ => 0)
        (fun _ => 7) j ≤ exampleA.ncol) ∧
    (∀ j, 0 ≤ j → j < exampleA.ncol →
      collaboratorPost exampleCollaborators exampleA examplePerm (fun _ => 0) (fun _ => 7) j <
        collaboratorPost exampleCollaborators exampleA examplePerm (fun _ => 0) (fun _ => 7)
          (collaboratorEtree exampleCollaborators exampleA examplePerm (fun _ => 0)
            (fun _ => 7) j)) ∧
    Postordered exampleA.ncol (sp_preorder exampleCollaborators exampleOptions exampleA
      examplePerm (fun _ => 0) (fun _ => 7) (fun _ => 8)).etree :=
  ⟨rfl, rfl, examplePost_isPerm _ _, by decide, exampleTree_range _ _, examplePost_order _ _,
    sp_preorder_etree_postordered exampleCollaborators exampleOptions exampleA examplePerm
      (fun _ => 0) (fun _ => 7) (fun _ => 8) rfl rfl (examplePost_isPerm _ _) (by decide)
      (exampleTree_range _ _) (examplePost_order _ _)⟩

/-! ## `sp_preorder`: the modes without postordering -/

theorem sp_preorder_etree_no_fact (C : Collaborators) (options : superlu_options_t)
    (A : SuperMatrixNC) (perm_c etree colend0 iwork0 : Arr)
    (hF : options.Fact ≠ fact_t.DOFACT) :
    (sp_preorder C options A perm_c etree colend0 iwork0).etree = etree := by
  unfold sp_preorder
  rw [if_neg hF]

theorem sp_preorder_etree_symmetric (C : Collaborators) (options : superlu_options_t)
    (A : SuperMatrixNC) (perm_c etree colend0 iwork0 : Arr)
    (hF : options.Fact = fact_t.DOFACT) (hS : options.SymmetricMode ≠ yes_no_t.NO) :
    (sp_preorder C options A perm_c etree colend0 iwork0).etree =
      collaboratorEtree C A perm_c etree colend0 := by
  unfold sp_preorder
  rw [if_pos hF, if_neg hS]
  rfl

theorem sp_preorder_A (C : Collaborators) (options : superlu_options_t)
    (A : SuperMatrixNC) (perm_c etree colend0 iwork0 : Arr) :
    (sp_preorder C options A perm_c etree colend0 iwork0).A = A := by
  unfold sp_preorder
  split_ifs <;> rfl

/-- Re-factorisation, the pattern of the previous factorisation reused. -/
theorem exampleRefactor_not_dofact :
    (superlu_options_t.mk fact_t.SamePattern yes_no_t.NO).Fact ≠ fact_t.DOFACT := by
  decide

/-- C11: when `Fact != DOFACT`, `sp_preorder` leaves `perm_c` and `etree` as
they were on entry, the view holds the boundaries scattered by step 1, which
for a permutation vector `perm_c` means `AC.colbeg[perm_c[i]] == A.colptr[i]`
and `AC.colend[perm_c[i]] == A.colptr[i+1]` for every `i`; and in no mode is
`A` (its `colptr`, its `rowind`) written. -/
theorem sp_preorder_refactor_frame (C : Collaborators) (options : superlu_options_t)
    (A : SuperMatrixNC) (perm_c etree colend0 iwork0 : Arr)
    (hF : options.Fact ≠ fact_t.DOFACT) :
    (sp_preorder C options A perm_c etree colend0 iwork0).perm_c = perm_c ∧
    (sp_preorder C options A perm_c etree colend0 iwork0).etree = etree ∧
    (sp_preorder C options A perm_c etree colend0 iwork0).AC.colbeg =
      (stepOneView A perm_c colend0).1 ∧
    (sp_preorder C options A perm_c etree colend0 iwork0).AC.colend =
      (stepOneView A perm_c colend0).2 ∧
    (IsPerm A.ncol perm_c → ∀ i, 0 ≤ i → i < A.ncol →
      (sp_preorder C options A perm_c etree colend0 iwork0).AC.colbeg (perm_c i) =
        A.colptr i ∧
      (sp_preorder C options A perm_c etree colend0 iwork0).AC.colend (perm_c i) =
        A.colptr (i + 1)) ∧
    (∀ mode : superlu_options_t,
      (sp_preorder C mode A perm_c etree colend0 iwork0).A = A ∧
      (sp_preorder C mode A perm_c etree colend0 iwork0).AC.rowind = A.rowind) := by
  obtain ⟨e1, e2, e3⟩ := sp_preorder_view_only C options A perm_c etree colend0 iwork0
    (fun h => hF h.1)
  refine ⟨e1, sp_preorder_etree_no_fact C options A perm_c etree colend0 iwork0 hF, e2, e3,
    ?_, ?_⟩
  · intro hperm i h0 h1
    rw [e2, e3]
    exact stepOneView_apply A perm_c colend0 hperm i h0 h1
  · intro mode
    refine ⟨sp_preorder_A C mode A perm_c etree colend0 iwork0, ?_⟩
    unfold sp_preorder
    split_ifs <;> rfl

theorem sp_preorder_refactor_frame_witness :
    (superlu_options_t.mk fact_t.SamePattern yes_no_t.NO).Fact ≠ fact_t.DOFACT ∧
    ((sp_preorder exampleCollaborators (superlu_options_t.mk fact_t.SamePattern yes_no_t.NO)
        exampleA examplePerm (ofList [2, 2, 3] 0) (fun _ => 7) (fun _ => 8)).perm_c =
      examplePerm ∧
    (sp_preorder exampleCollaborators (superlu_options_t.mk fact_t.SamePattern yes_no_t.NO)
        exampleA examplePerm (ofList [2, 2, 3] 0) (fun _ => 7) (fun _ => 8)).etree =
      ofList [2, 2, 3] 0 ∧
    (sp_preorder exampleCollaborators (superlu_options_t.mk fact_t.SamePattern yes_no_t.NO)
        exampleA examplePerm (ofList [2, 2, 3] 0) (fun _ => 7) (fun _ => 8)).AC.colbeg =
      (stepOneView exampleA examplePerm (fun _ => 7)).1 ∧
    (sp_preorder exampleCollaborators (superlu_options_t.mk fact_t.SamePattern yes_no_t.NO)
        exampleA examplePerm (ofList [2, 2, 3] 0) (fun _ => 7) (fun _ => 8)).AC.colend =
      (stepOneView exampleA examplePerm (fun _ => 7)).2 ∧
    (IsPerm exampleA.ncol examplePerm → ∀ i, 0 ≤ i → i < exampleA.ncol →
      (sp_preorder exampleCollaborators (superlu_options_t.mk fact_t.SamePattern yes_no_t.NO)
        exampleA examplePerm (ofList [2, 2, 3] 0) (fun _ => 7) (fun _ => 8)).AC.colbeg
          (examplePerm i) = exampleA.colptr i ∧
      (sp_preorder exampleCollaborators (superlu_options_t.mk fact_t.SamePattern yes_no_t.NO)
        exampleA examplePerm (ofList [2, 2, 3] 0) (fun _ => 7) (fun _ => 8)).AC.colend
          (examplePerm i) = exampleA.colptr (i + 1)) ∧
    (∀ mode : superlu_options_t,
      (sp_preorder exampleCollaborators mode exampleA examplePerm (ofList [2, 2, 3] 0)
        (fun _ => 7) (fun _ => 8)).A = exampleA ∧
      (sp_preorder exampleCollaborators mode exampleA examplePerm (ofList [2, 2, 3] 0)
        (fun _ => 7) (fun _ => 8)).AC.rowind = exampleA.rowind)) :=
  ⟨exampleRefactor_not_dofact,
    sp_preorder_refactor_frame exampleCollaborators
      (superlu_options_t.mk fact_t.SamePattern yes_no_t.NO) exampleA examplePerm
      (ofList [2, 2, 3] 0) (fun _ => 7) (fun _ => 8) exampleRefactor_not_dofact⟩

/-- C12: when `Fact == DOFACT` and `SymmetricMode != NO`, `sp_preorder` takes no
postorder step: `perm_c` is as on entry, `etree` is the parent array returned
by the elimination-tree collaborator for the view of step 1, and the view holds
the boundaries of step 1, which for a permutation vector `perm_c` means
`AC.colbeg[perm_c[i]] == A.colptr[i]` and `AC.colend[perm_c[i]] ==
A.colptr[i+1]`. -/
theorem sp_preorder_symmetric_mode (C : Collaborators) (options : superlu_options_t)
    (A : SuperMatrixNC) (perm_c etree colend0 iwork0 : Arr)
    (hF : options.Fact = fact_t.DOFACT) (hS : options.SymmetricMode ≠ yes_no_t.NO) :
    (sp_preorder C options A perm_c etree colend0 iwork0).perm_c = perm_c ∧
    (sp_preorder C options A perm_c etree colend0 iwork0).etree =
      collaboratorEtree C A perm_c etree colend0 ∧
    (sp_preorder C options A perm_c etree colend0 iwork0).AC.colbeg =
      (stepOneView A perm_c colend0).1 ∧
    (sp_preorder C options A perm_c etree colend0 iwork0).AC.colend =
      (stepOneView A perm_c colend0).2 ∧
    (IsPerm A.ncol perm_c → ∀ i, 0 ≤ i → i < A.ncol →
      (sp_preorder C options A perm_c etree colend0 iwork0).AC.colbeg (perm_c i) =
        A.colptr i ∧
      (sp_preorder C options A perm_c etree colend0 iwork0).AC.colend (perm_c i) =
        A.colptr (i + 1)) := by
  obtain ⟨e1, e2, e3⟩ := sp_preorder_view_only C options A perm_c etree colend0 iwork0
    (fun h => hS h.2)
  refine ⟨e1, sp_preorder_etree_symmetric C options A perm_c etree colend0 iwork0 hF hS,
    e2, e3, ?_⟩
  intro hperm i h0 h1
  rw [e2, e3]
  exact stepOneView_apply A perm_c colend0 hperm i h0 h1

theorem exampleSymmetric_mode :
    (superlu_options_t.mk fact_t.DOFACT yes_no_t.YES).SymmetricMode ≠ yes_no_t.NO := by
  decide

theorem sp_preorder_symmetric_mode_witness :
    (superlu_options_t.mk fact_t.DOFACT yes_no_t.YES).Fact = fact_t.DOFACT ∧
    (superlu_options_t.mk fact_t.DOFACT yes_no_t.YES).SymmetricMode ≠ yes_no_t.NO ∧
    ((sp_preorder exampleCollaborators (superlu_options_t.mk fact_t.DOFACT yes_no_t.YES)
        exampleA examplePerm (fun _ => 0) (fun _ => 7) (fun _ => 8)).perm_c = examplePerm ∧
    (sp_preorder exampleCollaborators (superlu_options_t.mk fact_t.DOFACT yes_no_t.YES)
        exampleA examplePerm (fun _ => 0) (fun _ => 7) (fun _ => 8)).etree =
      collaboratorEtree exampleCollaborators exampleA examplePerm (fun _ => 0) (fun _ => 7) ∧
    (sp_preorder exampleCollaborators (superlu_options_t.mk fact_t.DOFACT yes_no_t.YES)
        exampleA examplePerm (fun _ => 0) (fun _ => 7) (fun _ => 8)).AC.colbeg =
      (stepOneView exampleA examplePerm (fun _ => 7)).1 ∧
    (sp_preorder exampleCollaborators (superlu_options_t.mk fact_t.DOFACT yes_no_t.YES)
        exampleA examplePerm (fun _ => 0) (fun _ => 7) (fun _ => 8)).AC.colend =
      (stepOneView exampleA examplePerm (fun _ => 7)).2 ∧
    (IsPerm exampleA.ncol examplePerm → ∀ i, 0 ≤ i → i < exampleA.ncol →
      (sp_preorder exampleCollaborators (superlu_options_t.mk fact_t.DOFACT yes_no_t.YES)
        exampleA examplePerm (fun _ => 0) (fun _ => 7) (fun _ => 8)).AC.colbeg
          (examplePerm i) = exampleA.colptr i ∧
      (sp_preorder exampleCollaborators (superlu_options_t.mk fact_t.DOFACT yes_no_t.YES)
        exampleA examplePerm (fun _ => 0) (fun _ => 7) (fun _ => 8)).AC.colend
          (examplePerm i) = exampleA.colptr (i + 1))) :=
  ⟨rfl, exampleSymmetric_mode,
    sp_preorder_symmetric_mode exampleCollaborators
      (superlu_options_t.mk fact_t.DOFACT yes_no_t.YES) exampleA examplePerm
      (fun _ => 0) (fun _ => 7) (fun _ => 8) rfl exampleSymmetric_mode⟩

/-! ## `check_perm` -/

theorem checkStep_error (n : Int) (perm : Arr) (e : CheckPermAbort) :
    ∀ (k j : Nat) (s : Except CheckPermAbort Arr),
      forLoop (checkStep n perm) j s = Except.error e →
      j ≤ k → forLoop (checkStep n perm) k s = Except.error e := by
  intro k
  induction k with
  | zero =>
    intro j s h hj
    have : j = 0 := by omega
    subst this
    exact h
  | succ k ih =>
    intro j s h hj
    by_cases hjk : j = k + 1
    · subst hjk; exact h
    · show checkStep n perm k (forLoop (checkStep n perm) k s) = _
      rw [ih j s h (by omega)]
      rfl

/-- While no entry is bad, the marker records exactly the entries seen so far. -/
theorem checkLoop_good (n : Int) (perm marker0 : Arr)
    (hzero : ∀ x, 0 ≤ x → x < n → marker0 x = 0) :
    ∀ k : Nat, (∀ i, 0 ≤ i → i < (k : Int) → ¬ BadEntry n perm i) →
      ∃ m, forLoop (checkStep n perm) k (Except.ok marker0) = Except.ok m ∧
        (∀ x, (∃ i, 0 ≤ i ∧ i < (k : Int) ∧ perm i = x) → m x = 1) ∧
        (∀ x, (¬ ∃ i, 0 ≤ i ∧ i < (k : Int) ∧ perm i = x) → m x = marker0 x) := by
  intro k
  induction k with
  | zero =>
    intro _
    refine ⟨marker0, rfl, ?_, fun _ _ => rfl⟩
    rintro x ⟨i, h0, h1, -⟩
    simp at h1
    omega
  | succ k ih =>
    intro hgood
    obtain ⟨m, hm, hone, hkeep⟩ := ih (fun i h0 h1 => hgood i h0 (by push_cast; omega))
    have hk := hgood k (by omega) (by push_cast; omega)
    have hlo : 0 ≤ perm k := by
      by_contra h
      exact hk (Or.inl (by omega))
    have hhi : perm k < n := by
      by_contra h
      exact hk (Or.inr (Or.inl (by omega)))
    have hnew : ¬ ∃ i, 0 ≤ i ∧ i < (k : Int) ∧ perm i = perm k :=
      fun h => hk (Or.inr (Or.inr h))
    have hmk : m (perm k) = 0 := by rw [hkeep _ hnew, hzero _ hlo hhi]
    have hcond : ¬ (m (perm k) = 1 ∨ perm k ≥ n) := by
      rw [hmk]
      omega
    refine ⟨m.set (perm k) 1, ?_, ?_, ?_⟩
    · show checkStep n perm k (forLoop (checkStep n perm) k (Except.ok marker0)) = _
      rw [hm]
      show (if m (perm k) = 1 ∨ perm k ≥ n then _ else _) = _
      rw [if_neg hcond]
    · rintro x ⟨i, h0, h1, hx⟩
      push_cast at h1
      by_cases hxk : x = perm k
      · rw [hxk, Arr.set_eq]
      · rw [Arr.set_ne _ _ hxk]
        refine hone x ⟨i, h0, ?_, hx⟩
        by_contra hc
        have : i = k := by omega
        rw [this] at hx
        exact hxk hx.symm
    · intro x hx
      have hxk : x ≠ perm k := fun h => hx ⟨k, by omega, by push_cast; omega, h.symm⟩
      rw [Arr.set_ne _ _ hxk]
      exact hkeep x (fun ⟨i, h0, h1, h2⟩ => hx ⟨i, h0, by push_cast; omega, h2⟩)

/-- The loop aborts at the first bad entry, provided it is not negative. -/
theorem checkLoop_bad (n : Int) (perm marker0 : Arr)
    (hzero : ∀ x, 0 ≤ x → x < n → marker0 x = 0) (i0 : Nat)
    (hbad : n ≤ perm i0 ∨ ∃ k, 0 ≤ k ∧ k < (i0 : Int) ∧ perm k = perm i0)
    (hgood : ∀ i, 0 ≤ i → i < (i0 : Int) → ¬ BadEntry n perm i) (k : Nat) (hk : i0 < k) :
    forLoop (checkStep n perm) k (Except.ok marker0) = Except.error ⟨i0, perm i0⟩ := by
  apply checkStep_error n perm _ k (i0 + 1) _ _ (by omega)
  obtain ⟨m, hm, hone, -⟩ := checkLoop_good n perm marker0 hzero i0 hgood
  show checkStep n perm i0 (forLoop (checkStep n perm) i0 (Except.ok marker0)) = _
  rw [hm]
  show (if m (perm i0) = 1 ∨ perm i0 ≥ n then _ else _) = _
  rw [if_pos]
  rcases hbad with h | h
  · exact Or.inr h
  · exact Or.inl (hone _ h)

/-- Below any bad entry there is a first one. -/
theorem exists_first_bad (n : Int) (perm : Arr) :
    ∀ k : Nat, (∃ i, 0 ≤ i ∧ i < (k : Int) ∧ BadEntry n perm i) →
      ∃ i0 : Nat, i0 < k ∧ BadEntry n perm i0 ∧
        ∀ i, 0 ≤ i → i < (i0 : Int) → ¬ BadEntry n perm i := by
  intro k
  induction k with
  | zero =>
    rintro ⟨i, h0, h1, -⟩
    simp at h1
    omega
  | succ k ih =>
    rintro ⟨i, h0, h1, hb⟩
    push_cast at h1
    by_cases hex : ∃ i, 0 ≤ i ∧ i < (k : Int) ∧ BadEntry n perm i
    · obtain ⟨i0, hi0, hb0, hmin⟩ := ih hex
      exact ⟨i0, by omega, hb0, hmin⟩
    · have hik : i = k := by
        by_contra hne
        exact hex ⟨i, h0, by omega, hb⟩
      rw [hik] at hb
      exact ⟨k, by omega, hb, fun j hj0 hj1 hjb => hex ⟨j, hj0, hj1, hjb⟩⟩

/-- An array without bad entries on `[0, n)` is a bijection on `[0, n)`. -/
theorem isPerm_of_no_bad (n : Int) (perm : Arr)
    (h : ∀ i, 0 ≤ i → i < n → ¬ BadEntry n perm i) : IsPerm n perm := by
  have hmaps : ∀ i, 0 ≤ i → i < n → 0 ≤ perm i ∧ perm i < n := by
    intro i h0 h1
    have hb := h i h0 h1
    constructor
    · by_contra hc
      exact hb (Or.inl (by omega))
    · by_contra hc
      exact hb (Or.inr (Or.inl (by omega)))
  have hinj : ∀ i j, 0 ≤ i → i < n → 0 ≤ j → j < n → perm i = perm j → i = j := by
    intro i j hi0 hi1 hj0 hj1 hij
    by_contra hne
    rcases lt_or_gt_of_ne hne with hlt | hlt
    · exact h j hj0 hj1 (Or.inr (Or.inr ⟨i, hi0, hlt, hij⟩))
    · exact h i hi0 hi1 (Or.inr (Or.inr ⟨j, hj0, hlt, hij.symm⟩))
  refine ⟨hmaps, hinj, ?_⟩
  have himg : (Finset.Ico 0 n).image perm = Finset.Ico 0 n := by
    apply Finset.eq_of_subset_of_card_le
    · intro x hx
      obtain ⟨i, hi, rfl⟩ := Finset.mem_image.1 hx
      rw [Finset.mem_Ico] at hi
      exact Finset.mem_Ico.2 (hmaps i hi.1 hi.2)
    · rw [Finset.card_image_of_injOn]
      intro i hi j hj hij
      have hi2 := Finset.mem_Ico.1 (Finset.mem_coe.1 hi)
      have hj2 := Finset.mem_Ico.1 (Finset.mem_coe.1 hj)
      exact hinj i j hi2.1 hi2.2 hj2.1 hj2.2 hij
  intro k h0 h1
  have hk : k ∈ (Finset.Ico 0 n).image perm := by
    rw [himg]
    exact Finset.mem_Ico.2 ⟨h0, h1⟩
  obtain ⟨i, hi, hik⟩ := Finset.mem_image.1 hk
  rw [Finset.mem_Ico] at hi
  exact ⟨i, hi.1, hi.2, hik⟩

theorem no_bad_of_isPerm (n : Int) (perm : Arr) (h : IsPerm n perm) :
    ∀ i, 0 ≤ i → i < n → ¬ BadEntry n perm i := by
  intro i h0 h1 hb
  obtain ⟨hp0, hp1⟩ := h.1 i h0 h1
  rcases hb with hb | hb | ⟨k, hk0, hk1, hk⟩
  · omega
  · omega
  · have := h.2.1 k i hk0 (by omega) h0 h1 hk
    omega

/-- On arrays without negative entries `check_perm` is a bijection test: it
returns `0` exactly for the bijections on `[0, n)`, and otherwise aborts at the
first entry that is `≥ n` or repeats an earlier one. -/
theorem check_perm_nonneg (n : Int) (perm marker : Arr) (hn : 0 ≤ n)
    (hnn : ∀ i, 0 ≤ i → i < n → 0 ≤ perm i) :
    (check_perm n perm marker = Except.ok 0 ↔ IsPerm n perm) ∧
    (∀ e, check_perm n perm marker = Except.error e →
      0 ≤ e.i ∧ e.i < n ∧ e.value = perm e.i ∧ BadEntry n perm e.i ∧
      ∀ i, 0 ≤ i → i < e.i → ¬ BadEntry n perm i) := by
  have hzero : ∀ x, 0 ≤ x → x < n →
      forLoop (fun i m => m.set i 0) n.toNat marker x = 0 := by
    intro x h0 h1
    rw [forLoop_copy (fun _ => 0), if_pos ⟨h0, by omega⟩]
  have hcast : ((n.toNat : Nat) : Int) = n := Int.toNat_of_nonneg hn
  by_cases hall : ∀ i, 0 ≤ i → i < n → ¬ BadEntry n perm i
  · obtain ⟨m, hm, -, -⟩ := checkLoop_good n perm _ hzero n.toNat
      (fun i h0 h1 => hall i h0 (by omega))
    have hok : check_perm n perm marker = Except.ok 0 := by
      unfold check_perm
      simp only [hm]
    refine ⟨⟨fun _ => isPerm_of_no_bad n perm hall, fun _ => hok⟩, ?_⟩
    intro e he
    rw [hok] at he
    cases he
  · have hex : ∃ i, 0 ≤ i ∧ i < ((n.toNat : Nat) : Int) ∧ BadEntry n perm i := by
      by_contra hc
      apply hall
      intro i h0 h1 hb
      exact hc ⟨i, h0, by omega, hb⟩
    obtain ⟨i0, hi0, hb0, hmin⟩ := exists_first_bad n perm n.toNat hex
    have hbad : n ≤ perm i0 ∨ ∃ k, 0 ≤ k ∧ k < (i0 : Int) ∧ perm k = perm i0 := by
      rcases hb0 with h | h | h
      · have := hnn i0 (by omega) (by omega)
        omega
      · exact Or.inl h
      · exact Or.inr h
    have hloop := checkLoop_bad n perm _ hzero i0 hbad hmin n.toNat hi0
    have herr : check_perm n perm marker = Except.error ⟨i0, perm i0⟩ := by
      unfold check_perm
      simp only [hloop]
    refine ⟨⟨fun h => ?_, fun h => ?_⟩, ?_⟩
    · rw [herr] at h
      cases h
    · exact absurd (no_bad_of_isPerm n perm h) hall
    · intro e he
      rw [herr] at he
      cases he
      exact ⟨by simp, by simp; omega, rfl, hb0, hmin⟩

/-- A bijection on `[0, n)` is accepted, whatever the entries are compared with. -/
theorem check_perm_accepts_isPerm (n : Int) (perm marker : Arr) (hn : 0 ≤ n)
    (h : IsPerm n perm) : check_perm n perm marker = Except.ok 0 :=
  (check_perm_nonneg n perm marker hn (fun i h0 h1 => (h.1 i h0 h1).1)).1.2 h

theorem not_isPerm_negative : ¬ IsPerm 1 (ofList [-1] 0) := by
  intro h
  have := (h.1 0 (by decide) (by decide)).1
  revert this
  decide

/-- C13 fails on the code: for `n = 1` and `perm = [-1]` the entry is out of
range, so `perm` is no bijection on `[0, 1)`, yet `check_perm` returns `0`
(the word before the marker block holding `0`): the test of line 212 has no
lower bound. -/
theorem check_perm_accepts_negative :
    check_perm 1 (ofList [-1] 0) (fun _ => 0) = Except.ok 0 ∧
    ¬ IsPerm 1 (ofList [-1] 0) ∧ BadEntry 1 (ofList [-1] 0) 0 :=
  ⟨rfl, not_isPerm_negative, Or.inl (by decide)⟩

/-- C17: for `perm_c = [2,0,1]` and `post = [1,0,2]` (`n = 3`) the composition
step of lines 187-189, alone and as part of `sp_preorder`, leaves `perm_c ==
[2,1,0]`, and `check_perm` returns `0` on that result. -/
theorem composition_example (etree colend0 iwork0 marker : Arr) :
    toList (composePerm 3 (ofList [1, 0, 2] 0) (ofList [2, 0, 1] 0) iwork0).1 3 = [2, 1, 0] ∧
    check_perm 3 (composePerm 3 (ofList [1, 0, 2] 0) (ofList [2, 0, 1] 0) iwork0).1 marker =
      Except.ok 0 ∧
    toList (sp_preorder exampleCollaborators exampleOptions exampleA examplePerm
      etree colend0 iwork0).perm_c 3 = [2, 1, 0] ∧
    check_perm 3 (sp_preorder exampleCollaborators exampleOptions exampleA examplePerm
      etree colend0 iwork0).perm_c marker = Except.ok 0 :=
  ⟨rfl, rfl, rfl, rfl⟩

/-! ## `copy_mem_int` -/

theorem copy_mem_int_loop (iold : Arr) :
    ∀ (k : Nat) (inew : Arr),
      forLoop (fun i (p : Arr × Arr) => (p.1, p.2.set i (p.1 i))) k (iold, inew) =
        (iold, forLoop (fun i b => b.set i (iold i)) k inew) := by
  intro k
  induction k with
  | zero => intro inew; rfl
  | succ k ih =>
    intro inew
    show (fun i (p : Arr × Arr) => (p.1, p.2.set i (p.1 i))) (k : Int)
      (forLoop (fun i (p : Arr × Arr) => (p.1, p.2.set i (p.1 i))) k (iold, inew)) = _
    rw [ih inew]
    rfl

theorem copy_mem_int_apply (howmany : Int) (iold inew : Arr) :
    (copy_mem_int howmany iold inew).1 = iold ∧
    ∀ i, (copy_mem_int howmany iold inew).2 i =
      if 0 ≤ i ∧ i < howmany then iold i else inew i := by
  unfold copy_mem_int
  rw [copy_mem_int_loop]
  refine ⟨rfl, fun i => ?_⟩
  show forLoop (fun i b => b.set i (iold i)) howmany.toNat inew i = _
  rw [forLoop_copy]
  by_cases h : 0 ≤ i ∧ i < howmany
  · rw [if_pos h, if_pos ⟨h.1, by omega⟩]
  · rw [if_neg h, if_neg (by omega)]

theorem growChain_prefix (k : Int) :
    ∀ (steps : List (Int × Arr)) (buf : Arr), (∀ s ∈ steps, k ≤ s.1) →
      ∀ i, 0 ≤ i → i < k → growChain buf steps i = buf i := by
  intro steps
  induction steps with
  | nil => intro buf _ i _ _; rfl
  | cons s rest ih =>
    intro buf hs i h0 h1
    show growChain (copy_mem_int s.1 buf s.2).2 rest i = buf i
    rw [ih _ (fun t ht => hs t (List.mem_cons_of_mem _ ht)) i h0 h1,
      (copy_mem_int_apply s.1 buf s.2).2 i,
      if_pos ⟨h0, lt_of_lt_of_le h1 (hs s (List.mem_cons_self _ _))⟩]

/-- C14: `copy_mem_int(howmany, old, new)` leaves `new[i] == old[i]` for `0 ≤ i
< howmany`, leaves `new[i]` as it was elsewhere, and leaves `old` as it was;
hence after any number of successive copies of at least `k` elements into
fresh buffers the first `k` elements read back as written. -/
theorem copy_mem_int_preserves (howmany : Int) (iold inew : Arr) (k : Int)
    (steps : List (Int × Arr)) (hsteps : ∀ s ∈ steps, k ≤ s.1) :
    (∀ i, 0 ≤ i → i < howmany → (copy_mem_int howmany iold inew).2 i = iold i) ∧
    (∀ i, howmany ≤ i → (copy_mem_int howmany iold inew).2 i = inew i) ∧
    (copy_mem_int howmany iold inew).1 = iold ∧
    (∀ i, 0 ≤ i → i < k → growChain iold steps i = iold i) := by
  obtain ⟨hold, hnew⟩ := copy_mem_int_apply howmany iold inew
  refine ⟨?_, ?_, hold, growChain_prefix k steps iold hsteps⟩
  · intro i h0 h1
    rw [hnew i, if_pos ⟨h0, h1⟩]
  · intro i h1
    rw [hnew i, if_neg (by omega)]

theorem exampleGrowth_steps :
    ∀ s ∈ [((3 : Int), (fun _ => 0 : Arr)), (5, fun _ => 1)], (3 : Int) ≤ s.1 := by
  intro s hs
  simp only [List.mem_cons, List.mem_singleton, List.not_mem_nil, or_false] at hs
  rcases hs with rfl | rfl <;> decide

theorem copy_mem_int_preserves_witness :
    (∀ s ∈ [((3 : Int), (fun _ => 0 : Arr)), (5, fun _ => 1)], (3 : Int) ≤ s.1) ∧
    ((∀ i, 0 ≤ i → i < 2 →
      (copy_mem_int 2 (ofList [7, 8, 9] 0) (fun _ => 5)).2 i = ofList [7, 8, 9] 0 i) ∧
    (∀ i, 2 ≤ i → (copy_mem_int 2 (ofList [7, 8, 9] 0) (fun _ => 5)).2 i = (fun _ => 5) i) ∧
    (copy_mem_int 2 (ofList [7, 8, 9] 0) (fun _ => 5)).1 = ofList [7, 8, 9] 0 ∧
    (∀ i, 0 ≤ i → i < 3 →
      growChain (ofList [7, 8, 9] 0) [((3 : Int), (fun _ => 0 : Arr)), (5, fun _ => 1)] i =
        ofList [7, 8, 9] 0 i)) :=
  ⟨exampleGrowth_steps,
    copy_mem_int_preserves 2 (ofList [7, 8, 9] 0) (fun _ => 5) 3
      [((3 : Int), (fun _ => 0 : Arr)), (5, fun _ => 1)] exampleGrowth_steps⟩

/-! ## `relax_snode`: termination -/

theorem climb_fuel (n : Int) (et d : Arr) (rc : Int) :
    ∀ (f : Nat) (j p e : Int), climb n et d rc f j p = some e →
      ∀ g, f ≤ g → climb n et d rc g j p = some e := by
  intro f
  induction f with
  | zero => intro j p e h; simp [climb] at h
  | succ f ih =>
    intro j p e h g hg
    obtain ⟨g, rfl⟩ : ∃ g0, g = g0 + 1 := ⟨g - 1, by omega⟩
    unfold climb at h ⊢
    by_cases hc : p ≠ n ∧ d p < rc
    · rw [if_pos hc] at h ⊢
      exact ih p (et p) e h g (by omega)
    · rw [if_neg hc] at h ⊢
      exact h

theorem searchLeaf_fuel (n : Int) (d : Arr) :
    ∀ (f : Nat) (j j2 : Int), searchLeaf n d f j = some j2 →
      ∀ g, f ≤ g → searchLeaf n d g j = some j2 := by
  intro f
  induction f with
  | zero => intro j j2 h; simp [searchLeaf] at h
  | succ f ih =>
    intro j j2 h g hg
    obtain ⟨g, rfl⟩ : ∃ g0, g = g0 + 1 := ⟨g - 1, by omega⟩
    unfold searchLeaf at h ⊢
    by_cases hc : d j ≠ 0 ∧ j < n
    · rw [if_pos hc] at h ⊢
      exact ih (j + 1) j2 h g (by omega)
    · rw [if_neg hc] at h ⊢
      exact h

theorem snodeLoop_fuel (n : Int) (et d : Arr) (rc : Int) (fuel fuel2 : Nat)
    (hfuel : fuel ≤ fuel2) :
    ∀ (f : Nat) (j : Int) (re r : Arr), snodeLoop n et d rc fuel f j re = some r →
      ∀ g, f ≤ g → snodeLoop n et d rc fuel2 g j re = some r := by
  intro f
  induction f with
  | zero => intro j re r h; simp [snodeLoop] at h
  | succ f ih =>
    intro j re r h g hg
    obtain ⟨g, rfl⟩ : ∃ g0, g = g0 + 1 := ⟨g - 1, by omega⟩
    unfold snodeLoop at h ⊢
    by_cases hj : j < n
    · rw [if_pos hj] at h ⊢
      cases hc : climb n et d rc fuel j (et j) with
      | none => simp [hc] at h
      | some e =>
        cases hs : searchLeaf n d fuel (e + 1) with
        | none => simp [hc, hs] at h
        | some j2 =>
          simp only [hc, hs] at h
          simp only [climb_fuel n et d rc fuel j (et j) e hc fuel2 hfuel,
            searchLeaf_fuel n d fuel (e + 1) j2 hs fuel2 hfuel]
          exact ih j2 _ r h g (by omega)
    · rw [if_neg hj] at h ⊢
      exact h

/-- More fuel does not change what `relax_snode` returns. -/
theorem relax_snode_fuel (n : Int) (et : Arr) (rc : Int) (d0 re0 : Arr) (fuel fuel2 : Nat)
    (hfuel : fuel ≤ fuel2) (res : Arr × Arr)
    (h : relax_snode fuel n et rc d0 re0 = some res) :
    relax_snode fuel2 n et rc d0 re0 = some res := by
  unfold relax_snode at h ⊢
  cases hs : snodeLoop n et (forwardPass n et d0) rc fuel fuel 0 (ifill re0 n EMPTY) with
  | none => simp [hs] at h
  | some r =>
    simp only [hs] at h
    simp only [snodeLoop_fuel n et _ rc fuel fuel2 hfuel fuel 0 _ r hs fuel2 hfuel]
    exact h

/-- C15: `relax_snode` is total on valid forests: for `n ≥ 0`, `j < et[j] ≤ n`
and any `relax_columns`, each climb and each search for a leaf ends, and the
routine returns, with one and the same result whenever more than `n` loop
iterations are allowed. -/
theorem relax_snode_total (n : Int) (et : Arr) (relax_columns : Int)
    (descendants relax_end : Arr) (hn : 0 ≤ n) (hP : Postordered n et) :
    (∃ d re, ∀ fuel, n.toNat < fuel →
      relax_snode fuel n et relax_columns descendants relax_end = some (d, re)) ∧
    (∀ j, 0 ≤ j → j < n → ∃ e, ∀ fuel, n.toNat ≤ fuel →
      climb n et (forwardPass n et descendants) relax_columns fuel j (et j) = some e) ∧
    (∀ j, 0 ≤ j → j ≤ n → ∃ j2, ∀ fuel, n.toNat < fuel →
      searchLeaf n (forwardPass n et descendants) fuel j = some j2) := by
  refine ⟨?_, ?_, ?_⟩
  · obtain ⟨re, hre, -⟩ :=
      relax_snode_spec relax_columns descendants relax_end hn hP (n.toNat + 1) (by omega)
    exact ⟨_, re, fun fuel hf =>
      relax_snode_fuel n et relax_columns descendants relax_end _ fuel (by omega) _ hre⟩
  · intro j h0 h1
    obtain ⟨e, he, -⟩ := climb_spec (forwardPass n et descendants) relax_columns hP
      n.toNat j h0 h1 (by omega)
    exact ⟨e, fun fuel hf => climb_fuel n et _ relax_columns _ j (et j) e he fuel hf⟩
  · intro j h0 h1
    obtain ⟨j2, hj2, -⟩ := searchLeaf_spec n (forwardPass n et descendants)
      (n.toNat + 1) j h1 (by omega)
    exact ⟨j2, fun fuel hf => searchLeaf_fuel n _ _ j j2 hj2 fuel (by omega)⟩

theorem relax_snode_total_witness :
    (0 : Int) ≤ 6 ∧ Postordered 6 exampleEtree ∧
    ((∃ d re, ∀ fuel, (6 : Int).toNat < fuel →
      relax_snode fuel 6 exampleEtree 2 (fun _ => 9) (fun _ => 8) = some (d, re)) ∧
    (∀ j, 0 ≤ j → j < 6 → ∃ e, ∀ fuel, (6 : Int).toNat ≤ fuel →
      climb 6 exampleEtree (forwardPass 6 exampleEtree (fun _ => 9)) 2 fuel j
        (exampleEtree j) = some e) ∧
    (∀ j, 0 ≤ j → j ≤ 6 → ∃ j2, ∀ fuel, (6 : Int).toNat < fuel →
      searchLeaf 6 (forwardPass 6 exampleEtree (fun _ => 9)) fuel j = some j2)) :=
  ⟨by decide, exampleEtree_postordered,
    relax_snode_total 6 exampleEtree 2 (fun _ => 9) (fun _ => 8) (by decide)
      exampleEtree_postordered⟩

/-! ## `relax_snode`: dependence on the scratch arrays -/

theorem climb_ge {n : Int} {et : Arr} (d : Arr) (rc : Int) (hP : Postordered n et) :
    ∀ (f : Nat) (j e : Int), 0 ≤ j → j < n → climb n et d rc f j (et j) = some e → j ≤ e := by
  intro f
  induction f with
  | zero => intro j e _ _ h; simp [climb] at h
  | succ f ih =>
    intro j e h0 h1 h
    obtain ⟨hlt, hle⟩ := hP j h0 h1
    unfold climb at h
    by_cases hc : et j ≠ n ∧ d (et j) < rc
    · rw [if_pos hc] at h
      have := ih (et j) e (by omega) (lt_of_le_of_ne hle hc.1) h
      omega
    · rw [if_neg hc] at h
      cases h
      exact le_refl _

theorem searchLeaf_ge (n : Int) (d : Arr) :
    ∀ (f : Nat) (j j2 : Int), searchLeaf n d f j = some j2 → j ≤ j2 := by
  intro f
  induction f with
  | zero => intro j j2 h; simp [searchLeaf] at h
  | succ f ih =>
    intro j j2 h
    unfold searchLeaf at h
    by_cases hc : d j ≠ 0 ∧ j < n
    · rw [if_pos hc] at h
      have := ih (j + 1) j2 h
      omega
    · rw [if_neg hc] at h
      cases h
      exact le_refl _

/-- The climb reads `descendants` at columns only. -/
theorem climb_congr {n : Int} {et : Arr} (d d2 : Arr) (rc : Int) (hP : Postordered n et)
    (hd : ∀ x, 0 ≤ x → x < n → d x = d2 x) :
    ∀ (f : Nat) (j : Int), 0 ≤ j → j < n →
      climb n et d rc f j (et j) = climb n et d2 rc f j (et j) := by
  intro f
  induction f with
  | zero => intro j _ _; rfl
  | succ f ih =>
    intro j h0 h1
    obtain ⟨hlt, hle⟩ := hP j h0 h1
    unfold climb
    by_cases hr : et j = n
    · rw [if_neg (fun h => h.1 hr), if_neg (fun h => h.1 hr)]
    · have hin : et j < n := lt_of_le_of_ne hle hr
      rw [← hd (et j) (by omega) hin]
      by_cases hc : et j ≠ n ∧ d (et j) < rc
      · rw [if_pos hc, if_pos hc]
        exact ih (et j) (by omega) hin
      · rw [if_neg hc, if_neg hc]

/-- The value read at `j == n` by the search for a leaf does not matter. -/
theorem searchLeaf_congr (n : Int) (d d2 : Arr)
    (hd : ∀ x, 0 ≤ x → x < n → d x = d2 x) :
    ∀ (f : Nat) (j : Int), 0 ≤ j → searchLeaf n d f j = searchLeaf n d2 f j := by
  intro f
  induction f with
  | zero => intro j _; rfl
  | succ f ih =>
    intro j h0
    unfold searchLeaf
    by_cases hj : j < n
    · rw [← hd j h0 hj]
      by_cases hc : d j ≠ 0 ∧ j < n
      · rw [if_pos hc, if_pos hc]
        exact ih (j + 1) (by omega)
      · rw [if_neg hc, if_neg hc]
    · rw [if_neg (fun h => hj h.2), if_neg (fun h => hj h.2)]

theorem snodeLoop_congr_desc {n : Int} {et : Arr} (d d2 : Arr) (rc : Int)
    (hP : Postordered n et) (hd : ∀ x, 0 ≤ x → x < n → d x = d2 x) (fuel : Nat) :
    ∀ (f : Nat) (j : Int) (re : Arr), 0 ≤ j →
      snodeLoop n et d rc fuel f j re = snodeLoop n et d2 rc fuel f j re := by
  intro f
  induction f with
  | zero => intro j re _; rfl
  | succ f ih =>
    intro j re h0
    unfold snodeLoop
    by_cases hj : j < n
    · rw [if_pos hj, if_pos hj, ← climb_congr d d2 rc hP hd fuel j h0 hj]
      cases hc : climb n et d rc fuel j (et j) with
      | none => rfl
      | some e =>
        have he := climb_ge d rc hP fuel j e h0 hj hc
        simp only
        rw [← searchLeaf_congr n d d2 hd fuel (e + 1) (by omega)]
        cases hs : searchLeaf n d fuel (e + 1) with
        | none => rfl
        | some j2 =>
          have := searchLeaf_ge n d fuel (e + 1) j2 hs
          exact ih j2 _ (by omega)
    · rw [if_neg hj, if_neg hj]

/-- Where two initial `relax_end` agree, the final ones agree. -/
theorem snodeLoop_congr_relax_end (n : Int) (et d : Arr) (rc : Int) (fuel : Nat) (x : Int) :
    ∀ (f : Nat) (j : Int) (re re2 : Arr), re x = re2 x →
      (snodeLoop n et d rc fuel f j re).map (fun r => r x) =
        (snodeLoop n et d rc fuel f j re2).map (fun r => r x) := by
  intro f
  induction f with
  | zero => intro j re re2 _; rfl
  | succ f ih =>
    intro j re re2 h
    unfold snodeLoop
    by_cases hj : j < n
    · rw [if_pos hj, if_pos hj]
      cases hc : climb n et d rc fuel j (et j) with
      | none => rfl
      | some e =>
        simp only
        cases hs : searchLeaf n d fuel (e + 1) with
        | none => rfl
        | some j2 =>
          apply ih
          simp only [Arr.set, h]
    · rw [if_neg hj, if_neg hj]
      simp [h]

theorem snodeLoop_of_relax_snode {fuel : Nat} {n : Int} {et : Arr} {rc : Int}
    {d0 re0 d re : Arr} (h : relax_snode fuel n et rc d0 re0 = some (d, re)) :
    d = forwardPass n et d0 ∧
    snodeLoop n et (forwardPass n et d0) rc fuel fuel 0 (ifill re0 n EMPTY) = some re := by
  unfold relax_snode at h
  cases hs : snodeLoop n et (forwardPass n et d0) rc fuel fuel 0 (ifill re0 n EMPTY) with
  | none => simp [hs] at h
  | some r =>
    simp only [hs, Option.some.injEq, Prod.mk.injEq] at h
    exact ⟨h.1.symm, by rw [h.2]⟩

/-- Two runs of `relax_snode` on the same forest and threshold agree on
`[0, n)`, whatever the two arrays held on entry. -/
theorem relax_snode_congr {n : Int} {et : Arr} (rc : Int) (d0 re0 d1 re1 : Arr) (hn : 0 ≤ n)
    (hP : Postordered n et) (fuel : Nat) {da ra db rb : Arr}
    (ha : relax_snode fuel n et rc d0 re0 = some (da, ra))
    (hb : relax_snode fuel n et rc d1 re1 = some (db, rb)) :
    ∀ x, 0 ≤ x → x < n → da x = db x ∧ ra x = rb x := by
  intro x h0 h1
  obtain ⟨hda, hra⟩ := snodeLoop_of_relax_snode ha
  obtain ⟨hdb, hrb⟩ := snodeLoop_of_relax_snode hb
  have hd : ∀ y, 0 ≤ y → y < n → forwardPass n et d0 y = forwardPass n et d1 y := by
    intro y hy0 hy1
    rw [forwardPass_eq_numStrictDescendants hn hP d0 y hy0 hy1,
      forwardPass_eq_numStrictDescendants hn hP d1 y hy0 hy1]
  refine ⟨by rw [hda, hdb]; exact hd x h0 h1, ?_⟩
  rw [snodeLoop_congr_desc _ _ rc hP hd fuel fuel 0 _ (le_refl _)] at hra
  have h := snodeLoop_congr_relax_end n et (forwardPass n et d1) rc fuel x fuel 0
    (ifill re0 n EMPTY) (ifill re1 n EMPTY)
    (by rw [ifill_apply, ifill_apply, if_pos ⟨h0, h1⟩, if_pos ⟨h0, h1⟩])
  rw [hra, hrb] at h
  simpa using h

theorem toList_congr (a b : Arr) (k : Nat) (h : ∀ x, 0 ≤ x → x < (k : Int) → a x = b x) :
    toList a k = toList b k := by
  unfold toList
  apply List.map_congr_left
  intro i hi
  obtain ⟨m, hm, rfl⟩ : ∃ m : Nat, m < k ∧ i = (m : Int) := by simpa using hi
  exact h m (by omega) (by omega)

/-- C16: for `n = 6`, `parent = [1,2,5,5,5,6]` and `relax_columns = 2`,
`relax_snode` returns with `descendants = [0,1,2,0,0,5]` and `relax_end = [1,
EMPTY, EMPTY, 3, 4, EMPTY]`, whatever the two arrays held on entry. -/
theorem relax_snode_example (descendants relax_end : Arr) :
    ∃ d re, (∀ fuel, 6 < fuel →
        relax_snode fuel 6 exampleEtree 2 descendants relax_end = some (d, re)) ∧
      toList d 6 = [0, 1, 2, 0, 0, 5] ∧
      toList re 6 = [1, EMPTY, EMPTY, 3, 4, EMPTY] := by
  obtain ⟨re, hre, -⟩ := relax_snode_spec 2 descendants relax_end (by decide)
    exampleEtree_postordered 7 (by decide)
  obtain ⟨re2, hre2, -⟩ := relax_snode_spec 2 (fun _ => 0) (fun _ => 0) (by decide)
    exampleEtree_postordered 7 (by decide)
  have hagree := relax_snode_congr 2 descendants relax_end (fun _ => 0) (fun _ => 0)
    (by decide) exampleEtree_postordered 7 hre hre2
  have hd : toList (forwardPass 6 exampleEtree (fun _ => 0)) 6 = [0, 1, 2, 0, 0, 5] := rfl
  have hr : (relax_snode 7 6 exampleEtree 2 (fun _ => 0) (fun _ => 0)).map
      (fun p => toList p.2 6) = some [1, EMPTY, EMPTY, 3, 4, EMPTY] := rfl
  rw [hre2] at hr
  simp only [Option.map_some', Option.some.injEq] at hr
  refine ⟨_, re, fun fuel hf =>
    relax_snode_fuel 6 exampleEtree 2 descendants relax_end 7 fuel (by omega) _ hre, ?_, ?_⟩
  · rw [← hd]
    exact toList_congr _ _ 6 (fun x h0 h1 => (hagree x h0 (by omega)).1)
  · rw [← hr]
    exact toList_congr _ _ 6 (fun x h0 h1 => (hagree x h0 (by omega)).2)

/-- C18: two runs of `relax_snode` with the same `n`, `et` (`j < et[j] ≤ n`)
and `relax_columns` but arbitrary initial contents of `descendants` and
`relax_end` both return, with identical `descendants[0..n-1]` and
`relax_end[0..n-1]`; every `relax_end[x]` is `EMPTY` or the end of a block. -/
theorem relax_snode_deterministic (n : Int) (et : Arr) (relax_columns : Int)
    (descendants relax_end descendants2 relax_end2 : Arr) (hn : 0 ≤ n)
    (hP : Postordered n et) (fuel : Nat) (hfuel : n.toNat < fuel) :
    ∃ d re d2 re2,
      relax_snode fuel n et relax_columns descendants relax_end = some (d, re) ∧
      relax_snode fuel n et relax_columns descendants2 relax_end2 = some (d2, re2) ∧
      ∀ x, 0 ≤ x → x < n →
        d x = d2 x ∧ re x = re2 x ∧ (re x = EMPTY ∨ (x ≤ re x ∧ re x < n)) := by
  obtain ⟨re, hre, -, hblocks, -⟩ :=
    relax_snode_spec relax_columns descendants relax_end hn hP fuel hfuel
  obtain ⟨re2, hre2, -⟩ :=
    relax_snode_spec relax_columns descendants2 relax_end2 hn hP fuel hfuel
  refine ⟨_, re, _, re2, hre, hre2, ?_⟩
  intro x h0 h1
  obtain ⟨e1, e2⟩ := relax_snode_congr relax_columns descendants relax_end descendants2
    relax_end2 hn hP fuel hre hre2 x h0 h1
  refine ⟨e1, e2, ?_⟩
  by_cases hx : re x = EMPTY
  · exact Or.inl hx
  · obtain ⟨h2, h3, -, -⟩ := hblocks x h0 h1 hx
    exact Or.inr ⟨h2, h3⟩

theorem relax_snode_deterministic_witness :
    (0 : Int) ≤ 6 ∧ Postordered 6 exampleEtree ∧ (6 : Int).toNat < 7 ∧
    ∃ d re d2 re2,
      relax_snode 7 6 exampleEtree 2 (fun _ => 9) (fun _ => 8) = some (d, re) ∧
      relax_snode 7 6 exampleEtree 2 (fun _ => 0) (fun _ => 3) = some (d2, re2) ∧
      ∀ x, 0 ≤ x → x < 6 →
        d x = d2 x ∧ re x = re2 x ∧ (re x = EMPTY ∨ (x ≤ re x ∧ re x < 6)) :=
  ⟨by decide, exampleEtree_postordered, by decide,
    relax_snode_deterministic 6 exampleEtree 2 (fun _ => 9) (fun _ => 8) (fun _ => 0)
      (fun _ => 3) (by decide) exampleEtree_postordered 7 (by decide)⟩

/-! ## `relax_snode`: what a recorded block is -/

/-- The loop of lines 68-80 records at each block start the column its climb
ends in, starts blocks after the first at leaves only, and leaves no leaf
outside the blocks. -/
theorem snodeLoop_trace {n : Int} {et : Arr} (d : Arr) (rc : Int) (hP : Postordered n et)
    (fuel : Nat) (hfuel : n.toNat ≤ fuel) :
    ∀ (f : Nat) (j : Int) (re : Arr), 0 ≤ j → j ≤ n → (n - j).toNat < f →
      (∀ s, j ≤ s → s < n → re s = EMPTY) →
      ∃ r, snodeLoop n et d rc fuel f j re = some r ∧
        (∀ s, s < j ∨ n ≤ s → r s = re s) ∧
        (∀ s, j ≤ s → s < n → r s ≠ EMPTY →
          climb n et d rc fuel s (et s) = some (r s)) ∧
        (∀ s, j < s → s < n → r s ≠ EMPTY → d s = 0) ∧
        (∀ c, j ≤ c → c < n → (c = j ∨ d c = 0) →
          ∃ s, j ≤ s ∧ s ≤ c ∧ r s ≠ EMPTY ∧ c ≤ r s) := by
  intro f
  induction f with
  | zero => intro j re _ _ hf; omega
  | succ f ih =>
    intro j re h0 hjn hf hE
    unfold snodeLoop
    by_cases hj : j < n
    · rw [if_pos hj]
      obtain ⟨e, he, hje, hen, -, -⟩ := climb_spec d rc hP fuel j h0 hj (by omega)
      obtain ⟨j2, hj2, hle2, hn2, hstop, hskip⟩ :=
        searchLeaf_spec n d fuel (e + 1) (by omega) (by omega)
      simp only [he, hj2]
      obtain ⟨r, hr, hframe, hclimb, hleaf, hcover⟩ :=
        ih j2 (re.set j e) (by omega) hn2 (by omega) (by
          intro s hs1 hs2
          rw [Arr.set_ne _ _ (by omega)]
          exact hE s (by omega) hs2)
      have hstart : r j = e := by
        rw [hframe j (Or.inl (by omega)), Arr.set_eq]
      have hgap : ∀ s, j < s → s < j2 → r s = EMPTY := by
        intro s hs1 hs2
        rw [hframe s (Or.inl hs2), Arr.set_ne _ _ (by omega)]
        exact hE s (by omega) (by omega)
      have hne : r j ≠ EMPTY := by
        rw [hstart]
        unfold EMPTY
        omega
      refine ⟨r, hr, ?_, ?_, ?_, ?_⟩
      · intro s hs
        rw [hframe s (by omega), Arr.set_ne _ _ (by omega)]
      · intro s hs1 hs2 hs
        by_cases hsj : s = j
        · subst hsj; rw [hstart]; exact he
        · by_cases hs3 : s < j2
          · exact absurd (hgap s (by omega) hs3) hs
          · exact hclimb s (by omega) hs2 hs
      · intro s hs1 hs2 hs
        by_cases hs3 : s < j2
        · exact absurd (hgap s hs1 hs3) hs
        · by_cases hs4 : s = j2
          · rcases hstop with h | h
            · omega
            · rw [hs4]; exact h
          · exact hleaf s (by omega) hs2 hs
      · intro c hc1 hc2 hc
        by_cases hce : c ≤ e
        · exact ⟨j, le_refl _, hc1, hne, by rw [hstart]; exact hce⟩
        · have hdc : d c = 0 := by
            rcases hc with h | h
            · omega
            · exact h
          by_cases hc3 : c < j2
          · exact absurd hdc (hskip c (by omega) hc3)
          · obtain ⟨s, hs1, hs2, hs3, hs4⟩ := hcover c (by omega) hc2 (Or.inr hdc)
            exact ⟨s, by omega, hs2, hs3, hs4⟩
    · rw [if_neg hj]
      refine ⟨re, rfl, fun _ _ => rfl, ?_, ?_, ?_⟩
      · intro s hs1 hs2; omega
      · intro s hs1 hs2; omega
      · intro c hc1 hc2; omega

/-- With more than `n` units of fuel `relax_snode` returns, every recorded
block end is the result of the climb from its start, every block start but
column `0` is a leaf, and every leaf lies in a block. -/
theorem relax_snode_trace {n : Int} {et : Arr} (rc : Int) (desc0 re0 : Arr) (hn : 0 ≤ n)
    (hP : Postordered n et) (fuel : Nat) (hfuel : n.toNat < fuel) :
    ∃ re, relax_snode fuel n et rc desc0 re0 = some (forwardPass n et desc0, re) ∧
      (∀ s, 0 ≤ s → s < n → re s ≠ EMPTY →
        climb n et (forwardPass n et desc0) rc fuel s (et s) = some (re s)) ∧
      (∀ s, 0 < s → s < n → re s ≠ EMPTY → forwardPass n et desc0 s = 0) ∧
      (∀ c, 0 ≤ c → c < n → (c = 0 ∨ forwardPass n et desc0 c = 0) →
        ∃ s, 0 ≤ s ∧ s ≤ c ∧ re s ≠ EMPTY ∧ c ≤ re s) := by
  obtain ⟨re, hre, -, hclimb, hleaf, hcover⟩ :=
    snodeLoop_trace (forwardPass n et desc0) rc hP fuel (by omega) fuel 0 (ifill re0 n EMPTY)
      (le_refl _) hn (by simpa using hfuel) (by
        intro s hs1 hs2
        rw [ifill_apply, if_pos ⟨hs1, hs2⟩])
  refine ⟨re, ?_, hclimb, hleaf, hcover⟩
  unfold relax_snode
  simp only [hre]

/-- The climb follows the parent chain of the forest, and when it moves at
all it ends in a column with fewer than `rc` descendants. -/
theorem climb_chain {n : Int} {et : Arr} (d : Arr) (rc : Int) (hP : Postordered n et) :
    ∀ (f : Nat) (j e : Int), 0 ≤ j → j < n → climb n et d rc f j (et j) = some e →
      ∃ k : Nat, (parentOf n et)^[k] j = e ∧ e < n ∧ (k = 0 ∨ d e < rc) := by
  intro f
  induction f with
  | zero => intro j e _ _ h; simp [climb] at h
  | succ f ih =>
    intro j e h0 h1 h
    obtain ⟨hlt, hle⟩ := hP j h0 h1
    unfold climb at h
    by_cases hc : et j ≠ n ∧ d (et j) < rc
    · rw [if_pos hc] at h
      obtain ⟨k, hk, hen, hlast⟩ := ih (et j) e (by omega) (lt_of_le_of_ne hle hc.1) h
      refine ⟨k + 1, ?_, hen, Or.inr ?_⟩
      · rw [Function.iterate_succ_apply, parentOf_col et h0 h1]
        exact hk
      · rcases hlast with hz | hl
        · subst hz
          rw [Function.iterate_zero, id_eq] at hk
          rw [← hk]
          exact hc.2
        · exact hl
    · rw [if_neg hc] at h
      cases h
      exact ⟨0, rfl, h1, Or.inl rfl⟩

theorem exampleInterleaved_postordered : Postordered 4 exampleInterleaved := by
  intro j h0 h1
  have h : j = 0 ∨ j = 1 ∨ j = 2 ∨ j = 3 := by omega
  rcases h with h | h | h | h <;> subst h <;> decide

/-- C19 as stated fails: in the forest `[2,3,3,4]` every node's index exceeds
the indices of its subtree (`j < et[j] ≤ 4`), and with `relax_columns = 2`
`relax_snode` records the block `0..2` of three columns. -/
theorem relax_snode_block_size_counterexample :
    ¬ (∀ (n : Int) (et : Arr) (relax_columns : Int) (descendants relax_end : Arr)
        (fuel : Nat) (d re : Arr), 0 ≤ n → Postordered n et → 1 ≤ relax_columns →
        relax_snode fuel n et relax_columns descendants relax_end = some (d, re) →
        ∀ s, 0 ≤ s → s < n → re s ≠ EMPTY → re s - s + 1 ≤ relax_columns) := by
  intro h
  obtain ⟨re, hre, -⟩ := relax_snode_spec 2 (fun _ => 0) (fun _ => 0) (by decide)
    exampleInterleaved_postordered 5 (by decide)
  have hr : (relax_snode 5 4 exampleInterleaved 2 (fun _ => 0) (fun _ => 0)).map
      (fun p => p.2 0) = some 2 := rfl
  rw [hre] at hr
  simp only [Option.map_some', Option.some.injEq] at hr
  have := h 4 exampleInterleaved 2 (fun _ => 0) (fun _ => 0) 5 _ re (by decide)
    exampleInterleaved_postordered (by decide) hre 0 (by decide) (by decide)
    (by rw [hr]; decide)
  rw [hr] at this
  revert this
  decide

/-- C19 (amended): for a forest numbered by a depth-first postorder (`j <
et[j] ≤ n`, the strict descendants of every `j` being the index interval right
below `j`) and `relax_columns ≥ 1`, every block recorded by `relax_snode` has at
most `relax_columns` columns: `relax_end[s] - s + 1 ≤ relax_columns`. -/
theorem relax_snode_block_size (n : Int) (et : Arr) (relax_columns : Int)
    (descendants relax_end : Arr) (hn : 0 ≤ n) (hD : DepthFirstPostordered n et)
    (hrc : 1 ≤ relax_columns) (fuel : Nat) (hfuel : n.toNat < fuel) :
    ∃ d re, relax_snode fuel n et relax_columns descendants relax_end = some (d, re) ∧
      ∀ s, 0 ≤ s → s < n → re s ≠ EMPTY → re s - s + 1 ≤ relax_columns := by
  obtain ⟨hP, hsub⟩ := hD
  obtain ⟨re, hre, hclimb, -, -⟩ :=
    relax_snode_trace relax_columns descendants relax_end hn hP fuel hfuel
  refine ⟨_, re, hre, ?_⟩
  intro s h0 h1 hs
  have hc := hclimb s h0 h1 hs
  have hge := climb_ge _ relax_columns hP fuel s (re s) h0 h1 hc
  obtain ⟨k, hk, hen, hlast⟩ := climb_chain _ relax_columns hP fuel s (re s) h0 h1 hc
  rcases Nat.eq_zero_or_pos k with hz | hpos
  · subst hz
    rw [Function.iterate_zero, id_eq] at hk
    omega
  · have hd : forwardPass n et descendants (re s) < relax_columns := by
      rcases hlast with h | h
      · omega
      · exact h
    rw [forwardPass_eq_numStrictDescendants hn hP descendants (re s) (by omega) hen] at hd
    have hgrow := parentOf_iterate_ge hP s k
    rw [hk] at hgrow
    have hdesc : StrictDescendant n et s (re s) := by
      refine ⟨k - 1, Finset.mem_range.2 (by omega), ?_⟩
      have : k - 1 + 1 = k := by omega
      rw [this]
      exact hk
    have := ((hsub (re s) s (by omega) hen h0 h1).1 hdesc).1
    omega

theorem exampleEtree_counts :
    ∀ j, 0 ≤ j → j < 6 →
      (numStrictDescendants 6 exampleEtree j : Int) = ofList [0, 1, 2, 0, 0, 5] 0 j := by
  intro j h0 h1
  rw [← forwardPass_eq_numStrictDescendants (by decide) exampleEtree_postordered
    (fun _ => 0) j h0 h1]
  have h : j = 0 ∨ j = 1 ∨ j = 2 ∨ j = 3 ∨ j = 4 ∨ j = 5 := by omega
  rcases h with h | h | h | h | h | h <;> subst h <;> rfl

theorem exampleEtree_depthFirst : DepthFirstPostordered 6 exampleEtree := by
  refine ⟨exampleEtree_postordered, ?_⟩
  intro j k hj0 hj1 hk0 hk1
  rw [exampleEtree_counts j hj0 hj1]
  have hj : j = 0 ∨ j = 1 ∨ j = 2 ∨ j = 3 ∨ j = 4 ∨ j = 5 := by omega
  have hk : k = 0 ∨ k = 1 ∨ k = 2 ∨ k = 3 ∨ k = 4 ∨ k = 5 := by omega
  rcases hj with h | h | h | h | h | h <;> rcases hk with g | g | g | g | g | g <;>
    subst h <;> subst g <;> decide

theorem relax_snode_block_size_witness :
    (0 : Int) ≤ 6 ∧ DepthFirstPostordered 6 exampleEtree ∧ (1 : Int) ≤ 2 ∧
    (6 : Int).toNat < 7 ∧
    ∃ d re, relax_snode 7 6 exampleEtree 2 (fun _ => 9) (fun _ => 8) = some (d, re) ∧
      ∀ s, 0 ≤ s → s < 6 → re s ≠ EMPTY → re s - s + 1 ≤ 2 :=
  ⟨by decide, exampleEtree_depthFirst, by decide, by decide,
    relax_snode_block_size 6 exampleEtree 2 (fun _ => 9) (fun _ => 8) (by decide)
      exampleEtree_depthFirst (by decide) 7 (by decide)⟩

/-! ## Debug allocation -/

/-- What a call of `superlu_free` that returns has done. -/
theorem superlu_free_ok (w : Nat) (sys_free : Arr → Int → Arr) (h h2 : DebugHeap) (addr : Int)
    (hf : superlu_free w sys_free h addr = Except.ok h2) :
    addr ≠ 0 ∧ addr - DWORD ≠ 0 ∧ toIntT w (h.word (addr - DWORD)) ≠ 0 ∧
    h2.superlu_malloc_total =
      toIntT w (h.superlu_malloc_total - toIntT w (h.word (addr - DWORD))) ∧
    0 ≤ h2.superlu_malloc_total ∧
    h2.word = sys_free (h.word.set (addr - DWORD) 0) (addr - DWORD) := by
  unfold superlu_free at hf
  simp only at hf
  split_ifs at hf with h1 h2 h3 h4
  cases hf
  exact ⟨h1, h2, h3, rfl, by simpa using h4, rfl⟩

/-- The call `superlu_free(NULL)` aborts. -/
theorem superlu_free_null (w : Nat) (sys_free : Arr → Int → Arr) (g : DebugHeap) :
    superlu_free w sys_free g 0 = Except.error (MemAbort.free_null, g) := by
  unfold superlu_free
  simp

/-- No call of `superlu_free` returns with a negative running total. -/
theorem superlu_free_nonneg (w : Nat) (sys_free : Arr → Int → Arr) (g g2 : DebugHeap)
    (a : Int) (hg : superlu_free w sys_free g a = Except.ok g2) :
    0 ≤ g2.superlu_malloc_total :=
  (superlu_free_ok w sys_free g g2 a hg).2.2.2.2.1

/-- In a state in which the size word of a block is zero, `superlu_free` of the
block aborts with the freed-pointer error and leaves the state as it was. -/
theorem superlu_free_zero_word (w : Nat) (sys_free : Arr → Int → Arr) (g : DebugHeap)
    (addr : Int) (ha : addr ≠ 0) (hp : addr - DWORD ≠ 0) (hw : g.word (addr - DWORD) = 0) :
    superlu_free w sys_free g addr = Except.error (MemAbort.free_freed, g) := by
  unfold superlu_free
  simp only
  rw [if_neg ha, if_neg hp, hw, if_pos]
  unfold toIntT
  exact Int.bmod_zero

/-- In a state in which the size word of a block is not zero as an `int_t`,
`superlu_free` of the block does not abort with the freed-pointer error. -/
theorem superlu_free_nonzero_word (w : Nat) (sys_free : Arr → Int → Arr) (g : DebugHeap)
    (addr : Int) (hw : toIntT w (g.word (addr - DWORD)) ≠ 0) (g2 : DebugHeap) :
    superlu_free w sys_free g addr ≠ Except.error (MemAbort.free_freed, g2) := by
  unfold superlu_free
  simp only
  intro hf
  split_ifs at hf <;> cases hf

/-- After a `superlu_free` that returned, a second `superlu_free` of the block
aborts with the freed-pointer error exactly when the system allocator has left
a zero `int_t` in the size word of the block it released. -/
theorem superlu_free_second (w : Nat) (sys_free : Arr → Int → Arr) (g h2 : DebugHeap)
    (addr : Int) (hf : superlu_free w sys_free g addr = Except.ok h2) :
    superlu_free w sys_free h2 addr = Except.error (MemAbort.free_freed, h2) ↔
      toIntT w (sys_free (g.word.set (addr - DWORD) 0) (addr - DWORD) (addr - DWORD)) = 0 := by
  obtain ⟨ha, hp, -, -, -, hw⟩ := superlu_free_ok w sys_free g h2 addr hf
  rw [← hw]
  constructor
  · intro h
    by_contra hne
    exact superlu_free_nonzero_word w sys_free h2 addr hne h2 h
  · intro h
    unfold superlu_free
    simp only
    rw [if_neg ha, if_neg hp, if_pos h]

/-- C20 fails on the code.  With a 32-bit `int_t`, 100 bytes live and a system
allocator that keeps a free-list link in the block it releases:
`superlu_malloc(16)` returns a block, the first `superlu_free` of it returns
with the total back at 100, and the second `superlu_free` of it reads the link
as the size, does not abort, and returns with the total 76.  And with the
running total at `2147483647`, `superlu_malloc(1)` returns with the total
`-2147483648`, without an abort. -/
theorem superlu_free_misses_double_release :
    superlu_malloc 32 exampleBusyHeap 1000 16 =
      Except.ok (1008, ⟨116, exampleBusyHeap.word.set 1000 16⟩) ∧
    superlu_free 32 exampleLinkingFree ⟨116, exampleBusyHeap.word.set 1000 16⟩ 1008 =
      Except.ok ⟨100, ((exampleBusyHeap.word.set 1000 16).set 1000 0).set 1000 24⟩ ∧
    superlu_free 32 exampleLinkingFree
        ⟨100, ((exampleBusyHeap.word.set 1000 16).set 1000 0).set 1000 24⟩ 1008 =
      Except.ok ⟨76, ((((exampleBusyHeap.word.set 1000 16).set 1000 0).set 1000 24).set
        1000 0).set 1000 24⟩ ∧
    superlu_malloc 32 exampleFullHeap 1000 1 =
      Except.ok (1008, ⟨-2147483648, exampleFullHeap.word.set 1000 1⟩) :=
  ⟨rfl, rfl, rfl, rfl⟩

/-! ## `mark_relax`: rows shared by blocks -/

/-- Below a bound under which a property holds somewhere there is a last
place where it holds. -/
theorem exists_last_index (P : Int → Prop) :
    ∀ k : Nat, (∃ i, 0 ≤ i ∧ i < (k : Int) ∧ P i) →
      ∃ i0, 0 ≤ i0 ∧ i0 < (k : Int) ∧ P i0 ∧ ∀ i, i0 < i → i < (k : Int) → ¬ P i := by
  intro k
  induction k with
  | zero =>
    rintro ⟨i, h0, h1, -⟩
    simp at h1
    omega
  | succ k ih =>
    rintro ⟨i, h0, h1, hP⟩
    push_cast at h1
    by_cases hk : P (k : Int)
    · exact ⟨k, by omega, by push_cast; omega, hk, fun j hj1 hj2 => by push_cast at hj2; omega⟩
    · have hik : i < (k : Int) := by
        by_contra hc
        have : i = k := by omega
        exact hk (this ▸ hP)
      obtain ⟨i0, hi0, hi1, hP0, hlast⟩ := ih ⟨i, h0, hik, hP⟩
      refine ⟨i0, hi0, by push_cast; omega, hP0, ?_⟩
      intro j hj1 hj2
      push_cast at hj2
      by_cases hjk : j = k
      · rw [hjk]; exact hk
      · exact hlast j hj1 (by omega)

/-- C23: when `relax_fsupc` lists the processed block starts in strictly
increasing order, every row touched by at least one processed block ends up
with `marker[r]` equal to the leading column of a block containing `r`, and no
processed block containing `r` has a larger leading column. -/
theorem mark_relax_largest_block (n : Int) (m : MarkArrays) (r : Int)
    (hinc : ∀ i k, 0 ≤ i → i < k → k < (mark_relax n m).1 →
      m.relax_fsupc i < m.relax_fsupc k)
    (htouch : ∃ i, 0 ≤ i ∧ i < (mark_relax n m).1 ∧ rowInBlock m (m.relax_fsupc i) r) :
    (∃ i, 0 ≤ i ∧ i < (mark_relax n m).1 ∧ rowInBlock m (m.relax_fsupc i) r ∧
      (mark_relax n m).2.marker r = m.relax_fsupc i) ∧
    (∀ i, 0 ≤ i → i < (mark_relax n m).1 → rowInBlock m (m.relax_fsupc i) r →
      m.relax_fsupc i ≤ (mark_relax n m).2.marker r) := by
  have hcnt : (((mark_relax n m).1.toNat : Nat) : Int) = (mark_relax n m).1 :=
    Int.toNat_of_nonneg (mark_relax_spec n m).1
  obtain ⟨i0, h0, h1, hin, hlast⟩ :=
    exists_last_index (fun i => rowInBlock m (m.relax_fsupc i) r) (mark_relax n m).1.toNat
      (by
        obtain ⟨i, hi0, hi1, hi⟩ := htouch
        exact ⟨i, hi0, by omega, hi⟩)
  have hmark : (mark_relax n m).2.marker r = m.relax_fsupc i0 :=
    mark_relax_last_writer n m i0 r h0 (by omega) hin
      (fun i hi1 hi2 hi => absurd hi (hlast i hi1 (by omega)))
  refine ⟨⟨i0, h0, by omega, hin, hmark⟩, ?_⟩
  intro i hi0 hi1 hi
  rw [hmark]
  by_cases hlt : i0 < i
  · exact absurd hi (hlast i hlt (by omega))
  · by_cases heq : i = i0
    · rw [heq]
    · exact le_of_lt (hinc i i0 hi0 (by omega) (by omega))

theorem exampleMark_increasing :
    ∀ i k, 0 ≤ i → i < k → k < (mark_relax 2 exampleMark).1 →
      exampleMark.relax_fsupc i < exampleMark.relax_fsupc k := by
  intro i k h0 hik hk
  rw [exampleMark_count] at hk
  have hi : i = 0 := by omega
  have hk1 : k = 1 := by omega
  subst hi hk1
  decide

theorem mark_relax_largest_block_witness :
    (∀ i k, 0 ≤ i → i < k → k < (mark_relax 2 exampleMark).1 →
      exampleMark.relax_fsupc i < exampleMark.relax_fsupc k) ∧
    (∃ i, 0 ≤ i ∧ i < (mark_relax 2 exampleMark).1 ∧
      rowInBlock exampleMark (exampleMark.relax_fsupc i) 0) ∧
    ((∃ i, 0 ≤ i ∧ i < (mark_relax 2 exampleMark).1 ∧
      rowInBlock exampleMark (exampleMark.relax_fsupc i) 0 ∧
      (mark_relax 2 exampleMark).2.marker 0 = exampleMark.relax_fsupc i) ∧
    (∀ i, 0 ≤ i → i < (mark_relax 2 exampleMark).1 →
      rowInBlock exampleMark (exampleMark.relax_fsupc i) 0 →
      exampleMark.relax_fsupc i ≤ (mark_relax 2 exampleMark).2.marker 0)) :=
  have ht : ∃ i, 0 ≤ i ∧ i < (mark_relax 2 exampleMark).1 ∧
      rowInBlock exampleMark (exampleMark.relax_fsupc i) 0 :=
    ⟨0, le_refl _, by rw [exampleMark_count]; decide, exampleMark_row0_block0⟩
  ⟨exampleMark_increasing, ht,
    mark_relax_largest_block 2 exampleMark 0 exampleMark_increasing ht⟩

/-! ## `user_bcopy` -/

/-- The copy loop, run from the top down with the source not above the
destination, moves the bytes below `d_ptr` by the distance of the two
pointers and touches nothing else. -/
theorem bcopyLoop_spec (dest : Int) :
    ∀ (f : Nat) (s_ptr d_ptr : Int) (cur : Arr), dest - 1 ≤ d_ptr →
      (d_ptr - dest + 1).toNat < f → s_ptr ≤ d_ptr →
      ∃ mem2, bcopyLoop dest f s_ptr d_ptr cur = some mem2 ∧
        (∀ x, dest ≤ x → x ≤ d_ptr → mem2 x = cur (x - (d_ptr - s_ptr))) ∧
        (∀ x, x < dest ∨ d_ptr < x → mem2 x = cur x) := by
  intro f
  induction f with
  | zero => intro s_ptr d_ptr cur _ hf; omega
  | succ f ih =>
    intro s_ptr d_ptr cur hlo hf hsd
    unfold bcopyLoop
    by_cases hc : d_ptr ≥ dest
    · rw [if_pos hc]
      obtain ⟨mem2, hm, hcopy, hframe⟩ :=
        ih (s_ptr - 1) (d_ptr - 1) (cur.set d_ptr (cur s_ptr)) (by omega) (by omega) (by omega)
      have hdist : d_ptr - 1 - (s_ptr - 1) = d_ptr - s_ptr := by omega
      rw [hdist] at hcopy
      refine ⟨mem2, hm, ?_, ?_⟩
      · intro x hx1 hx2
        by_cases hx : x = d_ptr
        · rw [hframe x (Or.inr (by omega)), hx, Arr.set_eq]
          congr 1
          omega
        · rw [hcopy x hx1 (by omega), Arr.set_ne _ _ (by omega)]
      · intro x hx
        rw [hframe x (by omega), Arr.set_ne _ _ (by omega)]
    · rw [if_neg hc]
      exact ⟨cur, rfl, fun x h1 h2 => by omega, fun _ _ => rfl⟩

/-- C24: for `bytes ≥ 0` and a destination offset not below the source offset
(overlapping or not), `user_bcopy(src, dest, bytes)` returns, `dest[i]` then
holds what `src[i]` held before the call for `0 ≤ i < bytes`, and no byte
outside `dest[0..bytes-1]` has changed. -/
theorem user_bcopy_upward (mem : Arr) (src dest bytes : Int) (hb : 0 ≤ bytes)
    (hsd : src ≤ dest) (fuel : Nat) (hfuel : bytes.toNat < fuel) :
    ∃ mem2, user_bcopy fuel mem src dest bytes = some mem2 ∧
      (∀ i, 0 ≤ i → i < bytes → mem2 (dest + i) = mem (src + i)) ∧
      (∀ x, x < dest ∨ dest + bytes ≤ x → mem2 x = mem x) := by
  obtain ⟨mem2, hm, hcopy, hframe⟩ :=
    bcopyLoop_spec dest fuel (src + bytes - 1) (dest + bytes - 1) mem (by omega) (by omega)
      (by omega)
  refine ⟨mem2, hm, ?_, ?_⟩
  · intro i h0 h1
    rw [hcopy (dest + i) (by omega) (by omega)]
    congr 1
    omega
  · intro x hx
    exact hframe x (by omega)

theorem user_bcopy_upward_witness :
    (0 : Int) ≤ 3 ∧ (0 : Int) ≤ 2 ∧ (3 : Int).toNat < 4 ∧
    ∃ mem2, user_bcopy 4 (ofList [1, 2, 3, 4, 5] 0) 0 2 3 = some mem2 ∧
      (∀ i, 0 ≤ i → i < 3 → mem2 (2 + i) = ofList [1, 2, 3, 4, 5] 0 (0 + i)) ∧
      (∀ x, x < 2 ∨ 2 + 3 ≤ x → mem2 x = ofList [1, 2, 3, 4, 5] 0 x) :=
  ⟨by decide, by decide, by decide,
    user_bcopy_upward (ofList [1, 2, 3, 4, 5] 0) 0 2 3 (by decide) (by decide) 4 (by decide)⟩

/-! ## Debug allocation: the round trip -/

/-- A non-negative value below one that `int_t` holds is held by `int_t`. -/
theorem toIntT_of_le (w : Nat) {x y : Int} (h0 : 0 ≤ x) (hxy : x ≤ y)
    (hy : toIntT w y = y) : toIntT w x = x := by
  unfold toIntT at hy ⊢
  have hpos : 0 < 2 ^ w := Nat.pow_pos (by decide)
  have hlt := @Int.bmod_lt y (2 ^ w) hpos
  rw [hy] at hlt
  have hx : x < ((2 ^ w : Nat) : Int) := by omega
  rw [Int.bmod_def, Int.emod_eq_of_lt h0 hx, if_pos (by omega)]

/-- C25 fails on the code.  With a 32-bit `int_t` and nothing allocated,
`superlu_malloc(0)` returns a block whose size word is `0`, the mark of a
released block, and the first `superlu_free` of that block aborts with the
freed-pointer error, whatever the system allocator does.  And with the running
total at `2147483647`, `superlu_malloc(1)` does not raise the total by `1`: it
returns with the total `-2147483648`. -/
theorem superlu_free_aborts_on_empty_block :
    superlu_malloc 32 exampleHeap 1000 0 =
      Except.ok (1008, ⟨0, exampleHeap.word.set 1000 0⟩) ∧
    (∀ sys_free : Arr → Int → Arr,
      superlu_free 32 sys_free ⟨0, exampleHeap.word.set 1000 0⟩ 1008 =
        Except.error (MemAbort.free_freed, ⟨0, exampleHeap.word.set 1000 0⟩)) ∧
    (∃ h1, superlu_malloc 32 exampleFullHeap 1000 1 = Except.ok (1008, h1) ∧
      h1.superlu_malloc_total = -2147483648 ∧
      h1.superlu_malloc_total ≠ exampleFullHeap.superlu_malloc_total + 1) :=
  ⟨rfl, fun _ => rfl, ⟨_, rfl, rfl, by decide⟩⟩

/-- For a requested size `> 0`, a block the system allocator hands out, and a
running total that is non-negative and stays in the range of `int_t`,
`superlu_malloc(size)` raises the total by exactly `size`, and the first
`superlu_free` of the block returns and brings the total back to its value
before the allocation. -/
theorem superlu_round_trip_of_fit (w : Nat) (sys_free : Arr → Int → Arr) (h : DebugHeap)
    (buf : Int) (size : Nat)
    (hbuf : 0 < buf) (hsize : 0 < size) (h0 : 0 ≤ h.superlu_malloc_total)
    (hfit : toIntT w (h.superlu_malloc_total + size) = h.superlu_malloc_total + size) :
    ∃ h1 h2, superlu_malloc w h buf size = Except.ok (buf + DWORD, h1) ∧
      h1.superlu_malloc_total = h.superlu_malloc_total + size ∧
      superlu_free w sys_free h1 (buf + DWORD) = Except.ok h2 ∧
      h2.superlu_malloc_total = h.superlu_malloc_total := by
  have hszfit : toIntT w (size : Int) = size :=
    toIntT_of_le w (by omega) (by omega) hfit
  have htotfit : toIntT w h.superlu_malloc_total = h.superlu_malloc_total :=
    toIntT_of_le w h0 (by omega) hfit
  have hm : superlu_malloc w h buf size = Except.ok (buf + DWORD,
      { superlu_malloc_total := toIntT w (h.superlu_malloc_total + size),
        word := h.word.set buf size }) := by
    unfold superlu_malloc
    rw [if_neg (by omega)]
  refine ⟨_, { superlu_malloc_total := h.superlu_malloc_total,
               word := sys_free ((h.word.set buf size).set buf 0) buf }, hm, hfit, ?_, rfl⟩
  unfold superlu_free
  have hd : DWORD = 8 := rfl
  have hp : buf + DWORD - DWORD = buf := by omega
  simp only [hp, Arr.set_eq, hszfit, hfit]
  rw [if_neg (by omega), if_neg (by omega), if_neg (by omega)]
  have hsub : h.superlu_malloc_total + (size : Int) - size = h.superlu_malloc_total := by omega
  rw [hsub, htotfit, if_neg (by omega)]

/-! ## `SetIWork` -/

theorem ifillAt_apply (a : Arr) (off alen ival x : Int) :
    ifillAt a off alen ival x = if off ≤ x ∧ x < off + alen then ival else a x := by
  unfold ifillAt
  rw [ifill_apply]
  by_cases h : off ≤ x ∧ x < off + alen
  · rw [if_pos h, if_pos (by omega)]
  · rw [if_neg h, if_neg (by omega)]
    congr 1
    omega

theorem SetIWork_iwork (w : Nat) (m n panel_size : Int) (iworkptr : Arr) (x : Int) :
    (SetIWork w m n panel_size iworkptr).iwork x =
      if 3 * m ≤ x ∧ x < 3 * m + 2 * toIntT w (panel_size * m) ∧
          0 < toIntT w (panel_size * m) then EMPTY
      else iworkptr x := by
  show ifillAt (ifillAt iworkptr (0 + m + m + m) (toIntT w (m * panel_size)) EMPTY)
    (0 + m + m + m + toIntT w (panel_size * m)) (toIntT w (m * panel_size)) EMPTY x = _
  rw [ifillAt_apply, ifillAt_apply, mul_comm m panel_size]
  generalize toIntT w (panel_size * m) = q
  by_cases h1 : 0 + m + m + m + q ≤ x ∧ x < 0 + m + m + m + q + q
  · rw [if_pos h1, if_pos (by omega)]
  · rw [if_neg h1]
    by_cases h2 : 0 + m + m + m ≤ x ∧ x < 0 + m + m + m + q
    · rw [if_pos h2, if_pos (by omega)]
    · rw [if_neg h2, if_neg (by omega)]

/-- C26 as stated fails: with a 32-bit `int_t`, `m = 65536`, `n = 1` and
`panel_size = 32768` the product `panel_size * m` is `2^31` and is no `int_t`;
`SetIWork` puts `panel_lsub`, `xprune` and `marker` in front of `iworkptr` and
sets no entry to `EMPTY`. -/
theorem SetIWork_layout_counterexample :
    (0 : Int) ≤ 65536 ∧ (0 : Int) ≤ 1 ∧ (0 : Int) ≤ 32768 ∧
    (SetIWork 32 65536 1 32768 (fun _ => 7)).repfnz = 196608 ∧
    (SetIWork 32 65536 1 32768 (fun _ => 7)).panel_lsub = -2147287040 ∧
    (SetIWork 32 65536 1 32768 (fun _ => 7)).panel_lsub ≠ 3 * 65536 + 32768 * 65536 ∧
    (SetIWork 32 65536 1 32768 (fun _ => 7)).xprune = -4294770688 ∧
    (SetIWork 32 65536 1 32768 (fun _ => 7)).marker = -4294770687 ∧
    ¬ ((SetIWork 32 65536 1 32768 (fun _ => 7)).repfnz ≤
        (SetIWork 32 65536 1 32768 (fun _ => 7)).panel_lsub) ∧
    (SetIWork 32 65536 1 32768 (fun _ => 7)).iwork
        ((SetIWork 32 65536 1 32768 (fun _ => 7)).repfnz + 0) ≠ EMPTY ∧
    (∀ x, (SetIWork 32 65536 1 32768 (fun _ => 7)).iwork x = 7) := by
  refine ⟨by decide, by decide, by decide, rfl, rfl, by decide, rfl, rfl, by decide, ?_, ?_⟩
  · rw [SetIWork_iwork]
    decide
  · intro x
    rw [SetIWork_iwork, if_neg]
    · intro h
      exact absurd h.2.2 (by decide)

/-- C26 (amended): for `m, n, panel_size ≥ 0` whose product `panel_size*m` is
an `int_t`, `SetIWork` places the seven work arrays at the offsets `0`, `m`,
`2m`, `3m`, `3m + panel_size*m`, `3m + 2*panel_size*m` and
`3m + 2*panel_size*m + n` of `iworkptr`, each slice ending where the next
begins, sets the `panel_size*m` entries of `repfnz` and of `panel_lsub` to
`EMPTY`, and leaves every other position of `iworkptr` as it was. -/
theorem SetIWork_layout (w : Nat) (m n panel_size : Int) (iworkptr : Arr) (hm : 0 ≤ m)
    (hn : 0 ≤ n) (hp : 0 ≤ panel_size)
    (hfit : toIntT w (panel_size * m) = panel_size * m) :
    ((SetIWork w m n panel_size iworkptr).segrep = 0 ∧
      (SetIWork w m n panel_size iworkptr).parent = m ∧
      (SetIWork w m n panel_size iworkptr).xplore = 2 * m ∧
      (SetIWork w m n panel_size iworkptr).repfnz = 3 * m ∧
      (SetIWork w m n panel_size iworkptr).panel_lsub = 3 * m + panel_size * m ∧
      (SetIWork w m n panel_size iworkptr).xprune = 3 * m + 2 * panel_size * m ∧
      (SetIWork w m n panel_size iworkptr).marker = 3 * m + 2 * panel_size * m + n) ∧
    ((SetIWork w m n panel_size iworkptr).segrep ≤
        (SetIWork w m n panel_size iworkptr).parent ∧
      (SetIWork w m n panel_size iworkptr).parent ≤
        (SetIWork w m n panel_size iworkptr).xplore ∧
      (SetIWork w m n panel_size iworkptr).xplore ≤
        (SetIWork w m n panel_size iworkptr).repfnz ∧
      (SetIWork w m n panel_size iworkptr).repfnz ≤
        (SetIWork w m n panel_size iworkptr).panel_lsub ∧
      (SetIWork w m n panel_size iworkptr).panel_lsub ≤
        (SetIWork w m n panel_size iworkptr).xprune ∧
      (SetIWork w m n panel_size iworkptr).xprune ≤
        (SetIWork w m n panel_size iworkptr).marker) ∧
    (∀ i, 0 ≤ i → i < panel_size * m →
      (SetIWork w m n panel_size iworkptr).iwork
        ((SetIWork w m n panel_size iworkptr).repfnz + i) = EMPTY ∧
      (SetIWork w m n panel_size iworkptr).iwork
        ((SetIWork w m n panel_size iworkptr).panel_lsub + i) = EMPTY) ∧
    (∀ x, x < (SetIWork w m n panel_size iworkptr).repfnz ∨
        (SetIWork w m n panel_size iworkptr).xprune ≤ x →
      (SetIWork w m n panel_size iworkptr).iwork x = iworkptr x) := by
  have hq : 0 ≤ panel_size * m := mul_nonneg hp hm
  have e1 : (SetIWork w m n panel_size iworkptr).segrep = 0 := rfl
  have e2 : (SetIWork w m n panel_size iworkptr).parent = m := by
    show 0 + m = m
    omega
  have e3 : (SetIWork w m n panel_size iworkptr).xplore = 2 * m := by
    show 0 + m + m = 2 * m
    omega
  have e4 : (SetIWork w m n panel_size iworkptr).repfnz = 3 * m := by
    show 0 + m + m + m = 3 * m
    omega
  have e5 : (SetIWork w m n panel_size iworkptr).panel_lsub = 3 * m + panel_size * m := by
    show 0 + m + m + m + toIntT w (panel_size * m) = 3 * m + panel_size * m
    rw [hfit]
    omega
  have e6 : (SetIWork w m n panel_size iworkptr).xprune = 3 * m + 2 * panel_size * m := by
    show 0 + m + m + m + toIntT w (panel_size * m) + toIntT w (panel_size * m) =
      3 * m + 2 * panel_size * m
    rw [hfit, mul_assoc]
    omega
  have e7 : (SetIWork w m n panel_size iworkptr).marker = 3 * m + 2 * panel_size * m + n := by
    show 0 + m + m + m + toIntT w (panel_size * m) + toIntT w (panel_size * m) + n =
      3 * m + 2 * panel_size * m + n
    rw [hfit, mul_assoc]
    omega
  refine ⟨⟨e1, e2, e3, e4, e5, e6, e7⟩, ?_, ?_, ?_⟩
  · rw [e1, e2, e3, e4, e5, e6, e7, mul_assoc]
    refine ⟨?_, ?_, ?_, ?_, ?_, ?_⟩ <;> omega
  · intro i h0 h1
    rw [e4, e5, SetIWork_iwork, SetIWork_iwork, hfit]
    constructor
    · rw [if_pos (by omega)]
    · rw [if_pos (by omega)]
  · intro x hx
    rw [e4, e6, mul_assoc] at hx
    rw [SetIWork_iwork, hfit, if_neg (by omega)]

theorem SetIWork_layout_witness :
    (0 : Int) ≤ 2 ∧ (0 : Int) ≤ 3 ∧ (0 : Int) ≤ 1 ∧ toIntT 32 (1 * 2) = 1 * 2 ∧
    (((SetIWork 32 2 3 1 (fun _ => 7)).segrep = 0 ∧
      (SetIWork 32 2 3 1 (fun _ => 7)).parent = 2 ∧
      (SetIWork 32 2 3 1 (fun _ => 7)).xplore = 2 * 2 ∧
      (SetIWork 32 2 3 1 (fun _ => 7)).repfnz = 3 * 2 ∧
      (SetIWork 32 2 3 1 (fun _ => 7)).panel_lsub = 3 * 2 + 1 * 2 ∧
      (SetIWork 32 2 3 1 (fun _ => 7)).xprune = 3 * 2 + 2 * 1 * 2 ∧
      (SetIWork 32 2 3 1 (fun _ => 7)).marker = 3 * 2 + 2 * 1 * 2 + 3) ∧
    ((SetIWork 32 2 3 1 (fun _ => 7)).segrep ≤ (SetIWork 32 2 3 1 (fun _ => 7)).parent ∧
      (SetIWork 32 2 3 1 (fun _ => 7)).parent ≤ (SetIWork 32 2 3 1 (fun _ => 7)).xplore ∧
      (SetIWork 32 2 3 1 (fun _ => 7)).xplore ≤ (SetIWork 32 2 3 1 (fun _ => 7)).repfnz ∧
      (SetIWork 32 2 3 1 (fun _ => 7)).repfnz ≤
        (SetIWork 32 2 3 1 (fun _ => 7)).panel_lsub ∧
      (SetIWork 32 2 3 1 (fun _ => 7)).panel_lsub ≤
        (SetIWork 32 2 3 1 (fun _ => 7)).xprune ∧
      (SetIWork 32 2 3 1 (fun _ => 7)).xprune ≤ (SetIWork 32 2 3 1 (fun _ => 7)).marker) ∧
    (∀ i, 0 ≤ i → i < 1 * 2 →
      (SetIWork 32 2 3 1 (fun _ => 7)).iwork
        ((SetIWork 32 2 3 1 (fun _ => 7)).repfnz + i) = EMPTY ∧
      (SetIWork 32 2 3 1 (fun _ => 7)).iwork
        ((SetIWork 32 2 3 1 (fun _ => 7)).panel_lsub + i) = EMPTY) ∧
    (∀ x, x < (SetIWork 32 2 3 1 (fun _ => 7)).repfnz ∨
        (SetIWork 32 2 3 1 (fun _ => 7)).xprune ≤ x →
      (SetIWork 32 2 3 1 (fun _ => 7)).iwork x = (fun _ => 7) x)) :=
  ⟨by decide, by decide, by decide, rfl,
    SetIWork_layout 32 2 3 1 (fun _ => 7) (by decide) (by decide) (by decide) rfl⟩

/-! ## `relax_snode`: the indices read -/

theorem countLog_erase (n : Int) (et : Arr) :
    ∀ (k : Nat) (d : Arr) (log : ReadLog),
      (forLoop (countStepLog n et) k (d, log)).1 = forLoop (countStep n et) k d := by
  intro k
  induction k with
  | zero => intro d log; rfl
  | succ k ih =>
    intro d log
    show (countStepLog n et k (forLoop (countStepLog n et) k (d, log))).1 =
      countStep n et k (forLoop (countStep n et) k d)
    rw [← ih d log]
    unfold countStepLog countStep
    by_cases h : et k ≠ n
    · simp only [h, ne_eq, not_false_eq_true, if_true]
    · simp only [h, if_false]

theorem forwardPassLog_erase (n : Int) (et : Arr) (d : Arr) (log : ReadLog) :
    (forwardPassLog n et d log).1 = forwardPass n et d :=
  countLog_erase n et n.toNat (zeroDescendants n d) log

theorem climbLog_erase (n : Int) (et d : Arr) (rc : Int) :
    ∀ (f : Nat) (j p : Int) (log : ReadLog),
      (climbLog n et d rc f j p log).map Prod.fst = climb n et d rc f j p := by
  intro f
  induction f with
  | zero => intro j p log; rfl
  | succ f ih =>
    intro j p log
    unfold climbLog climb
    by_cases h1 : p ≠ n
    · rw [if_pos h1]
      by_cases h2 : d p < rc
      · rw [if_pos h2, if_pos ⟨h1, h2⟩]
        exact ih p (et p) _
      · rw [if_neg h2, if_neg (fun h => h2 h.2)]
        rfl
    · rw [if_neg h1, if_neg (fun h => h1 h.1)]
      rfl

theorem searchLeafLog_erase (n : Int) (d : Arr) :
    ∀ (f : Nat) (j : Int) (log : ReadLog),
      (searchLeafLog n d f j log).map Prod.fst = searchLeaf n d f j := by
  intro f
  induction f with
  | zero => intro j log; rfl
  | succ f ih =>
    intro j log
    unfold searchLeafLog searchLeaf
    by_cases h : d j ≠ 0 ∧ j < n
    · simp only [if_pos h]
      exact ih (j + 1) _
    · simp only [if_neg h]
      rfl

theorem snodeLoopLog_erase (n : Int) (et d : Arr) (rc : Int) (fuel : Nat) :
    ∀ (f : Nat) (j : Int) (re : Arr) (log : ReadLog),
      (snodeLoopLog n et d rc fuel f j re log).map Prod.fst =
        snodeLoop n et d rc fuel f j re := by
  intro f
  induction f with
  | zero => intro j re log; rfl
  | succ f ih =>
    intro j re log
    unfold snodeLoopLog snodeLoop
    by_cases hj : j < n
    · rw [if_pos hj, if_pos hj, ← climbLog_erase n et d rc fuel j (et j) (log.readEt j)]
      cases hc : climbLog n et d rc fuel j (et j) (log.readEt j) with
      | none => rfl
      | some res =>
        obtain ⟨e, log1⟩ := res
        simp only [Option.map_some']
        rw [← searchLeafLog_erase n d fuel (e + 1) log1]
        cases hs : searchLeafLog n d fuel (e + 1) log1 with
        | none => rfl
        | some res2 =>
          obtain ⟨j2, log2⟩ := res2
          simp only [Option.map_some']
          exact ih j2 _ log2
    · rw [if_neg hj, if_neg hj]
      rfl

/-- Dropping the log from the instrumented run gives the run of `relax_snode`. -/
theorem relax_snodeLog_erase (fuel : Nat) (n : Int) (et : Arr) (rc : Int) (d0 re0 : Arr) :
    (relax_snodeLog fuel n et rc d0 re0).map (fun r => (r.1, r.2.1)) =
      relax_snode fuel n et rc d0 re0 := by
  unfold relax_snodeLog relax_snode
  simp only
  rw [← snodeLoopLog_erase n et (forwardPass n et d0) rc fuel fuel 0 (ifill re0 n EMPTY)
    (forwardPassLog n et d0 ⟨[], [], []⟩).2, forwardPassLog_erase]
  cases snodeLoopLog n et (forwardPass n et d0) rc fuel fuel 0 (ifill re0 n EMPTY)
      (forwardPassLog n et d0 ⟨[], [], []⟩).2 with
  | none => rfl
  | some res => rfl

theorem ReadLog.UpTo.readEt {n : Int} {log : ReadLog} (h : log.UpTo n) {i : Int}
    (h0 : 0 ≤ i) (h1 : i < n) : (log.readEt i).UpTo n := by
  refine ⟨?_, h.2.1, h.2.2⟩
  intro k hk
  rcases List.mem_cons.1 hk with rfl | hk
  · exact ⟨h0, h1⟩
  · exact h.1 k hk

theorem ReadLog.UpTo.readDescendants {n : Int} {log : ReadLog} (h : log.UpTo n) {i : Int}
    (h0 : 0 ≤ i) (h1 : i ≤ n) : (log.readDescendants i).UpTo n := by
  refine ⟨h.1, ?_, h.2.2⟩
  intro k hk
  rcases List.mem_cons.1 hk with rfl | hk
  · exact ⟨h0, h1⟩
  · exact h.2.1 k hk

/-- The forward pass reads `et` and `descendants` at columns only. -/
theorem countLog_upTo {n : Int} {et : Arr} (hP : Postordered n et) :
    ∀ (k : Nat) (d : Arr) (log : ReadLog), (k : Int) ≤ n → log.UpTo n →
      (forLoop (countStepLog n et) k (d, log)).2.UpTo n := by
  intro k
  induction k with
  | zero => intro d log _ h; exact h
  | succ k ih =>
    intro d log hk h
    push_cast at hk
    have hprev := ih d log (by omega) h
    obtain ⟨hlt, hle⟩ := hP k (by omega) (by omega)
    show (countStepLog n et k (forLoop (countStepLog n et) k (d, log))).2.UpTo n
    unfold countStepLog
    by_cases hr : et k ≠ n
    · simp only [hr, ne_eq, not_false_eq_true, if_true]
      exact ((hprev.readEt (by omega) (by omega)).readDescendants (by omega)
        (by omega)).readDescendants (by omega) (by omega)
    · simp only [hr, if_false]
      exact hprev.readEt (by omega) (by omega)

/-- The climb reads `et` and `descendants` at columns only: the test
`parent != n` comes first. -/
theorem climbLog_upTo {n : Int} {et : Arr} (d : Arr) (rc : Int) (hP : Postordered n et) :
    ∀ (f : Nat) (j : Int) (log : ReadLog) (e : Int) (log2 : ReadLog), 0 ≤ j → j < n →
      log.UpTo n → climbLog n et d rc f j (et j) log = some (e, log2) → log2.UpTo n := by
  intro f
  induction f with
  | zero => intro j log e log2 _ _ _ h; simp [climbLog] at h
  | succ f ih =>
    intro j log e log2 h0 h1 hlog h
    obtain ⟨hlt, hle⟩ := hP j h0 h1
    unfold climbLog at h
    by_cases hr : et j ≠ n
    · have hin : et j < n := lt_of_le_of_ne hle hr
      rw [if_pos hr] at h
      by_cases hc : d (et j) < rc
      · simp only [if_pos hc] at h
        exact ih (et j) _ e log2 (by omega) hin
          ((hlog.readDescendants (by omega) (by omega)).readEt (by omega) hin) h
      · simp only [if_neg hc, Option.some.injEq, Prod.mk.injEq] at h
        rw [← h.2]
        exact hlog.readDescendants (by omega) (by omega)
    · rw [if_neg hr] at h
      simp only [Option.some.injEq, Prod.mk.injEq] at h
      rw [← h.2]
      exact hlog

/-- The search for a leaf returns, reads `descendants` at indices up to `n`
only, and its last read is at the index it returns. -/
theorem searchLeafLog_spec (n : Int) (d : Arr) :
    ∀ (f : Nat) (j : Int) (log : ReadLog), 0 ≤ j → j ≤ n → (n - j).toNat < f →
      log.UpTo n →
      ∃ j2 log2, searchLeafLog n d f j log = some (j2, log2) ∧ log2.UpTo n ∧
        j2 ∈ log2.descendants ∧ j ≤ j2 ∧ j2 ≤ n := by
  intro f
  induction f with
  | zero => intro j log _ _ hf; omega
  | succ f ih =>
    intro j log h0 hjn hf hlog
    unfold searchLeafLog
    have hlog1 := hlog.readDescendants h0 hjn
    by_cases h : d j ≠ 0 ∧ j < n
    · simp only [if_pos h]
      obtain ⟨j2, log2, hs, hup, hmem, hle, hn2⟩ :=
        ih (j + 1) _ (by omega) (by omega) (by omega) hlog1
      exact ⟨j2, log2, hs, hup, hmem, by omega, hn2⟩
    · simp only [if_neg h]
      exact ⟨j, _, rfl, hlog1, List.mem_cons_self _ _, le_refl _, hjn⟩

/-- The loop of lines 68-80 reads `et` at columns only and `descendants` at
indices up to `n`, and by the time it ends `descendants[n]` has been read. -/
theorem snodeLoopLog_spec {n : Int} {et : Arr} (d : Arr) (rc : Int) (hP : Postordered n et)
    (fuel : Nat) (hfuel : n.toNat ≤ fuel) :
    ∀ (f : Nat) (j : Int) (re : Arr) (log : ReadLog), 0 ≤ j → j ≤ n → (n - j).toNat < f →
      log.UpTo n → (j < n ∨ n ∈ log.descendants) →
      ∃ r log2, snodeLoopLog n et d rc fuel f j re log = some (r, log2) ∧ log2.UpTo n ∧
        n ∈ log2.descendants := by
  intro f
  induction f with
  | zero => intro j re log _ _ hf; omega
  | succ f ih =>
    intro j re log h0 hjn hf hlog hread
    unfold snodeLoopLog
    by_cases hj : j < n
    · rw [if_pos hj]
      obtain ⟨e, he, hje, hen, -, -⟩ := climb_spec d rc hP fuel j h0 hj (by omega)
      have herase := climbLog_erase n et d rc fuel j (et j) (log.readEt j)
      rw [he] at herase
      cases hc : climbLog n et d rc fuel j (et j) (log.readEt j) with
      | none => rw [hc] at herase; cases herase
      | some res =>
        obtain ⟨e2, log1⟩ := res
        rw [hc] at herase
        simp only [Option.map_some', Option.some.injEq] at herase
        subst herase
        have hlog1 := climbLog_upTo d rc hP fuel j _ _ log1 h0 hj (hlog.readEt h0 hj) hc
        obtain ⟨j2, log2, hs, hup, hmem, hle, hn2⟩ :=
          searchLeafLog_spec n d fuel (e2 + 1) log1 (by omega) (by omega) (by omega) hlog1
        simp only [hs]
        refine ih j2 _ log2 (by omega) hn2 (by omega) hup ?_
        by_cases hj2 : j2 < n
        · exact Or.inl hj2
        · have : j2 = n := by omega
          rw [this] at hmem
          exact Or.inr hmem
    · rw [if_neg hj]
      rcases hread with h | h
      · omega
      · exact ⟨re, log, rfl, hlog, h⟩

/-- On a forest with at least one column the run of `relax_snode` returns
having read `et` at columns only, `relax_end` nowhere, and `descendants` at
columns and at the index `n`. -/
theorem relax_snodeLog_reads {n : Int} {et : Arr} (rc : Int) (d0 re0 : Arr) (hn : 1 ≤ n)
    (hP : Postordered n et) (fuel : Nat) (hfuel : n.toNat < fuel) :
    ∃ re log, relax_snodeLog fuel n et rc d0 re0 = some (forwardPass n et d0, re, log) ∧
      (∀ i ∈ log.et, 0 ≤ i ∧ i < n) ∧ (∀ i ∈ log.descendants, 0 ≤ i ∧ i ≤ n) ∧
      log.relax_end = [] ∧ n ∈ log.descendants := by
  have hfp : (forwardPassLog n et d0 ⟨[], [], []⟩).2.UpTo n := by
    unfold forwardPassLog
    apply countLog_upTo hP n.toNat _ _ (by omega)
    refine ⟨?_, ?_, rfl⟩
    · intro i hi
      exact absurd hi (List.not_mem_nil i)
    · intro i hi
      exact absurd hi (List.not_mem_nil i)
  obtain ⟨re, log, hrun, hup, hmem⟩ :=
    snodeLoopLog_spec (forwardPass n et d0) rc hP fuel (by omega) fuel 0 (ifill re0 n EMPTY)
      (forwardPassLog n et d0 ⟨[], [], []⟩).2 (le_refl _) (by omega) (by simpa using hfuel)
      hfp (Or.inl (by omega))
  refine ⟨re, log, ?_, hup.1, hup.2.1, hup.2.2, hmem⟩
  unfold relax_snodeLog
  simp only [forwardPassLog_erase, hrun]

/-- C21 fails on the code: for `n = 1` and `et = [1]` the run of `relax_snode`
reads `et[0]` and then, in the test of line 79 with `j = 1 = n`,
`descendants[1]`; dropping the log gives the run of `relax_snode` itself. -/
theorem relax_snode_reads_descendants_n :
    (relax_snodeLog 2 1 (ofList [1] 0) 1 (fun _ => 0) (fun _ => 0)).map
      (fun r => (r.2.2.et, r.2.2.descendants, r.2.2.relax_end)) =
        some ([0, 0], [1], []) ∧
    (relax_snodeLog 2 1 (ofList [1] 0) 1 (fun _ => 0) (fun _ => 0)).map
      (fun r => (r.1, r.2.1)) =
        relax_snode 2 1 (ofList [1] 0) 1 (fun _ => 0) (fun _ => 0) :=
  ⟨rfl, relax_snodeLog_erase 2 1 (ofList [1] 0) 1 (fun _ => 0) (fun _ => 0)⟩

/-! ## `relax_snode`: blocks of a depth-first postorder -/

theorem strictDescendant_lt {n : Int} {et : Arr} (hP : Postordered n et) {k x : Int}
    (hx : x < n) (h : StrictDescendant n et k x) : k < x := by
  obtain ⟨i, -, hi⟩ := h
  have := parentOf_iterate_ge hP k (i + 1)
  rw [hi] at this
  push_cast at this
  omega

/-- A column has no more strict descendants than there are columns below it. -/
theorem numStrictDescendants_le {n : Int} {et : Arr} (hP : Postordered n et) {x : Int}
    (h0 : 0 ≤ x) (h1 : x < n) : (numStrictDescendants n et x : Int) ≤ x := by
  unfold numStrictDescendants
  have hsub : (Finset.Ico 0 n).filter (fun k => k ≠ x ∧ StrictDescendant n et k x) ⊆
      Finset.Ico 0 x := by
    intro k hk
    rw [Finset.mem_filter, Finset.mem_Ico] at hk
    exact Finset.mem_Ico.2 ⟨hk.1.1, strictDescendant_lt hP h1 hk.2.2⟩
  have hcard := Finset.card_le_card hsub
  rw [Int.card_Ico] at hcard
  omega

theorem strictDescendant_trans {n : Int} {et : Arr} (hP : Postordered n et) {k x y : Int}
    (hk : 0 ≤ k) (hy : y < n) (h1 : StrictDescendant n et k x)
    (h2 : StrictDescendant n et x y) : StrictDescendant n et k y := by
  obtain ⟨i, -, hi⟩ := h1
  obtain ⟨j, -, hj⟩ := h2
  have hcomp : (parentOf n et)^[j + 1 + (i + 1)] k = y := by
    rw [Function.iterate_add_apply, hi, hj]
  have hge := parentOf_iterate_ge hP k (j + 1 + (i + 1))
  rw [hcomp] at hge
  push_cast at hge
  refine ⟨j + 1 + i, Finset.mem_range.2 (by omega), ?_⟩
  have : j + 1 + i + 1 = j + 1 + (i + 1) := by omega
  rw [this]
  exact hcomp

/-- The parent of a strict descendant of `y` is `y` or a strict descendant of `y`. -/
theorem strictDescendant_parent {n : Int} {et : Arr} {x y : Int} (h0 : 0 ≤ x) (h1 : x < n)
    (h : StrictDescendant n et x y) : et x = y ∨ StrictDescendant n et (et x) y := by
  obtain ⟨i, hi, hxy⟩ := h
  rw [Function.iterate_succ_apply, parentOf_col et h0 h1] at hxy
  rcases Nat.eq_zero_or_pos i with hz | hpos
  · subst hz
    exact Or.inl hxy
  · right
    rw [Finset.mem_range] at hi
    refine ⟨i - 1, Finset.mem_range.2 (by omega), ?_⟩
    have : i - 1 + 1 = i := by omega
    rw [this]
    exact hxy

/-- In a depth-first postorder the interval of a strict descendant lies in
the interval of its ancestor. -/
theorem depthFirst_nested {n : Int} {et : Arr} (hD : DepthFirstPostordered n et) {x y : Int}
    (hx0 : 0 ≤ x) (hx1 : x < n) (hy0 : 0 ≤ y) (hy1 : y < n)
    (h : StrictDescendant n et x y) :
    y - numStrictDescendants n et y ≤ x - numStrictDescendants n et x := by
  obtain ⟨hP, hsub⟩ := hD
  have hxy := (hsub y x hy0 hy1 hx0 hx1).1 h
  have hle := numStrictDescendants_le hP hx0 hx1
  by_cases hz : (numStrictDescendants n et x : Int) = 0
  · omega
  · have hk : StrictDescendant n et (x - numStrictDescendants n et x) x :=
      (hsub x (x - numStrictDescendants n et x) hx0 hx1 (by omega) (by omega)).2
        ⟨le_refl _, by omega⟩
    have hky := strictDescendant_trans hP (by omega) hy1 hk h
    exact ((hsub y (x - numStrictDescendants n et x) hy0 hy1 (by omega) (by omega)).1 hky).1

/-- In a depth-first postorder the first column of an interval is a leaf. -/
theorem depthFirst_first_leaf {n : Int} {et : Arr} (hD : DepthFirstPostordered n et) {y : Int}
    (hy0 : 0 ≤ y) (hy1 : y < n) (hpos : 0 < (numStrictDescendants n et y : Int)) :
    (numStrictDescendants n et (y - numStrictDescendants n et y) : Int) = 0 := by
  have hPD := hD
  obtain ⟨hP, hsub⟩ := hD
  have hle := numStrictDescendants_le hP hy0 hy1
  have hl : StrictDescendant n et (y - numStrictDescendants n et y) y :=
    (hsub y _ hy0 hy1 (by omega) (by omega)).2 ⟨le_refl _, by omega⟩
  have hnest := depthFirst_nested hPD (by omega) (by omega) hy0 hy1 hl
  omega

/-- With more than `n` units of fuel `relax_snode` returns, and the facts of
`relax_snode_spec` and of `relax_snode_trace` hold of the one array it returns. -/
theorem relax_snode_blocks {n : Int} {et : Arr} (rc : Int) (desc0 re0 : Arr) (hn : 0 ≤ n)
    (hP : Postordered n et) (fuel : Nat) (hfuel : n.toNat < fuel) :
    ∃ re, relax_snode fuel n et rc desc0 re0 = some (forwardPass n et desc0, re) ∧
      (∀ s, 0 ≤ s → s < n → re s ≠ EMPTY → IsBlock n et (forwardPass n et desc0) rc s (re s)) ∧
      (∀ s t, 0 ≤ s → s < t → t < n → re s ≠ EMPTY → re t ≠ EMPTY → re s < t) ∧
      (∀ s, 0 ≤ s → s < n → re s ≠ EMPTY →
        climb n et (forwardPass n et desc0) rc fuel s (et s) = some (re s)) ∧
      (∀ s, 0 < s → s < n → re s ≠ EMPTY → forwardPass n et desc0 s = 0) ∧
      (∀ c, 0 ≤ c → c < n → (c = 0 ∨ forwardPass n et desc0 c = 0) →
        ∃ s, 0 ≤ s ∧ s ≤ c ∧ re s ≠ EMPTY ∧ c ≤ re s) := by
  obtain ⟨re, hre, -, hblocks, hord⟩ := relax_snode_spec rc desc0 re0 hn hP fuel hfuel
  obtain ⟨re2, hre2, hclimb, hleaf, hcover⟩ :=
    relax_snode_trace rc desc0 re0 hn hP fuel hfuel
  rw [hre] at hre2
  simp only [Option.some.injEq, Prod.mk.injEq, true_and] at hre2
  subst hre2
  exact ⟨re, hre, hblocks, hord, hclimb, hleaf, hcover⟩

/-- C22: for a forest numbered by a depth-first postorder and any
`relax_columns`, every block recorded by `relax_snode` is a complete subtree:
for a block start `s` with `e = relax_end[s]`, `s == e - descendants[e]`, the
columns `s..e` are exactly `e` and its strict descendants, and `s` is a leaf;
and every leaf of the forest lies in exactly one block. -/
theorem relax_snode_block_is_subtree (n : Int) (et : Arr) (relax_columns : Int)
    (descendants relax_end : Arr) (hn : 0 ≤ n) (hD : DepthFirstPostordered n et)
    (fuel : Nat) (hfuel : n.toNat < fuel) :
    ∃ d re, relax_snode fuel n et relax_columns descendants relax_end = some (d, re) ∧
      (∀ s, 0 ≤ s → s < n → re s ≠ EMPTY →
        s = re s - d (re s) ∧
        (∀ k, 0 ≤ k → k < n →
          (s ≤ k ∧ k ≤ re s ↔ k = re s ∨ StrictDescendant n et k (re s))) ∧
        numStrictDescendants n et s = 0) ∧
      (∀ c, 0 ≤ c → c < n → numStrictDescendants n et c = 0 →
        ∃ s, (0 ≤ s ∧ s < n ∧ re s ≠ EMPTY ∧ s ≤ c ∧ c ≤ re s) ∧
          ∀ t, 0 ≤ t ∧ t < n ∧ re t ≠ EMPTY ∧ t ≤ c ∧ c ≤ re t → t = s) := by
  have hP := hD.1
  have hsub := hD.2
  obtain ⟨re, hre, hblocks, hord, hclimb, hleaf, hcover⟩ :=
    relax_snode_blocks relax_columns descendants relax_end hn hP fuel hfuel
  have hdD : ∀ x, 0 ≤ x → x < n →
      forwardPass n et descendants x = numStrictDescendants n et x :=
    fun x h0 h1 => forwardPass_eq_numStrictDescendants hn hP descendants x h0 h1
  have hstartleaf : ∀ s, 0 ≤ s → s < n → re s ≠ EMPTY →
      (numStrictDescendants n et s : Int) = 0 := by
    intro s h0 h1 hs
    by_cases hz : s = 0
    · have := numStrictDescendants_le hP h0 h1
      omega
    · rw [← hdD s h0 h1]
      exact hleaf s (by omega) h1 hs
  have hfirst : ∀ s, 0 ≤ s → s < n → re s ≠ EMPTY →
      s = re s - numStrictDescendants n et (re s) := by
    intro s h0 h1 hs
    obtain ⟨hse, hen, -, -⟩ := hblocks s h0 h1 hs
    obtain ⟨k, hk, -, hlast⟩ :=
      climb_chain _ relax_columns hP fuel s (re s) h0 h1 (hclimb s h0 h1 hs)
    rcases Nat.eq_zero_or_pos k with hz | hpos
    · subst hz
      rw [Function.iterate_zero, id_eq] at hk
      have := hstartleaf s h0 h1 hs
      rw [← hk]
      omega
    · have hde : forwardPass n et descendants (re s) < relax_columns := by
        rcases hlast with h | h
        · omega
        · exact h
      rw [hdD (re s) (by omega) hen] at hde
      have hgrow := parentOf_iterate_ge hP s k
      rw [hk] at hgrow
      have hdesc : StrictDescendant n et s (re s) := by
        refine ⟨k - 1, Finset.mem_range.2 (by omega), ?_⟩
        have : k - 1 + 1 = k := by omega
        rw [this]
        exact hk
      have hint := (hsub (re s) s (by omega) hen h0 h1).1 hdesc
      by_contra hne
      have hlt : re s - numStrictDescendants n et (re s) < s := by omega
      have hl0 := numStrictDescendants_le hP (show 0 ≤ re s by omega) hen
      have hDl := depthFirst_first_leaf hD (show 0 ≤ re s by omega) hen (by omega)
      obtain ⟨t, ht0, htl, htne, hle⟩ :=
        hcover (re s - numStrictDescendants n et (re s)) (by omega) (by omega)
          (Or.inr (by rw [hdD _ (by omega) (by omega)]; exact hDl))
      have hts : re t < s := hord t s ht0 (by omega) h1 htne hs
      obtain ⟨-, -, -, hstop⟩ := hblocks t ht0 (by omega) htne
      have hsd : StrictDescendant n et (re t) (re s) :=
        (hsub (re s) (re t) (by omega) hen (by omega) (by omega)).2 ⟨by omega, by omega⟩
      have hpar := hP (re t) (by omega) (by omega)
      rcases strictDescendant_parent (show 0 ≤ re t by omega) (show re t < n by omega) hsd
        with hp | hp
      · rcases hstop with h | h
        · omega
        · rw [hp, hdD (re s) (by omega) hen] at h
          omega
      · have hplt := strictDescendant_lt hP hen hp
        have hnest := depthFirst_nested hD (show 0 ≤ et (re t) by omega)
          (show et (re t) < n by omega) (show 0 ≤ re s by omega) hen hp
        rcases hstop with h | h
        · omega
        · rw [hdD (et (re t)) (by omega) (by omega)] at h
          omega
  refine ⟨_, re, hre, ?_, ?_⟩
  · intro s h0 h1 hs
    obtain ⟨hse, hen, -, -⟩ := hblocks s h0 h1 hs
    have hf := hfirst s h0 h1 hs
    refine ⟨?_, ?_, ?_⟩
    · rw [hdD (re s) (by omega) hen]
      exact hf
    · intro k hk0 hk1
      constructor
      · rintro ⟨h2, h3⟩
        by_cases hke : k = re s
        · exact Or.inl hke
        · exact Or.inr ((hsub (re s) k (by omega) hen hk0 hk1).2 ⟨by omega, by omega⟩)
      · rintro (h | h)
        · omega
        · have := (hsub (re s) k (by omega) hen hk0 hk1).1 h
          omega
    · exact_mod_cast hstartleaf s h0 h1 hs
  · intro c h0 h1 hc
    obtain ⟨s, hs0, hsc, hsne, hce⟩ := hcover c h0 h1
      (Or.inr (by rw [hdD c h0 h1, hc]; rfl))
    refine ⟨s, ⟨hs0, by omega, hsne, hsc, hce⟩, ?_⟩
    rintro t ⟨ht0, ht1, htne, htc, hct⟩
    by_contra hts
    rcases lt_or_gt_of_ne hts with h | h
    · have := hord t s ht0 h (by omega) htne hsne
      omega
    · have := hord s t hs0 h ht1 hsne htne
      omega

theorem relax_snode_block_is_subtree_witness :
    (0 : Int) ≤ 6 ∧ DepthFirstPostordered 6 exampleEtree ∧ (6 : Int).toNat < 7 ∧
    ∃ d re, relax_snode 7 6 exampleEtree 2 (fun _ => 9) (fun _ => 8) = some (d, re) ∧
      (∀ s, 0 ≤ s → s < 6 → re s ≠ EMPTY →
        s = re s - d (re s) ∧
        (∀ k, 0 ≤ k → k < 6 →
          (s ≤ k ∧ k ≤ re s ↔ k = re s ∨ StrictDescendant 6 exampleEtree k (re s))) ∧
        numStrictDescendants 6 exampleEtree s = 0) ∧
      (∀ c, 0 ≤ c → c < 6 → numStrictDescendants 6 exampleEtree c = 0 →
        ∃ s, (0 ≤ s ∧ s < 6 ∧ re s ≠ EMPTY ∧ s ≤ c ∧ c ≤ re s) ∧
          ∀ t, 0 ≤ t ∧ t < 6 ∧ re t ≠ EMPTY ∧ t ≤ c ∧ c ≤ re t → t = s) :=
  ⟨by decide, exampleEtree_depthFirst, by decide,
    relax_snode_block_is_subtree 6 exampleEtree 2 (fun _ => 9) (fun _ => 8) (by decide)
      exampleEtree_depthFirst 7 (by decide)⟩

end SuperLU
